import Mathlib

/- Formal model of the Program Catalog service (`backend/service_temp.py`):
   reconstruction of the path-encoded program tree with bottom-up flag
   aggregation, the latest-active-version resolver, the software-effort
   upsert with per-aspect profile inheritance, and effort deletion by UUID. -/

/-! ### Dot-separated path primitives

Python's `path.split(".")` and `path.rsplit(".", 1)[0]`, modelled at the
character-list level. -/

/-- Split a character list at every occurrence of `sep`; `n` separators yield
`n + 1` (possibly empty) pieces, exactly like Python's `str.split(sep)`. -/
def splitOnChar (sep : Char) : List Char → List (List Char)
  | [] => [[]]
  | c :: cs =>
    match splitOnChar sep cs with
    | [] => [[]]
    | s :: ss => if c = sep then [] :: s :: ss else (c :: s) :: ss

/-- Number of dot-separated segments of a path: `len(path.split("."))`. -/
def pathDepth (p : String) : Nat := (splitOnChar '.' p.toList).length

/-- Characters strictly before the last `'.'` of the list
(`path.rsplit(".", 1)[0]` when a dot is present). -/
def parentChars (l : List Char) : List Char :=
  ((l.reverse.dropWhile (fun c => c != '.')).drop 1).reverse

/-- Source `get_parent_id_path`: `""` when the path has no dot, otherwise
everything before the last dot. -/
def getParentIdPath (path : String) : String :=
  if '.' ∈ path.toList then String.mk (parentChars path.toList) else ""

/-! ### Small list helpers for the mutable structures of the source -/

/-- Replace the element at index `i` by `f` of it (identity out of range). -/
def modifyIdx : List α → Nat → (α → α) → List α
  | [], _, _ => []
  | a :: as, 0, f => f a :: as
  | a :: as, n+1, f => a :: modifyIdx as n f

/-- Lookup in an association list where the most recent binding was prepended,
so the first hit is the latest one — Python dict assignment semantics for
`id_path_to_node`. -/
def lookupPath : List (String × Nat) → String → Option Nat
  | [], _ => none
  | (q, i) :: rest, p => if q = p then some i else lookupPath rest p

/-! ### Data model of the hierarchy builder -/

/-- One row of `_get_all_program_dicts()`: the current (latest active) version
of a program, as the dict of fields fetched by the source. -/
structure ProgRec where
  program_id : String := ""
  program_path : String
  name : String := ""
  date : Nat := 0
  expect_software_effort : Bool := false
  description : String := ""
  aliases : String := ""
  status : String := ""
  primary_location : String := ""
  organization_leader_name : String := ""
  chief_engineer_name : String := ""
  program_affiliation : String := ""
  program_value : String := ""
  program_type : String := ""
deriving DecidableEq, Repr

/-- Modelled from the spec (§3, the `models.program` module is not in `src/`):
the `ProgramTreeNode` DTO — display metadata, the two boolean flags and the
ordered children list, exactly the fields the source constructs. -/
structure ProgramTreeNode where
  program_name : String := ""
  program_id : String := ""
  program_path : String := ""
  description : String := ""
  primary_location : String := ""
  status : String := ""
  organization_leader_name : String := ""
  chief_engineer_name : String := ""
  program_type : String := ""
  program_value : String := ""
  expecting_software_efforts : Bool := false
  has_descendant_expecting_software_effort : Bool := false
  children : List ProgramTreeNode := []
deriving Inhabited

/-- Internal node record of the builder: the DTO fields plus the indices (in
insertion order) of the children appended so far.  Index-based references
model the shared mutable Python objects held by both `id_path_to_node` and
`nodes_by_path`. -/
structure NodeEntry where
  program_name : String
  program_id : String
  program_path : String
  description : String
  primary_location : String
  status : String
  organization_leader_name : String
  chief_engineer_name : String
  program_type : String
  program_value : String
  expecting_software_efforts : Bool
  has_descendant_expecting_software_effort : Bool
  childrenIdxs : List Nat
deriving DecidableEq, Repr

/-- Source `map_to_dto`, together with the two flag assignments that
immediately follow each construction. -/
def mapToDto (p : ProgRec) : NodeEntry :=
  { program_name := p.name
    program_id := p.program_id
    program_path := p.program_path
    description := p.description
    primary_location := p.primary_location
    status := p.status
    organization_leader_name := p.organization_leader_name
    chief_engineer_name := p.chief_engineer_name
    program_type := p.program_type
    program_value := p.program_value
    expecting_software_efforts := p.expect_software_effort
    has_descendant_expecting_software_effort := false
    childrenIdxs := [] }

/-- State of the population loop: `entries` is `nodes_by_path` (insertion
order, index = node identity), `pathToIdx` is `id_path_to_node`, `orphans`
collects the records skipped with an orphan warning. -/
structure BuildState where
  entries : List NodeEntry
  pathToIdx : List (String × Nat)
  orphans : List ProgRec
deriving Repr

/-- One iteration of the population loop: resolve the parent path; on a miss
log the record as an orphan and skip it, otherwise append the new node to the
parent's children and register it. -/
def insertStep (st : BuildState) (p : ProgRec) : BuildState :=
  match lookupPath st.pathToIdx (getParentIdPath p.program_path) with
  | none => { st with orphans := st.orphans ++ [p] }
  | some i =>
    let j := st.entries.length
    { entries :=
        (modifyIdx st.entries i
          (fun e => { e with childrenIdxs := e.childrenIdxs ++ [j] })) ++ [mapToDto p]
      pathToIdx := (p.program_path, j) :: st.pathToIdx
      orphans := st.orphans }

/-- State after popping the root: the root node is entry `0`. -/
def initState (root : ProgRec) : BuildState :=
  { entries := [mapToDto root], pathToIdx := [(root.program_path, 0)], orphans := [] }

/-- The population loop over the remaining (depth-sorted) records. -/
def populate (st : BuildState) (l : List ProgRec) : BuildState := l.foldl insertStep st

/-- Sort key relation of `program_data.sort(key=lambda p: len(p["program_path"].split(".")))`. -/
def depthLE (a b : ProgRec) : Prop := pathDepth a.program_path ≤ pathDepth b.program_path

instance : DecidableRel depthLE := fun x y =>
  inferInstanceAs (Decidable (pathDepth x.program_path ≤ pathDepth y.program_path))

instance : IsTotal ProgRec depthLE := ⟨fun x y => Nat.le_total (pathDepth x.program_path) (pathDepth y.program_path)⟩

instance : IsTrans ProgRec depthLE := ⟨fun _ _ _ hab hbc => Nat.le_trans hab hbc⟩

/-- The stable depth sort of the working copy (Python's `list.sort` is stable;
a stable insertion sort by the same key produces the identical list). -/
def sortProgramData (l : List ProgRec) : List ProgRec := List.insertionSort depthLE l

/-- The root-candidate counting loop: leading run of minimum-depth records in
the depth-sorted list (the loop breaks at the first deeper record). -/
def rootCandidatesCount (sorted : List ProgRec) (first_depth : Nat) : Nat :=
  (sorted.takeWhile (fun p => pathDepth p.program_path == first_depth)).length

/-- One step of the bottom-up aggregation loop, at node index `k`: if the node
expects software effort or already has the descendant flag, set the flag on the
node found under its parent path (skipping an empty parent path). -/
def bubbleStep (map : List (String × Nat)) (acc : List NodeEntry) (k : Nat) : List NodeEntry :=
  match acc.get? k with
  | none => acc
  | some e =>
    if e.expecting_software_efforts || e.has_descendant_expecting_software_effort then
      let pp := getParentIdPath e.program_path
      if pp ≠ "" then
        match lookupPath map pp with
        | some i =>
            modifyIdx acc i
              (fun x => { x with has_descendant_expecting_software_effort := true })
        | none => acc
      else acc
    else acc

/-- The aggregation loop over `reversed(nodes_by_path)`: indices
`n-1, n-2, …, 0`. -/
def bubbleRec (map : List (String × Nat)) (acc : List NodeEntry) : Nat → List NodeEntry
  | 0 => acc
  | k+1 => bubbleRec map (bubbleStep map acc k) k

/-- Materialise the Python object graph rooted at index `i` as a tree value.
`fuel` only bounds the recursion; children always have strictly larger indices
than their parent, so `entries.length` fuel is always enough. -/
def toTree (E : List NodeEntry) : Nat → Nat → ProgramTreeNode
  | 0, _ => default
  | fuel+1, i =>
    match E.get? i with
    | none => default
    | some e =>
      { program_name := e.program_name
        program_id := e.program_id
        program_path := e.program_path
        description := e.description
        primary_location := e.primary_location
        status := e.status
        organization_leader_name := e.organization_leader_name
        chief_engineer_name := e.chief_engineer_name
        program_type := e.program_type
        program_value := e.program_value
        expecting_software_efforts := e.expecting_software_efforts
        has_descendant_expecting_software_effort := e.has_descendant_expecting_software_effort
        children := e.childrenIdxs.map (toTree E fuel) }

/-- The raised `ValueError` for multiple root candidates, carrying the count
from the message and the `(name, path)` pairs logged for each candidate. -/
structure TreeIntegrityError where
  root_count : Nat
  candidates : List (String × String)
deriving DecidableEq, Repr

/-- The build state reached after the population loop (meaningful in the
single-root branch; the sorted list's head is popped as the root). -/
def treeState (records : List ProgRec) : BuildState :=
  match sortProgramData records with
  | [] => { entries := [], pathToIdx := [], orphans := [] }
  | root :: rest => populate (initState root) rest

/-- The records skipped (logged) as orphans by `get_all_programs_as_tree`. -/
def treeOrphans (records : List ProgRec) : List ProgRec := (treeState records).orphans

/-- The node store after the bottom-up aggregation pass, from which the
returned tree is materialised. -/
def finalEntries (records : List ProgRec) : List NodeEntry :=
  bubbleRec (treeState records).pathToIdx (treeState records).entries
    (treeState records).entries.length

/-- Source `get_all_programs_as_tree`, as a function of the snapshot of
current program dicts: `none` for an empty catalog, a raised integrity error
when several records share the minimum depth, otherwise the fully populated
and aggregated tree. -/
def get_all_programs_as_tree (program_data : List ProgRec) :
    Except TreeIntegrityError (Option ProgramTreeNode) :=
  if program_data.isEmpty then .ok none
  else
    match sortProgramData program_data with
    | [] => .ok none
    | first :: _ =>
      let sorted := sortProgramData program_data
      let first_depth := pathDepth first.program_path
      let cnt := rootCandidatesCount sorted first_depth
      if 1 < cnt then
        .error { root_count := cnt
                 candidates := (sorted.take cnt).map (fun p => (p.name, p.program_path)) }
      else
        let st := treeState program_data
        let finalEntries := bubbleRec st.pathToIdx st.entries st.entries.length
        .ok (some (toTree finalEntries finalEntries.length 0))

/-- Indices of the subtree rooted at `i`, in the preorder of the object graph
(parallel to `toTree`). -/
def subIdxs (E : List NodeEntry) : Nat → Nat → List Nat
  | 0, _ => []
  | fuel+1, i =>
    match E.get? i with
    | none => []
    | some e => i :: (e.childrenIdxs.map (subIdxs E fuel)).flatten

/-- All nodes of a tree value: the node itself and, recursively, every node of
each child. -/
def allNodes (t : ProgramTreeNode) : List ProgramTreeNode :=
  t :: (t.children.attach.map (fun c => allNodes c.1)).flatten
decreasing_by
  have h1 := List.sizeOf_lt_of_mem c.2
  have h2 : sizeOf t.children < sizeOf t := by cases t; simp
  omega

/-- Child relation on the node store: `j` was appended to the children of `i`. -/
def IsChild (E : List NodeEntry) (i j : Nat) : Prop :=
  ∃ e, E.get? i = some e ∧ j ∈ e.childrenIdxs

/-- Minimum path depth over a record list (`0` for an empty list). -/
def minDepth (records : List ProgRec) : Nat :=
  match records with
  | [] => 0
  | r :: rs => rs.foldl (fun m x => Nat.min m (pathDepth x.program_path)) (pathDepth r.program_path)

/-! ### Data model of the version resolver and the program lookups -/

/-- A `ProgramCatalogInfoModel` row: storage key `pk` (the model's `id`),
the business `program_id`, the version `date`, and the related program's
`active` flag (`program__active` in the source's filters). -/
structure PCIRow where
  pk : Nat := 0
  program_id : String := ""
  date : Nat := 0
  program_active : Bool := true
  name : String := ""
  program_path : String := ""
deriving DecidableEq, Repr

/-- One grouping step of `values("program_id").annotate(latest_date=Max("date"))`:
fold a row into the per-`program_id` maximum-date mapping. -/
def groupMaxStep (acc : List (String × Nat)) (r : PCIRow) : List (String × Nat) :=
  if acc.any (fun q => q.1 == r.program_id) then
    acc.map (fun q => if q.1 == r.program_id then (q.1, Nat.max q.2 r.date) else q)
  else acc ++ [(r.program_id, r.date)]

/-- Source `_get_latest_programs`: active-flagged rows, grouped by
`program_id`, with the maximum `date` per group.  A pure query. -/
def _get_latest_programs (rows : List PCIRow) : List (String × Nat) :=
  (rows.filter (fun r => r.program_active)).foldl groupMaxStep []

/-- Modelled from the spec (§3; the `models.program` module is not in `src/`):
the `Program` DTO produced by `_convert_program_catalog_info_to_dto`, reduced
to the identity fields the claims mention. -/
structure Program where
  program_id : String
  name : String
deriving DecidableEq, Repr

/-- Modelled from the spec (§6/§7; the serializer and pydantic model are not
in `src/`): serialising a `None` instance and validating the resulting
field-less dict raises — `Program`'s required fields are absent — so the
converter is a raising operation on an absent row. -/
def _convert_program_catalog_info_to_dto : Option PCIRow → Except String Program
  | none => .error "validation error: required program fields missing on None instance"
  | some m => .ok { program_id := m.program_id, name := m.name }

/-- Source `get_program_by_id`: filter current active rows by business
`program_id` and convert the first hit (or the absent row) to a DTO. -/
def get_program_by_id (rows : List PCIRow) (id : String) : Except String Program :=
  let latest := _get_latest_programs rows
  let result := rows.filter (fun r =>
    r.program_active && r.program_id == id && (latest.map (fun q => q.2)).contains r.date)
  _convert_program_catalog_info_to_dto result.head?

/-- Source `get_program_by_uuid`: the same lookup keyed by the storage key
(`id=id` on the model). -/
def get_program_by_uuid (rows : List PCIRow) (id : Nat) : Except String Program :=
  let latest := _get_latest_programs rows
  let result := rows.filter (fun r =>
    r.program_active && r.pk == id && (latest.map (fun q => q.2)).contains r.date)
  _convert_program_catalog_info_to_dto result.head?

/-! ### Data model of the effort upsert engine and deletion -/

/-- A profile row's field bag: the dict produced by `model_dump()`. -/
abbrev ProfileData := List (String × String)

/-- Set one attribute (`setattr`) on a field bag. -/
def setField (d : ProfileData) (kv : String × String) : ProfileData :=
  if d.any (fun x => x.1 == kv.1) then d.map (fun x => if x.1 == kv.1 then kv else x)
  else d ++ [kv]

/-- Apply `setattr(existing, k, v)` for every pair of the payload dump. -/
def overwriteFields (old new : ProfileData) : ProfileData := new.foldl setField old

/-- One profile table (per aspect): rows keyed by storage key, plus the next
key to hand out. -/
structure ProfileTable where
  rows : List (Nat × ProfileData) := []
  nextPk : Nat := 1
deriving DecidableEq, Repr

/-- Row lookup by storage key. -/
def ProfileTable.getRow (t : ProfileTable) (pk : Nat) : Option ProfileData :=
  (t.rows.find? (fun x => x.1 == pk)).map (fun x => x.2)

/-- `objects.create(**data)`: append a fresh row, return its key. -/
def ProfileTable.createRow (t : ProfileTable) (d : ProfileData) : ProfileTable × Nat :=
  (⟨t.rows ++ [(t.nextPk, d)], t.nextPk + 1⟩, t.nextPk)

/-- `instance.save()` after field assignment: replace the row's data. -/
def ProfileTable.saveRow (t : ProfileTable) (pk : Nat) (d : ProfileData) : ProfileTable :=
  ⟨t.rows.map (fun x => if x.1 == pk then (pk, d) else x), t.nextPk⟩

/-- `hard_delete()`: remove the row. -/
def ProfileTable.hardDeleteRow (t : ProfileTable) (pk : Nat) : ProfileTable :=
  ⟨t.rows.filter (fun x => x.1 != pk), t.nextPk⟩

/-- The dual storage shape of `linked_software_efforts`: a genuine
many-to-many relation (pks of the related efforts) or a flat JSON list of raw
identifier strings, where an unresolvable entry may be `None`. -/
inductive LinkedStore
  | m2m (pks : List Nat)
  | flat (ids : List (Option String))
deriving DecidableEq, Repr

/-- A `SoftwareEffortModel` row. -/
structure EffortRow where
  pk : Nat
  uuid : String
  name : String := ""
  program_fk : Nat := 0
  parent_fk : Option Nat := none
  inherit_statement_of_work_profile : Bool := true
  inherit_technical_points_of_contact : Bool := true
  inherit_developer_setup : Bool := true
  inherit_work_location : Bool := true
  local_statement_of_work_profile : Option Nat := none
  local_technical_points_of_contact : Option Nat := none
  local_developer_setup : Option Nat := none
  local_work_location : Option Nat := none
  linked_software_efforts : LinkedStore := .flat []
deriving DecidableEq, Repr

/-- A raw entry of the payload's `linked_software_efforts` list: either a
plain value (stringified) or a structured dict. -/
inductive RawLink
  | str (s : String)
  | dict (fields : List (String × String))
deriving DecidableEq, Repr

/-- The incoming `SoftwareEffort` pydantic payload. -/
structure SoftwareEffortPayload where
  uuid : Option String := none
  name : String := ""
  parent_uuid : Option String := none
  inherit_statement_of_work_profile : Bool := true
  inherit_technical_points_of_contact : Bool := true
  inherit_developer_setup : Bool := true
  inherit_work_location : Bool := true
  statement_of_work_profile : Option ProfileData := none
  technical_points_of_contact : Option ProfileData := none
  developer_setup : Option ProfileData := none
  work_location : Option ProfileData := none
  linked_software_efforts : Option (List RawLink) := none
deriving DecidableEq, Repr

/-- The storage state touched by the effort engine: program rows, effort rows
and the four per-aspect profile tables. -/
structure CatalogDB where
  programs : List PCIRow := []
  efforts : List EffortRow := []
  sowProfiles : ProfileTable := {}
  tpocProfiles : ProfileTable := {}
  devProfiles : ProfileTable := {}
  wlProfiles : ProfileTable := {}
  nextEffortPk : Nat := 1
deriving DecidableEq, Repr

/-- Modelled from the spec (§3/§4.3, the `SoftwareEffortModel` is not in
`src/`): a created effort's `uuid` is assigned fresh at creation; a payload
UUID that matched no effort is not reused as the new identity. -/
def freshEffortUuid (db : CatalogDB) : String := "generated-" ++ toString db.nextEffortPk

/-- Source `_create_effort_relation`: create a profile row when the payload
supplies data whose dump is non-empty (`if relation_data:`). -/
def createRelation (t : ProfileTable) (data : Option ProfileData) : ProfileTable × Option Nat :=
  match data with
  | none => (t, none)
  | some d => if d.isEmpty then (t, none) else
      let tr := t.createRow d
      (tr.1, some tr.2)

/-- Source `manage_local_profile` (update path).  `existing_fk` is the
current `local_X` reference of the effort.  Returns the updated aspect table
and the reference to assign. -/
def manage_local_profile (t : ProfileTable) (existing_fk : Option Nat)
    (inherit_flag : Bool) (input_profile_data : Option ProfileData) :
    ProfileTable × Option Nat :=
  if inherit_flag then
    match existing_fk with
    | some pk => (t.hardDeleteRow pk, none)
    | none => (t, none)
  else
    match input_profile_data with
    | none => (t, existing_fk)
    | some d =>
      match existing_fk with
      | some pk => (t.saveRow pk (overwriteFields ((t.getRow pk).getD []) d), some pk)
      | none => createRelation t (some d)

/-- The updated effort row of the update branch: scalars, flags and parent
overwritten from the payload, each `local_X` reference re-pointed to the
result of the profile reconciliation for that aspect. -/
def reconciledEffort (db : CatalogDB) (prog : PCIRow) (parent_fk : Option Nat)
    (p : SoftwareEffortPayload) (inst : EffortRow) : EffortRow :=
  { inst with
    name := p.name
    program_fk := prog.pk
    inherit_statement_of_work_profile := p.inherit_statement_of_work_profile
    inherit_technical_points_of_contact := p.inherit_technical_points_of_contact
    inherit_developer_setup := p.inherit_developer_setup
    inherit_work_location := p.inherit_work_location
    parent_fk := parent_fk
    local_statement_of_work_profile := (manage_local_profile db.sowProfiles
      inst.local_statement_of_work_profile p.inherit_statement_of_work_profile
      p.statement_of_work_profile).2
    local_technical_points_of_contact := (manage_local_profile db.tpocProfiles
      inst.local_technical_points_of_contact p.inherit_technical_points_of_contact
      p.technical_points_of_contact).2
    local_developer_setup := (manage_local_profile db.devProfiles
      inst.local_developer_setup p.inherit_developer_setup p.developer_setup).2
    local_work_location := (manage_local_profile db.wlProfiles
      inst.local_work_location p.inherit_work_location p.work_location).2 }

/-- The update branch of `save_efforts_for_program`: overwrite scalars and
flags, reconcile the four local profiles, re-point the parent, save. -/
def updateExistingEffort (db : CatalogDB) (prog : PCIRow) (parent_fk : Option Nat)
    (p : SoftwareEffortPayload) (inst : EffortRow) : CatalogDB :=
  { db with
    sowProfiles := (manage_local_profile db.sowProfiles
      inst.local_statement_of_work_profile p.inherit_statement_of_work_profile
      p.statement_of_work_profile).1
    tpocProfiles := (manage_local_profile db.tpocProfiles
      inst.local_technical_points_of_contact p.inherit_technical_points_of_contact
      p.technical_points_of_contact).1
    devProfiles := (manage_local_profile db.devProfiles
      inst.local_developer_setup p.inherit_developer_setup p.developer_setup).1
    wlProfiles := (manage_local_profile db.wlProfiles
      inst.local_work_location p.inherit_work_location p.work_location).1
    efforts := db.efforts.map (fun e =>
      if e.pk == inst.pk then reconciledEffort db prog parent_fk p inst else e) }

/-- The create branch of `save_efforts_for_program`: create local profiles
for the non-inherited aspects with data, then create the effort row. -/
def createNewEffort (linkM2M : Bool) (db : CatalogDB) (prog : PCIRow)
    (parent_fk : Option Nat) (p : SoftwareEffortPayload) : CatalogDB × EffortRow :=
  let sowR := if !p.inherit_statement_of_work_profile && p.statement_of_work_profile.isSome
    then createRelation db.sowProfiles p.statement_of_work_profile else (db.sowProfiles, none)
  let tpocR := if !p.inherit_technical_points_of_contact && p.technical_points_of_contact.isSome
    then createRelation db.tpocProfiles p.technical_points_of_contact else (db.tpocProfiles, none)
  let devR := if !p.inherit_developer_setup && p.developer_setup.isSome
    then createRelation db.devProfiles p.developer_setup else (db.devProfiles, none)
  let wlR := if !p.inherit_work_location && p.work_location.isSome
    then createRelation db.wlProfiles p.work_location else (db.wlProfiles, none)
  let eff : EffortRow :=
    { pk := db.nextEffortPk
      uuid := freshEffortUuid db
      name := p.name
      program_fk := prog.pk
      parent_fk := parent_fk
      inherit_statement_of_work_profile := p.inherit_statement_of_work_profile
      inherit_technical_points_of_contact := p.inherit_technical_points_of_contact
      inherit_developer_setup := p.inherit_developer_setup
      inherit_work_location := p.inherit_work_location
      local_statement_of_work_profile := sowR.2
      local_technical_points_of_contact := tpocR.2
      local_developer_setup := devR.2
      local_work_location := wlR.2
      linked_software_efforts := if linkM2M then .m2m [] else .flat [] }
  ({ db with
      sowProfiles := sowR.1
      tpocProfiles := tpocR.1
      devProfiles := devR.1
      wlProfiles := wlR.1
      efforts := db.efforts ++ [eff]
      nextEffortPk := db.nextEffortPk + 1 }, eff)

/-- Dict lookup returning the value only when present and truthy. -/
def truthyGet (f : List (String × String)) (k : String) : Option String :=
  match (f.find? (fun kv => kv.1 == k)).map (fun kv => kv.2) with
  | some v => if v = "" then none else some v
  | none => none

/-- Identifier extraction from a raw linked-effort item: for a dict, the
first truthy value under `uuid`, `id`, `pk` in that order; otherwise the
stringified, stripped item. -/
def extractIdentifier : RawLink → Option String
  | .str s => some s.trim
  | .dict f =>
    match truthyGet f "uuid" with
    | some v => some v
    | none =>
      match truthyGet f "id" with
      | some v => some v
      | none => truthyGet f "pk"

/-- Source `resolve_identifier_to_instance`: falsy identifiers resolve to
nothing; otherwise a UUID lookup against existing efforts, then, for purely
numeric identifiers, a storage-key lookup. -/
def resolve_identifier_to_instance (db : CatalogDB) : Option String → Option EffortRow
  | none => none
  | some s =>
    if s = "" then none
    else
      match db.efforts.find? (fun e => e.uuid == s) with
      | some found => some found
      | none =>
        if s.toList.all Char.isDigit then
          match s.toNat? with
          | some n => db.efforts.find? (fun e => e.pk == n)
          | none => none
        else none

/-- The resolution loop: accumulate resolved effort rows and the positional
identifier list (canonical uuid on success, the raw identifier otherwise). -/
def resolveLinks (db : CatalogDB) (raws : List RawLink) :
    List EffortRow × List (Option String) :=
  raws.foldl
    (fun acc raw =>
      match resolve_identifier_to_instance db (extractIdentifier raw) with
      | some t => (acc.1 ++ [t], acc.2 ++ [some t.uuid])
      | none => (acc.1, acc.2 ++ [extractIdentifier raw]))
    ([], [])

/-- Store the linked-effort resolution result on the instance: wholesale
`set` of the relation for M2M, the positional identifier list otherwise. -/
def applyLinked (linkM2M : Bool) (db : CatalogDB) (instPk : Nat)
    (raws : Option (List RawLink)) : CatalogDB :=
  match raws with
  | none => db
  | some rl =>
    let res := resolveLinks db rl
    let newLinked := if linkM2M then LinkedStore.m2m (res.1.map (fun e => e.pk))
      else LinkedStore.flat res.2
    { db with efforts := db.efforts.map (fun e =>
        if e.pk == instPk then { e with linked_software_efforts := newLinked } else e) }

/-- Parent resolution: a truthy `parent_uuid` is looked up; a miss leaves the
parent unset (the effort is orphaned with a warning). -/
def resolveParentFk (db : CatalogDB) (p : SoftwareEffortPayload) : Option Nat :=
  match p.parent_uuid with
  | some s => if s ≠ "" then (db.efforts.find? (fun e => e.uuid == s)).map (fun e => e.pk)
      else none
  | none => none

/-- Create-versus-update determination: a truthy payload UUID that matches an
existing effort selects the update branch. -/
def findExistingEffort (db : CatalogDB) (p : SoftwareEffortPayload) : Option EffortRow :=
  match p.uuid with
  | some u => if u ≠ "" then db.efforts.find? (fun e => e.uuid == u) else none
  | none => none

/-- The upsert core: update in place when the payload UUID matches, create a
fresh effort otherwise.  Returns the storage key of the saved instance. -/
def effortUpsert (linkM2M : Bool) (db : CatalogDB) (prog : PCIRow)
    (parent_fk : Option Nat) (p : SoftwareEffortPayload) : CatalogDB × Nat :=
  match findExistingEffort db p with
  | some inst => (updateExistingEffort db prog parent_fk p inst, inst.pk)
  | none =>
    let r := createNewEffort linkM2M db prog parent_fk p
    (r.1, r.2.pk)

/-- Source `save_efforts_for_program`: guard the payload, resolve the owning
program by business id (abort on a miss), resolve the parent, upsert the
effort with its profile reconciliation, then resolve and store the linked
efforts.  `linkM2M` is the storage-shape capability of the deployment. -/
def save_efforts_for_program (linkM2M : Bool) (db : CatalogDB) (id : String)
    (payload : Option SoftwareEffortPayload) : CatalogDB :=
  match payload with
  | none => db
  | some p =>
    match db.programs.find? (fun r => r.program_id == id) with
    | none => db
    | some prog =>
      let parent_fk := resolveParentFk db p
      let up := effortUpsert linkM2M db prog parent_fk p
      applyLinked linkM2M up.1 up.2 p.linked_software_efforts

/-- Hexadecimal digit (either case). -/
def isHexDigitChar (c : Char) : Bool :=
  c.isDigit || ('a' ≤ c && c ≤ 'f') || ('A' ≤ c && c ≤ 'F')

/-- Modelled from the spec (§4.4; Python's `uuid.UUID` is a library): a
well-formed UUID string in the hyphenated `8-4-4-4-12` hex form, either
case. -/
def isValidUuidString (s : String) : Bool :=
  match splitOnChar '-' s.toList with
  | [a, b, c, d, e] =>
    a.length == 8 && b.length == 4 && c.length == 4 && d.length == 4 && e.length == 12 &&
    (a ++ b ++ c ++ d ++ e).all isHexDigitChar
  | _ => false

/-- The canonical string form of a parsed UUID (lowercase hex). -/
def uuidCanon (s : String) : String := String.mk (s.toList.map Char.toLower)

/-- One guarded profile deletion of the delete path:
`if effort.local_X_id: effort.local_X.hard_delete()`. -/
def deleteIfPresent (t : ProfileTable) (fk : Option Nat) : ProfileTable :=
  match fk with
  | some pk => t.hardDeleteRow pk
  | none => t

/-- Source `delete_effort_by_uuid`: reject malformed UUIDs before any lookup;
return false when no effort matches; otherwise hard-delete each of the four
local profiles whose foreign key is present, then the effort, atomically. -/
def delete_effort_by_uuid (db : CatalogDB) (effort_uuid : String) : CatalogDB × Bool :=
  if !isValidUuidString effort_uuid then (db, false)
  else
    match db.efforts.find? (fun e => e.uuid == uuidCanon effort_uuid) with
    | none => (db, false)
    | some effort =>
      ({ db with
          sowProfiles := deleteIfPresent db.sowProfiles effort.local_statement_of_work_profile
          devProfiles := deleteIfPresent db.devProfiles effort.local_developer_setup
          tpocProfiles := deleteIfPresent db.tpocProfiles effort.local_technical_points_of_contact
          wlProfiles := deleteIfPresent db.wlProfiles effort.local_work_location
          efforts := db.efforts.filter (fun e => e.pk != effort.pk) }, true)

/-! ### Aspect indexing for the per-aspect claims -/

/-- The four independently inheritable aspects. -/
inductive Aspect
  | sow
  | tpoc
  | dev
  | wl
deriving DecidableEq, Repr

/-- The payload's `inherit_X` flag for an aspect. -/
def Aspect.inheritFlag (a : Aspect) (p : SoftwareEffortPayload) : Bool :=
  match a with
  | .sow => p.inherit_statement_of_work_profile
  | .tpoc => p.inherit_technical_points_of_contact
  | .dev => p.inherit_developer_setup
  | .wl => p.inherit_work_location

/-- The payload's profile data for an aspect. -/
def Aspect.payloadData (a : Aspect) (p : SoftwareEffortPayload) : Option ProfileData :=
  match a with
  | .sow => p.statement_of_work_profile
  | .tpoc => p.technical_points_of_contact
  | .dev => p.developer_setup
  | .wl => p.work_location

/-- The aspect's profile table in the storage state. -/
def Aspect.table (a : Aspect) (db : CatalogDB) : ProfileTable :=
  match a with
  | .sow => db.sowProfiles
  | .tpoc => db.tpocProfiles
  | .dev => db.devProfiles
  | .wl => db.wlProfiles

/-- The effort's `local_X` reference for an aspect. -/
def Aspect.localFk (a : Aspect) (e : EffortRow) : Option Nat :=
  match a with
  | .sow => e.local_statement_of_work_profile
  | .tpoc => e.local_technical_points_of_contact
  | .dev => e.local_developer_setup
  | .wl => e.local_work_location

/-- Storage-key hygiene of a profile table: every row key was handed out
before `nextPk`, and keys are distinct. -/
def ProfileTable.WF (t : ProfileTable) : Prop :=
  (∀ x ∈ t.rows, x.1 < t.nextPk) ∧ (t.rows.map (fun x => x.1)).Nodup

/-- Storage hygiene of the catalog: effort keys are bounded and distinct,
effort uuids are distinct, and every profile table is well-keyed. -/
def CatalogDB.WF (db : CatalogDB) : Prop :=
  (∀ e ∈ db.efforts, e.pk < db.nextEffortPk) ∧
  (db.efforts.map (fun e => e.pk)).Nodup ∧
  (db.efforts.map (fun e => e.uuid)).Nodup ∧
  db.sowProfiles.WF ∧ db.tpocProfiles.WF ∧ db.devProfiles.WF ∧ db.wlProfiles.WF

instance (t : ProfileTable) : Decidable t.WF := by
  unfold ProfileTable.WF; infer_instance

instance (db : CatalogDB) : Decidable db.WF := by
  unfold CatalogDB.WF; infer_instance

/-- The storage key of the instance a `saveEffort` call writes: the matched
effort's key on the update path, the fresh key on the create path. -/
def savedEffortPk (db : CatalogDB) (p : SoftwareEffortPayload) : Nat :=
  match findExistingEffort db p with
  | some inst => inst.pk
  | none => db.nextEffortPk

/-- The storage state against which linked-effort identifiers are resolved:
the state right after the upsert, before the linked-efforts step. -/
def preLinkDB (linkM2M : Bool) (db : CatalogDB) (prog : PCIRow)
    (p : SoftwareEffortPayload) : CatalogDB :=
  (effortUpsert linkM2M db prog (resolveParentFk db p) p).1

/-- A node entry with its children forgotten (for stating that the
population loop never touches the root's other fields). -/
def stripChildren (e : NodeEntry) : NodeEntry := { e with childrenIdxs := [] }

/-- Invariant of the population loop (single-root branch), with `d0` the
depth of the root record's path. -/
structure PopInv (d0 : Nat) (st : BuildState) : Prop where
  n_pos : 1 ≤ st.entries.length
  path0 : ∀ e, st.entries.get? 0 = some e → pathDepth e.program_path = d0
  depth_tail : ∀ k e, st.entries.get? k = some e → 1 ≤ k → d0 + 1 ≤ pathDepth e.program_path
  depth_mono : ∀ k1 k2 e1 e2, k1 ≤ k2 → st.entries.get? k1 = some e1 →
    st.entries.get? k2 = some e2 → pathDepth e1.program_path ≤ pathDepth e2.program_path
  map_sound : ∀ q i, lookupPath st.pathToIdx q = some i →
    ∃ e, st.entries.get? i = some e ∧ e.program_path = q
  map_complete : ∀ i e, st.entries.get? i = some e →
    lookupPath st.pathToIdx e.program_path ≠ none
  child_bound : ∀ i j, IsChild st.entries i j → i < j ∧ j < st.entries.length
  parent_exists : ∀ j, 1 ≤ j → j < st.entries.length → ∃ i, IsChild st.entries i j
  parent_unique : ∀ i i' j, IsChild st.entries i j → IsChild st.entries i' j → i = i'
  children_nodup : ∀ i e, st.entries.get? i = some e → e.childrenIdxs.Nodup
  parent_lookup : ∀ i j, IsChild st.entries i j →
    ∀ ej, st.entries.get? j = some ej →
      lookupPath st.pathToIdx (getParentIdPath ej.program_path) = some i
  hasDesc_false : ∀ e ∈ st.entries, e.has_descendant_expecting_software_effort = false
  orphan_parent : ∀ r ∈ st.orphans, ∀ i e, st.entries.get? i = some e →
    e.program_path ≠ getParentIdPath r.program_path
  orphan_depth : ∀ r ∈ st.orphans, d0 + 1 ≤ pathDepth r.program_path

/-- Rebuild a character list from its dot-separated segments (inverse of
`splitOnChar '.'`). -/
def joinDots : List (List Char) → List Char
  | [] => []
  | [s] => s
  | s :: ss => s ++ '.' :: joinDots ss

/-- The dot-separated segments of a path string. -/
def segsOf (p : String) : List (List Char) := splitOnChar '.' p.toList

/-- Entry `j` of the store carries `expecting_software_efforts = true`. -/
def expectingAt (E : List NodeEntry) (j : Nat) : Prop :=
  ∃ e, E.get? j = some e ∧ e.expecting_software_efforts = true

/-- Some proper descendant of `i` in the object graph expects software
efforts: the specification's meaning of the aggregated flag. -/
def DescExpecting (E : List NodeEntry) (i : Nat) : Prop :=
  ∃ j, Relation.TransGen (IsChild E) i j ∧ expectingAt E j

/-- Node `j` itself expects efforts or dominates one that does: the condition
under which the aggregation loop propagates the flag to `j`'s parent. -/
def needsFlag (E : List NodeEntry) (j : Nat) : Prop :=
  expectingAt E j ∨ DescExpecting E j

/-- The mutation applied by the aggregation loop to the parent object. -/
def setDescFlag (x : NodeEntry) : NodeEntry :=
  { x with has_descendant_expecting_software_effort := true }

/-- Loop invariant of the bottom-up aggregation: with indices `k … n-1`
already processed, the accumulator differs from the populated entries only in
the descendant flags, and a flag is set exactly for parents of an
already-processed index that needed propagation. -/
structure BubbleInv (st : BuildState) (k : Nat) (acc : List NodeEntry) : Prop where
  len : acc.length = st.entries.length
  pres : ∀ i e', acc.get? i = some e' → ∃ e, st.entries.get? i = some e ∧
    e' = { e with
      has_descendant_expecting_software_effort :=
        e'.has_descendant_expecting_software_effort }
  flag : ∀ i e', acc.get? i = some e' →
    (e'.has_descendant_expecting_software_effort = true ↔
      ∃ j, IsChild st.entries i j ∧ k ≤ j ∧ needsFlag st.entries j)

/-- Some node strictly below `t` (in `t`'s children's subtrees) expects
software efforts: the specified meaning of the flag, read off the tree. -/
def treeDescExpecting (t : ProgramTreeNode) : Prop :=
  ∃ c ∈ t.children, ∃ m ∈ allNodes c, m.expecting_software_efforts = true

/-! ### Concrete fixtures used by witnesses and counterexamples -/

/-- Witness fixture: one effort with a linked statement-of-work profile. -/
def wEffort8 : EffortRow :=
  { pk := 1, uuid := "11111111-1111-1111-1111-111111111111"
    local_statement_of_work_profile := some 5 }

/-- Witness fixture: a catalog holding `wEffort8` and its profile row. -/
def wDb8 : CatalogDB :=
  { efforts := [wEffort8]
    sowProfiles := { rows := [(5, [("a", "b")])], nextPk := 6 }
    nextEffortPk := 2 }

/-- Witness fixture: the program row the saves resolve. -/
def wProg : PCIRow := { pk := 7, program_id := "P1" }

/-- Witness fixture: an existing effort with a linked SOW profile. -/
def wInst5 : EffortRow :=
  { pk := 1, uuid := "11111111-1111-1111-1111-111111111111"
    local_statement_of_work_profile := some 5 }

/-- Witness fixture: catalog for the update-path saves. -/
def wDb5 : CatalogDB :=
  { programs := [wProg]
    efforts := [wInst5]
    sowProfiles := { rows := [(5, [("a", "b")])], nextPk := 6 }
    nextEffortPk := 2 }

/-- Witness fixture: an updating payload flipping the SOW aspect to
inherited. -/
def wPay5 : SoftwareEffortPayload :=
  { uuid := some "11111111-1111-1111-1111-111111111111"
    name := "E1"
    inherit_statement_of_work_profile := true }

/-- Counterexample fixture: a catalog with the program but no efforts. -/
def wDb6 : CatalogDB := { programs := [wProg] }

/-- Counterexample fixture: a payload whose fixed UUID matches no effort,
with `inherit` false and SOW data supplied. -/
def wPay6 : SoftwareEffortPayload :=
  { uuid := some "11111111-1111-1111-1111-111111111111"
    name := "E1"
    inherit_statement_of_work_profile := false
    statement_of_work_profile := some [("f", "v")] }

/-- Witness fixture: an existing effort with no linked SOW profile. -/
def wInst6 : EffortRow := { pk := 1, uuid := "11111111-1111-1111-1111-111111111111" }

/-- Witness fixture: catalog holding `wInst6` for the matched double-save. -/
def wDbM6 : CatalogDB :=
  { programs := [wProg]
    efforts := [wInst6]
    nextEffortPk := 2 }

/-- Witness fixture: payload carrying a linked-efforts list with a keyless
dict, a numeric storage-key reference and an unresolvable string. -/
def wPayL : SoftwareEffortPayload :=
  { uuid := some "11111111-1111-1111-1111-111111111111"
    linked_software_efforts := some
      [RawLink.dict [("foo", "bar")], RawLink.str "1", RawLink.str "nope"] }

/-- Witness fixture: three program-version rows, one inactive. -/
def wRows4 : List PCIRow :=
  [{ pk := 1, program_id := "a", date := 3 },
   { pk := 2, program_id := "a", date := 9 },
   { pk := 3, program_id := "b", date := 1, program_active := false }]

/-- Witness fixture: two records sharing the minimum path depth. -/
def wRecsC1 : List ProgRec :=
  [{ program_path := "1", name := "root" }, { program_path := "2", name := "root2" }]

/-- Counterexample fixture for the aggregation flag: a root with an empty
path whose child expects software efforts. -/
def c2recs : List ProgRec :=
  [{ program_path := "" }, { program_path := ".x", expect_software_effort := true }]

/-- The tree the source returns for `c2recs`. -/
def c2tree : ProgramTreeNode :=
  match get_all_programs_as_tree c2recs with
  | Except.ok (some t) => t
  | _ => default

/-- Witness fixture: a two-level catalog with a non-empty root path. -/
def w2recs : List ProgRec :=
  [{ program_path := "r", name := "R" },
   { program_path := "r.a", expect_software_effort := true }]

/-- The sorted head of `w2recs`. -/
def w2root : ProgRec := { program_path := "r", name := "R" }

/-- The sorted tail element of `w2recs`. -/
def w2child : ProgRec := { program_path := "r.a", expect_software_effort := true }

/-- The tree the source returns for `w2recs`. -/
def w2tree : ProgramTreeNode :=
  match get_all_programs_as_tree w2recs with
  | Except.ok (some t) => t
  | _ => default

/-- Witness fixture for the root/orphan/count claim: a root, one attached
child, and one orphaned record. -/
def w3recs : List ProgRec :=
  [{ program_path := "p", name := "P" },
   { program_path := "p.a", name := "A" },
   { program_path := "q.z", name := "Z" }]

/-- The sorted head of `w3recs`. -/
def w3root : ProgRec := { program_path := "p", name := "P" }

/-- The sorted tail of `w3recs`. -/
def w3rest : List ProgRec :=
  [{ program_path := "p.a", name := "A" }, { program_path := "q.z", name := "Z" }]

/-- The tree the source returns for `w3recs`. -/
def w3tree : ProgramTreeNode :=
  match get_all_programs_as_tree w3recs with
  | Except.ok (some t) => t
  | _ => default

/-! ## Theorems -/

/-! ### The version resolver (C4) -/

theorem groupMaxStep_eq (acc : List (String × Nat)) (r : PCIRow) :
    groupMaxStep acc r =
      if acc.any (fun q => q.1 = r.program_id) then
        acc.map (fun q => if q.1 = r.program_id then (q.1, Nat.max q.2 r.date) else q)
      else acc ++ [(r.program_id, r.date)] := by
  have hfun : (fun (q : String × Nat) => q.1 == r.program_id)
      = (fun q => decide (q.1 = r.program_id)) := by
    funext q
    by_cases h : q.1 = r.program_id <;> simp [h]
  have hfun2 : (fun (q : String × Nat) =>
        if (q.1 == r.program_id) = true then (q.1, Nat.max q.2 r.date) else q)
      = (fun q => if q.1 = r.program_id then (q.1, Nat.max q.2 r.date) else q) := by
    funext q
    by_cases h : q.1 = r.program_id <;> simp [h]
  unfold groupMaxStep
  rw [hfun, hfun2]

theorem mem_groupMaxStep_iff (acc : List (String × Nat)) (r : PCIRow)
    (hnd : (acc.map Prod.fst).Nodup) (pid : String) (d : Nat) :
    (pid, d) ∈ groupMaxStep acc r ↔
      (pid ≠ r.program_id ∧ (pid, d) ∈ acc) ∨
      (pid = r.program_id ∧ ∃ d0, (pid, d0) ∈ acc ∧ d = Nat.max d0 r.date) ∨
      (pid = r.program_id ∧ (∀ d0, (pid, d0) ∉ acc) ∧ d = r.date) := by
  rw [groupMaxStep_eq]
  by_cases hany : acc.any (fun q => q.1 = r.program_id) = true
  · simp only [hany, if_true]
    simp only [List.any_eq_true, decide_eq_true_eq] at hany
    obtain ⟨q0, hq0, hq0k⟩ := hany
    constructor
    · intro hm
      simp only [List.mem_map] at hm
      obtain ⟨q, hq, hfq⟩ := hm
      by_cases hk : q.1 = r.program_id
      · simp only [hk, if_true] at hfq
        have hp : pid = r.program_id := by
          have := congrArg Prod.fst hfq
          simpa [hk] using this.symm
        have hd : d = Nat.max q.2 r.date := by
          have := congrArg Prod.snd hfq
          simpa using this.symm
        right; left
        refine ⟨hp, q.2, ?_, hd⟩
        have hq' : q = (pid, q.2) := by
          apply Prod.ext
          · simp [hk, hp]
          · rfl
        rwa [hq'] at hq
      · simp only [hk, if_false] at hfq
        left
        refine ⟨?_, by rwa [hfq] at hq⟩
        have hqp : q.1 = pid := by rw [hfq]
        rwa [hqp] at hk
    · rintro (⟨hne, hmem⟩ | ⟨heq, d0, hd0, hmax⟩ | ⟨heq, hnone, _⟩)
      · refine List.mem_map.mpr ⟨(pid, d), hmem, ?_⟩
        exact if_neg hne
      · refine List.mem_map.mpr ⟨(pid, d0), hd0, ?_⟩
        rw [if_pos heq, hmax]
      · refine absurd ?_ (hnone q0.2)
        have hq' : q0 = (pid, q0.2) := by
          apply Prod.ext
          · simp [hq0k, heq]
          · rfl
        rwa [hq'] at hq0
  · simp only [eq_false_of_ne_true hany, if_false]
    simp only [List.any_eq_true, decide_eq_true_eq] at hany
    push_neg at hany
    constructor
    · intro hm
      rcases List.mem_append.mp hm with h | h
      · refine Or.inl ⟨?_, h⟩
        intro hcontra
        exact absurd (show ((pid, d) : String × Nat).1 = r.program_id from hcontra) (hany _ h)
      · simp only [List.mem_singleton, Prod.mk.injEq] at h
        right; right
        refine ⟨h.1, ?_, h.2⟩
        intro d0 hd0
        exact absurd (show ((pid, d0) : String × Nat).1 = r.program_id from h.1) (hany _ hd0)
    · rintro (⟨hne, hmem⟩ | ⟨heq, d0, hd0, _⟩ | ⟨heq, _, hd⟩)
      · exact List.mem_append.mpr (Or.inl hmem)
      · exact absurd (show ((pid, d0) : String × Nat).1 = r.program_id from heq) (hany _ hd0)
      · exact List.mem_append.mpr (Or.inr (by simp [heq, hd]))

theorem keys_groupMaxStep (acc : List (String × Nat)) (r : PCIRow) :
    ((groupMaxStep acc r).map Prod.fst).Nodup ↔ (acc.map Prod.fst).Nodup := by
  rw [groupMaxStep_eq]
  by_cases hany : acc.any (fun q => q.1 = r.program_id) = true
  · simp only [hany, if_true]
    have hmm : ((acc.map (fun q => if q.1 = r.program_id then (q.1, Nat.max q.2 r.date) else q)).map
        Prod.fst) = acc.map Prod.fst := by
      rw [List.map_map]
      apply List.map_congr_left
      intro q _
      by_cases h : q.1 = r.program_id <;> simp [h]
    rw [hmm]
  · rw [if_neg hany]
    simp only [List.any_eq_true, decide_eq_true_eq] at hany
    push_neg at hany
    constructor
    · intro h
      refine List.Nodup.sublist ?_ h
      simp only [List.map_append]
      exact List.sublist_append_left _ _
    · intro h
      simp only [List.map_append, List.map_cons, List.map_nil]
      rw [List.nodup_append]
      refine ⟨h, List.nodup_singleton _, ?_⟩
      intro a ha
      simp only [List.mem_map] at ha
      obtain ⟨q, hq, hqa⟩ := ha
      simp only [List.mem_singleton]
      intro hcontra
      exact absurd (show q.1 = r.program_id by rw [hqa, hcontra]) (hany q hq)

theorem keys_mem_groupMaxStep (acc : List (String × Nat)) (r : PCIRow) (pid : String) :
    pid ∈ (groupMaxStep acc r).map Prod.fst ↔
      pid ∈ acc.map Prod.fst ∨ pid = r.program_id := by
  rw [groupMaxStep_eq]
  by_cases hany : acc.any (fun q => q.1 = r.program_id) = true
  · simp only [hany, if_true]
    have hmm : ((acc.map (fun q => if q.1 = r.program_id then (q.1, Nat.max q.2 r.date) else q)).map
        Prod.fst) = acc.map Prod.fst := by
      rw [List.map_map]
      apply List.map_congr_left
      intro q _
      by_cases h : q.1 = r.program_id <;> simp [h]
    rw [hmm]
    simp only [List.any_eq_true, decide_eq_true_eq] at hany
    obtain ⟨q0, hq0, hq0k⟩ := hany
    constructor
    · exact Or.inl
    · rintro (h | h)
      · exact h
      · exact List.mem_map.mpr ⟨q0, hq0, by rw [hq0k, h]⟩
  · simp only [eq_false_of_ne_true hany, if_false, List.map_append]
    simp [List.mem_append]

theorem nodup_keys_val_eq {acc : List (String × Nat)}
    (hnd : (acc.map Prod.fst).Nodup) {pid : String} {d d0 : Nat}
    (h : (pid, d) ∈ acc) (h0 : (pid, d0) ∈ acc) : d = d0 := by
  induction acc with
  | nil => cases h
  | cons a tl ih =>
    simp only [List.map_cons, List.nodup_cons] at hnd
    rcases List.mem_cons.mp h with h1 | h1 <;> rcases List.mem_cons.mp h0 with h2 | h2
    · exact congrArg Prod.snd (h1.trans h2.symm)
    · have ha : a.1 = pid := by rw [← h1]
      have hmem : pid ∈ tl.map Prod.fst := List.mem_map.mpr ⟨(pid, d0), h2, rfl⟩
      exact absurd hmem (ha ▸ hnd.1)
    · have ha : a.1 = pid := by rw [← h2]
      have hmem : pid ∈ tl.map Prod.fst := List.mem_map.mpr ⟨(pid, d), h1, rfl⟩
      exact absurd hmem (ha ▸ hnd.1)
    · exact ih hnd.2 h1 h2

theorem foldl_groupMaxStep_spec (l : List PCIRow) :
    ∀ acc : List (String × Nat), (acc.map Prod.fst).Nodup →
      (((l.foldl groupMaxStep acc).map Prod.fst).Nodup ∧
       (∀ pid, pid ∈ (l.foldl groupMaxStep acc).map Prod.fst ↔
          pid ∈ acc.map Prod.fst ∨ ∃ r ∈ l, r.program_id = pid) ∧
       (∀ pid d, (pid, d) ∈ l.foldl groupMaxStep acc ↔
          (((pid, d) ∈ acc ∨ ∃ r ∈ l, r.program_id = pid ∧ r.date = d) ∧
           (∀ d0, (pid, d0) ∈ acc → d0 ≤ d) ∧
           (∀ r ∈ l, r.program_id = pid → r.date ≤ d)))) := by
  induction l with
  | nil =>
    intro acc hnd
    refine ⟨hnd, by simp, ?_⟩
    intro pid d
    simp only [List.foldl_nil, List.not_mem_nil, false_and, exists_false, or_false,
      false_implies, implies_true, and_true]
    constructor
    · intro h
      exact ⟨h, fun d0 hd0 => le_of_eq (nodup_keys_val_eq hnd hd0 h)⟩
    · exact fun h => h.1
  | cons r rs ih =>
    intro acc hnd
    have hnd' : ((groupMaxStep acc r).map Prod.fst).Nodup := (keys_groupMaxStep acc r).mpr hnd
    obtain ⟨jnd, jkeys, jmem⟩ := ih (groupMaxStep acc r) hnd'
    refine ⟨jnd, ?_, ?_⟩
    · intro pid
      rw [List.foldl_cons, jkeys pid, keys_mem_groupMaxStep]
      simp only [List.mem_cons]
      constructor
      · rintro ((h | h) | h)
        · exact Or.inl h
        · exact Or.inr ⟨r, Or.inl rfl, h.symm⟩
        · obtain ⟨r', hr', hpid⟩ := h
          exact Or.inr ⟨r', Or.inr hr', hpid⟩
      · rintro (h | ⟨r', (hr' | hr'), hpid⟩)
        · exact Or.inl (Or.inl h)
        · exact Or.inl (Or.inr (hr' ▸ hpid).symm)
        · exact Or.inr ⟨r', hr', hpid⟩
    · intro pid d
      rw [List.foldl_cons, jmem pid d]
      have hstep := fun d' => mem_groupMaxStep_iff acc r hnd pid d'
      by_cases hkey : pid = r.program_id
      · constructor
        · rintro ⟨hatt, hbnd, hbnds⟩
          have hbacc : ∀ d0, (pid, d0) ∈ acc → d0 ≤ d := by
            intro d0 hd0
            by_cases hin : (pid, Nat.max d0 r.date) ∈ groupMaxStep acc r
            · exact le_trans (Nat.le_max_left _ _) (hbnd _ hin)
            · exact absurd ((hstep _).mpr (Or.inr (Or.inl ⟨hkey, d0, hd0, rfl⟩))) hin
          have hbr : r.date ≤ d := by
            by_cases hex : ∃ d0, (pid, d0) ∈ acc
            · obtain ⟨d0, hd0⟩ := hex
              exact le_trans (Nat.le_max_right _ _)
                (hbnd _ ((hstep _).mpr (Or.inr (Or.inl ⟨hkey, d0, hd0, rfl⟩))))
            · push_neg at hex
              exact hbnd _ ((hstep _).mpr (Or.inr (Or.inr ⟨hkey, hex, rfl⟩)))
          refine ⟨?_, hbacc, ?_⟩
          · rcases hatt with hin | hin
            · rcases (hstep d).mp hin with ⟨hne, _⟩ | ⟨_, d0, hd0, hdm⟩ | ⟨_, _, hdr⟩
              · exact (hne hkey).elim
              · rcases Nat.le_total r.date d0 with hc | hc
                · have hm : Nat.max d0 r.date = d0 := Nat.max_eq_left hc
                  refine Or.inl ?_
                  rw [hdm, hm]
                  exact hd0
                · have hm : Nat.max d0 r.date = r.date := Nat.max_eq_right hc
                  exact Or.inr ⟨r, List.mem_cons_self r rs, hkey.symm, by omega⟩
              · exact Or.inr ⟨r, List.mem_cons_self r rs, hkey.symm, hdr.symm⟩
            · obtain ⟨r', hr', h1, h2⟩ := hin
              exact Or.inr ⟨r', List.mem_cons_of_mem r hr', h1, h2⟩
          · intro r' hr' hid
            rcases List.mem_cons.mp hr' with h | h
            · exact h ▸ hbr
            · exact hbnds r' h hid
        · rintro ⟨hatt, hbacc, hbnd⟩
          have hbr : r.date ≤ d := hbnd r (List.mem_cons_self r rs) hkey.symm
          have hbnds : ∀ r' ∈ rs, r'.program_id = pid → r'.date ≤ d :=
            fun r' h => hbnd r' (List.mem_cons_of_mem r h)
          refine ⟨?_, ?_, hbnds⟩
          · rcases hatt with hin | ⟨r', hr', h1, h2⟩
            · left
              refine (hstep d).mpr (Or.inr (Or.inl ⟨hkey, d, hin, ?_⟩))
              exact (Nat.max_eq_left hbr).symm
            · rcases List.mem_cons.mp hr' with h | h
              · rw [h] at h2
                by_cases hex : ∃ d0, (pid, d0) ∈ acc
                · obtain ⟨d0, hd0⟩ := hex
                  left
                  refine (hstep d).mpr (Or.inr (Or.inl ⟨hkey, d0, hd0, ?_⟩))
                  have hd1 := hbacc d0 hd0
                  have hm : Nat.max d0 r.date = r.date := Nat.max_eq_right (by omega)
                  omega
                · push_neg at hex
                  exact Or.inl ((hstep d).mpr (Or.inr (Or.inr ⟨hkey, hex, h2.symm⟩)))
              · exact Or.inr ⟨r', h, h1, h2⟩
          · intro d0 hd0
            rcases (hstep d0).mp hd0 with ⟨hne, _⟩ | ⟨_, d1, hd1, hdm⟩ | ⟨_, _, hdr⟩
            · exact (hne hkey).elim
            · have hx1 := hbacc d1 hd1
              have hx2 := hbr
              subst hdm
              exact Nat.max_le.mpr ⟨hx1, hx2⟩
            · exact hdr ▸ hbr
      · have hacc : ∀ d', ((pid, d') ∈ groupMaxStep acc r ↔ (pid, d') ∈ acc) := by
          intro d'
          rw [hstep d']
          constructor
          · rintro (⟨_, h⟩ | ⟨h, _⟩ | ⟨h, _⟩)
            · exact h
            · exact absurd h hkey
            · exact absurd h hkey
          · exact fun h => Or.inl ⟨hkey, h⟩
        constructor
        · rintro ⟨hatt, hbnd, hbnds⟩
          refine ⟨?_, fun d0 hd0 => hbnd d0 ((hacc d0).mpr hd0), ?_⟩
          · rcases hatt with hin | ⟨r', hr', h1, h2⟩
            · exact Or.inl ((hacc d).mp hin)
            · exact Or.inr ⟨r', List.mem_cons_of_mem r hr', h1, h2⟩
          · intro r' hr' hid
            rcases List.mem_cons.mp hr' with h | h
            · exact absurd (h ▸ hid).symm hkey
            · exact hbnds r' h hid
        · rintro ⟨hatt, hbacc, hbnd⟩
          refine ⟨?_, fun d0 hd0 => hbacc d0 ((hacc d0).mp hd0), ?_⟩
          · rcases hatt with hin | ⟨r', hr', h1, h2⟩
            · exact Or.inl ((hacc d).mpr hin)
            · rcases List.mem_cons.mp hr' with h | h
              · exact absurd (h ▸ h1).symm hkey
              · exact Or.inr ⟨r', h, h1, h2⟩
          · exact fun r' h => hbnd r' (List.mem_cons_of_mem r h)

/-- C4: `latestActiveVersions` (`_get_latest_programs`) is a pure query whose
result has exactly one entry per distinct `program_id` with at least one
active-flagged row, each entry carrying the maximum date among that id's
active rows, and is empty when no row is active. -/
theorem c4_latest_active_versions (rows : List PCIRow) :
    ((_get_latest_programs rows).map Prod.fst).Nodup ∧
    (∀ pid, pid ∈ (_get_latest_programs rows).map Prod.fst ↔
      ∃ r ∈ rows, r.program_active = true ∧ r.program_id = pid) ∧
    (∀ pid d, (pid, d) ∈ _get_latest_programs rows ↔
      ((∃ r ∈ rows, r.program_active = true ∧ r.program_id = pid ∧ r.date = d) ∧
       (∀ r ∈ rows, r.program_active = true → r.program_id = pid → r.date ≤ d))) ∧
    ((∀ r ∈ rows, r.program_active = false) → _get_latest_programs rows = []) := by
  obtain ⟨hnd, hkeys, hmem⟩ :=
    foldl_groupMaxStep_spec (rows.filter (fun r => r.program_active)) [] (by simp)
  refine ⟨hnd, ?_, ?_, ?_⟩
  · intro pid
    unfold _get_latest_programs
    rw [hkeys pid]
    simp only [List.map_nil, List.not_mem_nil, false_or, List.mem_filter]
    constructor
    · rintro ⟨r, ⟨hr, hact⟩, hpid⟩
      exact ⟨r, hr, hact, hpid⟩
    · rintro ⟨r, hr, hact, hpid⟩
      exact ⟨r, ⟨hr, hact⟩, hpid⟩
  · intro pid d
    unfold _get_latest_programs
    rw [hmem pid d]
    simp only [List.not_mem_nil, false_or, false_implies, implies_true, true_and,
      List.mem_filter]
    constructor
    · rintro ⟨⟨r, ⟨hr, ha⟩, h1, h2⟩, hbnd⟩
      exact ⟨⟨r, hr, ha, h1, h2⟩, fun r' hr' ha' hp' => hbnd r' ⟨hr', ha'⟩ hp'⟩
    · rintro ⟨⟨r, hr, ha, h1, h2⟩, hbnd⟩
      exact ⟨⟨r, ⟨hr, ha⟩, h1, h2⟩, fun r' hr' hp' => hbnd r' hr'.1 hr'.2 hp'⟩
  · intro hall
    unfold _get_latest_programs
    have hf : rows.filter (fun r => r.program_active) = [] := by
      rw [List.filter_eq_nil_iff]
      intro r hr
      simp [hall r hr]
    rw [hf]
    rfl

/-- C9: when no current active program record exists for the identifier,
`get_program_by_id` and `get_program_by_uuid` pass the absent row into the
DTO converter, which raises a validation error instead of returning the
absent result their documentation promises. -/
theorem c9_get_program_absent_raises (rows : List PCIRow) (bid : String) (sid : Nat)
    (hb : ∀ r ∈ rows, ¬(r.program_active = true ∧ r.program_id = bid))
    (hs : ∀ r ∈ rows, ¬(r.program_active = true ∧ r.pk = sid)) :
    (∃ msg, get_program_by_id rows bid = Except.error msg) ∧
    (∃ msg, get_program_by_uuid rows sid = Except.error msg) := by
  constructor
  · have hfil : (rows.filter (fun r =>
        r.program_active && r.program_id == bid &&
        ((_get_latest_programs rows).map (fun q => q.2)).contains r.date)) = [] := by
      rw [List.filter_eq_nil_iff]
      intro r hr
      have := hb r hr
      cases hact : r.program_active
      · simp [hact]
      · have hpid : ¬(r.program_id = bid) := fun h => this ⟨hact, h⟩
        simp [hact, hpid]
    refine ⟨"validation error: required program fields missing on None instance", ?_⟩
    simp only [get_program_by_id]
    rw [hfil]
    rfl
  · have hfil : (rows.filter (fun r =>
        r.program_active && r.pk == sid &&
        ((_get_latest_programs rows).map (fun q => q.2)).contains r.date)) = [] := by
      rw [List.filter_eq_nil_iff]
      intro r hr
      have := hs r hr
      cases hact : r.program_active
      · simp [hact]
      · have hpid : ¬(r.pk = sid) := fun h => this ⟨hact, h⟩
        simp [hact, hpid]
    refine ⟨"validation error: required program fields missing on None instance", ?_⟩
    simp only [get_program_by_uuid]
    rw [hfil]
    rfl

theorem c9_witness :
    ((∀ r ∈ ([] : List PCIRow), ¬(r.program_active = true ∧ r.program_id = "42")) ∧
     (∀ r ∈ ([] : List PCIRow), ¬(r.program_active = true ∧ r.pk = 3))) ∧
    ((∃ msg, get_program_by_id [] "42" = Except.error msg) ∧
     (∃ msg, get_program_by_uuid [] 3 = Except.error msg)) :=
  ⟨⟨by simp, by simp⟩, c9_get_program_absent_raises [] "42" 3 (by simp) (by simp)⟩

/-! ### Effort deletion (C8) -/

theorem find?_uuid_of_nodup (l : List EffortRow) (eff : EffortRow) (u : String)
    (hnd : (l.map (fun e => e.uuid)).Nodup) (hmem : eff ∈ l) (hu : eff.uuid = u) :
    l.find? (fun e => e.uuid == u) = some eff := by
  induction l with
  | nil => cases hmem
  | cons a tl ih =>
    simp only [List.map_cons, List.nodup_cons] at hnd
    rcases List.mem_cons.mp hmem with h | h
    · subst h
      simp [List.find?, hu]
    · have hne : (a.uuid == u) = false := by
        rw [beq_eq_false_iff_ne]
        intro hcontra
        exact hnd.1 (List.mem_map.mpr ⟨eff, h, by rw [hu, hcontra]⟩)
      simp only [List.find?, hne]
      exact ih hnd.2 h

theorem getRow_hardDeleteRow_self (t : ProfileTable) (pk : Nat) :
    (t.hardDeleteRow pk).getRow pk = none := by
  simp only [ProfileTable.hardDeleteRow, ProfileTable.getRow]
  have hfind : (t.rows.filter (fun x => x.1 != pk)).find? (fun x => x.1 == pk) = none := by
    rw [List.find?_eq_none]
    intro x hx
    have := (List.mem_filter.mp hx).2
    simp only [bne_iff_ne, ne_eq] at this
    simp [this]
  rw [hfind]
  rfl

/-- C8: `deleteEffort` rejects a malformed UUID before touching storage (the
result is `(db, false)` uniformly in the storage state), returns false for a
valid but unknown UUID, and for a known UUID returns true after hard-deleting
the effort row and each of the four local profiles whose foreign key is
present. -/
theorem c8_delete_effort_by_uuid (s : String) (db : CatalogDB) :
    (isValidUuidString s = false → ∀ db2 : CatalogDB, delete_effort_by_uuid db2 s = (db2, false)) ∧
    ((∀ e ∈ db.efforts, e.uuid ≠ uuidCanon s) → delete_effort_by_uuid db s = (db, false)) ∧
    (∀ eff ∈ db.efforts, db.WF → eff.uuid = uuidCanon s → isValidUuidString s = true →
      ((delete_effort_by_uuid db s).2 = true ∧
       (∀ e ∈ (delete_effort_by_uuid db s).1.efforts, e.uuid ≠ uuidCanon s) ∧
       (∀ a : Aspect, ∀ pk, a.localFk eff = some pk →
          (a.table (delete_effort_by_uuid db s).1).getRow pk = none))) := by
  refine ⟨?_, ?_, ?_⟩
  · intro hv db2
    unfold delete_effort_by_uuid
    simp [hv]
  · intro hunk
    by_cases hv : isValidUuidString s
    · have hfind : db.efforts.find? (fun e => e.uuid == uuidCanon s) = none := by
        rw [List.find?_eq_none]
        intro e he
        simpa using hunk e he
      unfold delete_effort_by_uuid
      simp [hv, hfind]
    · unfold delete_effort_by_uuid
      simp [Bool.of_not_eq_true hv]
  · intro eff hmem hwf hu hv
    have hfind : db.efforts.find? (fun e => e.uuid == uuidCanon s) = some eff :=
      find?_uuid_of_nodup db.efforts eff (uuidCanon s) hwf.2.2.1 hmem hu
    have hres : delete_effort_by_uuid db s =
        ({ db with
            sowProfiles := deleteIfPresent db.sowProfiles eff.local_statement_of_work_profile
            devProfiles := deleteIfPresent db.devProfiles eff.local_developer_setup
            tpocProfiles := deleteIfPresent db.tpocProfiles eff.local_technical_points_of_contact
            wlProfiles := deleteIfPresent db.wlProfiles eff.local_work_location
            efforts := db.efforts.filter (fun e => e.pk != eff.pk) }, true) := by
      unfold delete_effort_by_uuid
      simp [hv, hfind]
    rw [hres]
    refine ⟨rfl, ?_, ?_⟩
    · intro e he
      have hin := List.mem_filter.mp he
      intro hcontra
      have : e = eff := List.inj_on_of_nodup_map hwf.2.2.1 hin.1 hmem (by rw [hcontra, hu])
      rw [this] at hin
      simp at hin
    · intro a pk hpk
      cases a <;>
        simp only [Aspect.table, Aspect.localFk] at hpk ⊢ <;>
        rw [hpk] <;>
        exact getRow_hardDeleteRow_self _ pk

theorem c8_witness :
    (delete_effort_by_uuid wDb8 "not-a-uuid" = (wDb8, false)) ∧
    (delete_effort_by_uuid wDb8 "22222222-2222-2222-2222-222222222222" = (wDb8, false)) ∧
    ((delete_effort_by_uuid wDb8 "11111111-1111-1111-1111-111111111111").2 = true ∧
     (∀ e ∈ (delete_effort_by_uuid wDb8 "11111111-1111-1111-1111-111111111111").1.efforts,
        e.uuid ≠ uuidCanon "11111111-1111-1111-1111-111111111111") ∧
     (∀ a : Aspect, ∀ pk, a.localFk wEffort8 = some pk →
        (a.table (delete_effort_by_uuid wDb8
          "11111111-1111-1111-1111-111111111111").1).getRow pk = none)) :=
  ⟨(c8_delete_effort_by_uuid "not-a-uuid" wDb8).1 (by decide) wDb8,
   (c8_delete_effort_by_uuid "22222222-2222-2222-2222-222222222222" wDb8).2.1 (by decide),
   (c8_delete_effort_by_uuid "11111111-1111-1111-1111-111111111111" wDb8).2.2 wEffort8
     (by decide) (by decide) (by decide) (by decide)⟩

/-! ### The effort upsert engine: shared lemmas (C5, C6, C7, C10) -/

theorem find?_map_of_pred_inv {α : Type} (l : List α) (g : α → α) (pred : α → Bool)
    (hg : ∀ e ∈ l, pred (g e) = pred e) :
    (l.map g).find? pred = (l.find? pred).map g := by
  induction l with
  | nil => rfl
  | cons a tl ih =>
    simp only [List.map_cons, List.find?]
    rw [hg a (List.mem_cons_self a tl)]
    cases hp : pred a
    · simpa using ih (fun e he => hg e (List.mem_cons_of_mem a he))
    · rfl

theorem find?_pk_of_nodup (l : List EffortRow) (x : EffortRow)
    (hnd : (l.map (fun e => e.pk)).Nodup) (hmem : x ∈ l) :
    l.find? (fun e => e.pk == x.pk) = some x := by
  induction l with
  | nil => cases hmem
  | cons a tl ih =>
    simp only [List.map_cons, List.nodup_cons] at hnd
    rcases List.mem_cons.mp hmem with h | h
    · subst h
      simp [List.find?]
    · have hne : (a.pk == x.pk) = false := by
        rw [beq_eq_false_iff_ne]
        intro hc
        exact hnd.1 (List.mem_map.mpr ⟨x, h, hc.symm⟩)
      simp only [List.find?, hne]
      exact ih hnd.2 h

theorem localFk_linked_update (a : Aspect) (x : EffortRow) (L : LinkedStore) :
    a.localFk { x with linked_software_efforts := L } = a.localFk x := by
  cases a <;> rfl

theorem table_applyLinked (a : Aspect) (linkM2M : Bool) (db : CatalogDB) (instPk : Nat)
    (raws : Option (List RawLink)) :
    a.table (applyLinked linkM2M db instPk raws) = a.table db := by
  cases raws <;> cases a <;> rfl

theorem programs_applyLinked (linkM2M : Bool) (db : CatalogDB) (instPk : Nat)
    (raws : Option (List RawLink)) :
    (applyLinked linkM2M db instPk raws).programs = db.programs := by
  cases raws <;> rfl

theorem table_updateExistingEffort (a : Aspect) (db : CatalogDB) (prog : PCIRow)
    (parent_fk : Option Nat) (p : SoftwareEffortPayload) (inst : EffortRow) :
    a.table (updateExistingEffort db prog parent_fk p inst) =
      (manage_local_profile (a.table db) (a.localFk inst)
        (a.inheritFlag p) (a.payloadData p)).1 := by
  cases a <;> rfl

theorem localFk_reconciledEffort (a : Aspect) (db : CatalogDB) (prog : PCIRow)
    (parent_fk : Option Nat) (p : SoftwareEffortPayload) (inst : EffortRow) :
    a.localFk (reconciledEffort db prog parent_fk p inst) =
      (manage_local_profile (a.table db) (a.localFk inst)
        (a.inheritFlag p) (a.payloadData p)).2 := by
  cases a <;> rfl

theorem save_update_shape (linkM2M : Bool) (db : CatalogDB) (id : String)
    (p : SoftwareEffortPayload) (u : String) (prog : PCIRow) (inst : EffortRow)
    (hu : p.uuid = some u) (hune : u ≠ "")
    (hprog : db.programs.find? (fun r => r.program_id == id) = some prog)
    (hfind : db.efforts.find? (fun e => e.uuid == u) = some inst)
    (hpk : (db.efforts.map (fun e => e.pk)).Nodup) :
    ∃ e', (save_efforts_for_program linkM2M db id (some p)).efforts.find?
            (fun e => e.pk == inst.pk) = some e' ∧
      (save_efforts_for_program linkM2M db id (some p)).efforts.find?
            (fun e => e.uuid == u) = some e' ∧
      e'.pk = inst.pk ∧ e'.uuid = inst.uuid ∧
      (∀ a : Aspect, a.localFk e' =
        (manage_local_profile (a.table db) (a.localFk inst)
          (a.inheritFlag p) (a.payloadData p)).2) ∧
      (∀ a : Aspect, a.table (save_efforts_for_program linkM2M db id (some p)) =
        (manage_local_profile (a.table db) (a.localFk inst)
          (a.inheritFlag p) (a.payloadData p)).1) ∧
      (save_efforts_for_program linkM2M db id (some p)).programs = db.programs ∧
      (save_efforts_for_program linkM2M db id (some p)).efforts.map (fun e => e.pk) =
        db.efforts.map (fun e => e.pk) := by
  have hmem : inst ∈ db.efforts := List.mem_of_find?_eq_some hfind
  have huuid : inst.uuid = u := by
    have := List.find?_some hfind
    simpa using this
  have hsave : save_efforts_for_program linkM2M db id (some p) =
      applyLinked linkM2M (updateExistingEffort db prog (resolveParentFk db p) p inst)
        inst.pk p.linked_software_efforts := by
    unfold save_efforts_for_program effortUpsert findExistingEffort
    simp [hprog, hu, hfind, hune]
  set pf := resolveParentFk db p with hpf
  set instR := reconciledEffort db prog pf p inst with hinstR
  have hRpk : instR.pk = inst.pk := rfl
  have hRuuid : instR.uuid = inst.uuid := rfl
  have hg1 : (updateExistingEffort db prog pf p inst).efforts =
      db.efforts.map (fun e => if e.pk == inst.pk then instR else e) := rfl
  have heq_of_pk : ∀ e ∈ db.efforts, e.pk = inst.pk → e = inst := by
    intro e he hpe
    exact List.inj_on_of_nodup_map hpk he hmem hpe
  have hg1pk : ∀ e ∈ db.efforts,
      ((if e.pk == inst.pk then instR else e).pk == inst.pk) = (e.pk == inst.pk) := by
    intro e _
    by_cases h : e.pk = inst.pk
    · simp [h, hRpk]
    · simp [h]
  have hg1u : ∀ e ∈ db.efforts,
      ((if e.pk == inst.pk then instR else e).uuid == u) = (e.uuid == u) := by
    intro e he
    by_cases h : e.pk = inst.pk
    · have he2 : e = inst := heq_of_pk e he h
      subst he2
      simp [hRuuid]
    · simp [h]
  have hfindpk : db.efforts.find? (fun e => e.pk == inst.pk) = some inst :=
    find?_pk_of_nodup db.efforts inst hpk hmem
  have hupd_pk : (updateExistingEffort db prog pf p inst).efforts.find?
      (fun e => e.pk == inst.pk) = some instR := by
    rw [hg1, find?_map_of_pred_inv db.efforts _ _ hg1pk, hfindpk, Option.map_some']
    simp
  have hupd_u : (updateExistingEffort db prog pf p inst).efforts.find?
      (fun e => e.uuid == u) = some instR := by
    rw [hg1, find?_map_of_pred_inv db.efforts _ _ hg1u, hfind, Option.map_some']
    simp
  have hupd_mappk : (updateExistingEffort db prog pf p inst).efforts.map (fun e => e.pk) =
      db.efforts.map (fun e => e.pk) := by
    rw [hg1, List.map_map]
    apply List.map_congr_left
    intro e he
    by_cases h : e.pk = inst.pk
    · simp only [Function.comp]
      rw [if_pos (by simp [h]), hRpk, h]
    · simp only [Function.comp]
      rw [if_neg (by simp [h])]
  cases hraw : p.linked_software_efforts with
  | none =>
    have happ : applyLinked linkM2M (updateExistingEffort db prog pf p inst) inst.pk none
        = updateExistingEffort db prog pf p inst := rfl
    refine ⟨instR, ?_, ?_, hRpk, hRuuid, ?_, ?_, ?_, ?_⟩
    · rw [hsave, hraw, happ]
      exact hupd_pk
    · rw [hsave, hraw, happ]
      exact hupd_u
    · intro a
      rw [hinstR]
      exact localFk_reconciledEffort a db prog pf p inst
    · intro a
      rw [hsave]
      rw [table_applyLinked a linkM2M _ inst.pk p.linked_software_efforts]
      exact table_updateExistingEffort a db prog pf p inst
    · rw [hsave]
      rw [programs_applyLinked]
      rfl
    · rw [hsave, hraw, happ]
      exact hupd_mappk
  | some rl =>
    set db1 := updateExistingEffort db prog pf p inst with hdb1
    set L := (if linkM2M then
        LinkedStore.m2m ((resolveLinks db1 rl).1.map (fun e => e.pk))
      else LinkedStore.flat (resolveLinks db1 rl).2) with hL
    have happ : (applyLinked linkM2M db1 inst.pk (some rl)).efforts =
        db1.efforts.map (fun e =>
          if e.pk == inst.pk then { e with linked_software_efforts := L } else e) := rfl
    have hg2pk : ∀ e ∈ db1.efforts,
        ((if e.pk == inst.pk then { e with linked_software_efforts := L } else e).pk
          == inst.pk) = (e.pk == inst.pk) := by
      intro e _
      by_cases h : e.pk = inst.pk
      · simp [h]
      · simp [h]
    have hg2u : ∀ e ∈ db1.efforts,
        ((if e.pk == inst.pk then { e with linked_software_efforts := L } else e).uuid
          == u) = (e.uuid == u) := by
      intro e _
      by_cases h : e.pk = inst.pk
      · simp [h]
      · simp [h]
    refine ⟨{ instR with linked_software_efforts := L }, ?_, ?_, hRpk, hRuuid, ?_, ?_, ?_, ?_⟩
    · rw [hsave, hraw, happ, find?_map_of_pred_inv db1.efforts _ _ hg2pk, hupd_pk,
        Option.map_some']
      simp [hRpk]
    · rw [hsave, hraw, happ, find?_map_of_pred_inv db1.efforts _ _ hg2u, hupd_u,
        Option.map_some']
      simp [hRpk]
    · intro a
      rw [localFk_linked_update a instR L, hinstR]
      exact localFk_reconciledEffort a db prog pf p inst
    · intro a
      rw [hsave]
      rw [table_applyLinked a linkM2M _ inst.pk p.linked_software_efforts]
      exact table_updateExistingEffort a db prog pf p inst
    · rw [hsave]
      rw [programs_applyLinked]
      rfl
    · rw [hsave, hraw, happ, List.map_map]
      have : ((fun e => e.pk) ∘ (fun e =>
          if e.pk == inst.pk then { e with linked_software_efforts := L } else e)) =
          (fun e : EffortRow => e.pk) := by
        funext e
        by_cases h : e.pk = inst.pk
        · simp [Function.comp, h]
        · simp [Function.comp, h]
      rw [this, hdb1, hupd_mappk]

theorem find?_map_save (l : List (Nat × ProfileData)) (pk : Nat) (d : ProfileData)
    (hold : (l.find? (fun x => x.1 == pk)).isSome) :
    (l.map (fun x => if x.1 == pk then (pk, d) else x)).find? (fun x => x.1 == pk) =
      some (pk, d) := by
  induction l with
  | nil => simp [List.find?] at hold
  | cons x xs ih =>
    by_cases h : x.1 = pk
    · simp [List.find?, h]
    · have hne : (x.1 == pk) = false := by simp [h]
      simp only [List.find?, hne] at hold
      simp only [List.map_cons, hne, if_false, List.find?]
      rw [if_neg (by simp [h])]
      simp only [List.find?, hne]
      exact ih hold

theorem getRow_saveRow_of_mem (t : ProfileTable) (pk : Nat) (d old : ProfileData)
    (hold : t.getRow pk = some old) :
    (t.saveRow pk d).getRow pk = some d := by
  have hsome : (t.rows.find? (fun x => x.1 == pk)).isSome := by
    simp only [ProfileTable.getRow] at hold
    cases hf : t.rows.find? (fun x => x.1 == pk)
    · rw [hf] at hold
      simp at hold
    · simp
  simp only [ProfileTable.getRow, ProfileTable.saveRow]
  rw [find?_map_save t.rows pk d hsome]
  rfl

theorem length_saveRow (t : ProfileTable) (pk : Nat) (d : ProfileData) :
    (t.saveRow pk d).rows.length = t.rows.length := by
  simp [ProfileTable.saveRow]

theorem getRow_nextPk_none (t : ProfileTable)
    (hb : ∀ x ∈ t.rows, x.1 < t.nextPk) : t.getRow t.nextPk = none := by
  simp only [ProfileTable.getRow, Option.map_eq_none']
  rw [List.find?_eq_none]
  intro x hx
  have := hb x hx
  simp
  omega

theorem getRow_createRow_self (t : ProfileTable) (d : ProfileData)
    (hb : ∀ x ∈ t.rows, x.1 < t.nextPk) :
    (t.createRow d).1.getRow t.nextPk = some d := by
  simp only [ProfileTable.createRow, ProfileTable.getRow]
  rw [List.find?_append]
  have h1 : t.rows.find? (fun x => x.1 == t.nextPk) = none := by
    rw [List.find?_eq_none]
    intro x hx
    have := hb x hx
    simp
    omega
  rw [h1]
  simp [List.find?]

theorem length_createRow (t : ProfileTable) (d : ProfileData) :
    (t.createRow d).1.rows.length = t.rows.length + 1 := by
  simp [ProfileTable.createRow]

theorem manage_inherit_some (t : ProfileTable) (pk : Nat) (dd : Option ProfileData) :
    manage_local_profile t (some pk) true dd = (t.hardDeleteRow pk, none) := rfl

theorem manage_inherit_none (t : ProfileTable) (dd : Option ProfileData) :
    manage_local_profile t none true dd = (t, none) := rfl

theorem manage_nodata (t : ProfileTable) (fk : Option Nat) :
    manage_local_profile t fk false none = (t, fk) := rfl

theorem manage_update (t : ProfileTable) (pk : Nat) (d : ProfileData) :
    manage_local_profile t (some pk) false (some d) =
      (t.saveRow pk (overwriteFields ((t.getRow pk).getD []) d), some pk) := rfl

theorem manage_create (t : ProfileTable) (d : ProfileData) (hd : d ≠ []) :
    manage_local_profile t none false (some d) = ((t.createRow d).1, some t.nextPk) := by
  unfold manage_local_profile createRelation
  simp only [if_neg (by simpa [List.isEmpty_iff] using hd)]
  simp [ProfileTable.createRow, List.isEmpty_iff, hd]

/-- C5: per-aspect profile reconciliation on an updating `saveEffort`:
(1) `inherit_X = true` hard-deletes any linked local profile and nulls the
reference; (2) `inherit_X = false` with no supplied data leaves the aspect
table and the reference untouched; (3) with data supplied and a linked
profile, the profile row is overwritten in place with no new row; (4) with
data supplied and no linked profile, a fresh row is created and linked. -/
theorem c5_profile_reconciliation (a : Aspect) (linkM2M : Bool) (db : CatalogDB)
    (id : String) (p : SoftwareEffortPayload) (u : String) (prog : PCIRow) (inst : EffortRow)
    (hu : p.uuid = some u) (hune : u ≠ "")
    (hprog : db.programs.find? (fun r => r.program_id == id) = some prog)
    (hfind : db.efforts.find? (fun e => e.uuid == u) = some inst)
    (hpk : (db.efforts.map (fun e => e.pk)).Nodup)
    (hwt : ∀ x ∈ (a.table db).rows, x.1 < (a.table db).nextPk) :
    ∃ e', (save_efforts_for_program linkM2M db id (some p)).efforts.find?
            (fun e => e.pk == inst.pk) = some e' ∧
      (a.inheritFlag p = true →
        a.localFk e' = none ∧
        ∀ pk, a.localFk inst = some pk →
          (a.table (save_efforts_for_program linkM2M db id (some p))).getRow pk = none) ∧
      (a.inheritFlag p = false → a.payloadData p = none →
        a.localFk e' = a.localFk inst ∧
        a.table (save_efforts_for_program linkM2M db id (some p)) = a.table db) ∧
      (∀ d pk old, a.inheritFlag p = false → a.payloadData p = some d →
        a.localFk inst = some pk → (a.table db).getRow pk = some old →
        a.localFk e' = some pk ∧
        (a.table (save_efforts_for_program linkM2M db id (some p))).rows.length =
          (a.table db).rows.length ∧
        (a.table (save_efforts_for_program linkM2M db id (some p))).getRow pk =
          some (overwriteFields old d)) ∧
      (∀ d, a.inheritFlag p = false → a.payloadData p = some d → d ≠ [] →
        a.localFk inst = none →
        ∃ npk, a.localFk e' = some npk ∧
          (a.table (save_efforts_for_program linkM2M db id (some p))).getRow npk = some d ∧
          (a.table db).getRow npk = none) := by
  obtain ⟨e', hpkfind, _, _, _, hfk, htbl, _, _⟩ :=
    save_update_shape linkM2M db id p u prog inst hu hune hprog hfind hpk
  refine ⟨e', hpkfind, ?_, ?_, ?_, ?_⟩
  · intro hinh
    constructor
    · rw [hfk a, hinh]
      cases hx : a.localFk inst
      · rw [manage_inherit_none]
      · rw [manage_inherit_some]
    · intro pk hpkx
      rw [htbl a, hinh, hpkx, manage_inherit_some]
      exact getRow_hardDeleteRow_self _ pk
  · intro hinh hdata
    rw [hfk a, htbl a, hinh, hdata, manage_nodata]
    exact ⟨rfl, rfl⟩
  · intro d pk old hinh hdata hfkx hold
    rw [hfk a, htbl a, hinh, hdata, hfkx, manage_update]
    refine ⟨rfl, length_saveRow _ _ _, ?_⟩
    rw [hold]
    exact getRow_saveRow_of_mem _ pk _ old hold
  · intro d hinh hdata hdne hfkx
    rw [hfk a, htbl a, hinh, hdata, hfkx, manage_create _ _ hdne]
    exact ⟨(a.table db).nextPk, rfl, getRow_createRow_self _ d hwt, getRow_nextPk_none _ hwt⟩

theorem c5_witness :
    ∃ e', (save_efforts_for_program false wDb5 "P1" (some wPay5)).efforts.find?
            (fun e => e.pk == wInst5.pk) = some e' ∧
      (Aspect.sow.inheritFlag wPay5 = true →
        Aspect.sow.localFk e' = none ∧
        ∀ pk, Aspect.sow.localFk wInst5 = some pk →
          (Aspect.sow.table (save_efforts_for_program false wDb5 "P1" (some wPay5))).getRow pk
            = none) ∧
      (Aspect.sow.inheritFlag wPay5 = false → Aspect.sow.payloadData wPay5 = none →
        Aspect.sow.localFk e' = Aspect.sow.localFk wInst5 ∧
        Aspect.sow.table (save_efforts_for_program false wDb5 "P1" (some wPay5)) =
          Aspect.sow.table wDb5) ∧
      (∀ d pk old, Aspect.sow.inheritFlag wPay5 = false →
        Aspect.sow.payloadData wPay5 = some d →
        Aspect.sow.localFk wInst5 = some pk → (Aspect.sow.table wDb5).getRow pk = some old →
        Aspect.sow.localFk e' = some pk ∧
        (Aspect.sow.table (save_efforts_for_program false wDb5 "P1" (some wPay5))).rows.length =
          (Aspect.sow.table wDb5).rows.length ∧
        (Aspect.sow.table (save_efforts_for_program false wDb5 "P1" (some wPay5))).getRow pk =
          some (overwriteFields old d)) ∧
      (∀ d, Aspect.sow.inheritFlag wPay5 = false → Aspect.sow.payloadData wPay5 = some d →
        d ≠ [] → Aspect.sow.localFk wInst5 = none →
        ∃ npk, Aspect.sow.localFk e' = some npk ∧
          (Aspect.sow.table (save_efforts_for_program false wDb5 "P1" (some wPay5))).getRow npk
            = some d ∧
          (Aspect.sow.table wDb5).getRow npk = none) :=
  c5_profile_reconciliation Aspect.sow false wDb5 "P1" wPay5
    "11111111-1111-1111-1111-111111111111" wProg wInst5
    rfl (by decide) (by decide) (by decide) (by decide) (by decide)

theorem c6_counterexample :
    (save_efforts_for_program false (save_efforts_for_program false wDb6 "P1" (some wPay6))
        "P1" (some wPay6)).sowProfiles.rows.length = 2 ∧
    ¬((save_efforts_for_program false (save_efforts_for_program false wDb6 "P1" (some wPay6))
        "P1" (some wPay6)).sowProfiles.rows.length = 1) := by
  decide

/-- C6 (amended): for a payload whose UUID matches an existing effort, with
`inherit_X = false`, profile data supplied, and no profile yet linked, two
identical `saveEffort` calls leave exactly one profile row for the aspect:
the first call creates it and the second overwrites it in place. -/
theorem c6_save_twice_single_profile_row (a : Aspect) (linkM2M : Bool) (db : CatalogDB)
    (id : String) (p : SoftwareEffortPayload) (u : String) (prog : PCIRow) (inst : EffortRow)
    (d : ProfileData)
    (hu : p.uuid = some u) (hune : u ≠ "")
    (hprog : db.programs.find? (fun r => r.program_id == id) = some prog)
    (hfind : db.efforts.find? (fun e => e.uuid == u) = some inst)
    (hpk : (db.efforts.map (fun e => e.pk)).Nodup)
    (hwt : ∀ x ∈ (a.table db).rows, x.1 < (a.table db).nextPk)
    (hinh : a.inheritFlag p = false) (hdata : a.payloadData p = some d) (hdne : d ≠ [])
    (hfk : a.localFk inst = none) :
    (a.table (save_efforts_for_program linkM2M
        (save_efforts_for_program linkM2M db id (some p)) id (some p))).rows.length =
      (a.table db).rows.length + 1 ∧
    ∃ e2 npk,
      (save_efforts_for_program linkM2M (save_efforts_for_program linkM2M db id (some p))
          id (some p)).efforts.find? (fun e => e.pk == inst.pk) = some e2 ∧
      a.localFk e2 = some npk ∧
      (a.table (save_efforts_for_program linkM2M
          (save_efforts_for_program linkM2M db id (some p)) id (some p))).getRow npk =
        some (overwriteFields d d) := by
  obtain ⟨e1, hpk1find, hu1find, hpk1, hu1, hfk1, htbl1, hprogs1, hmappk1⟩ :=
    save_update_shape linkM2M db id p u prog inst hu hune hprog hfind hpk
  set db1 := save_efforts_for_program linkM2M db id (some p) with hdb1
  have hprog1 : db1.programs.find? (fun r => r.program_id == id) = some prog := by
    rw [hprogs1]
    exact hprog
  have hnodup1 : (db1.efforts.map (fun e => e.pk)).Nodup := by
    rw [hmappk1]
    exact hpk
  obtain ⟨e2, hpk2find, _, _, _, hfk2, htbl2, _, _⟩ :=
    save_update_shape linkM2M db1 id p u prog e1 hu hune hprog1 hu1find hnodup1
  have hfk1v : a.localFk e1 = some (a.table db).nextPk := by
    rw [hfk1 a, hinh, hdata, hfk, manage_create _ _ hdne]
  have htbl1v : a.table db1 = ((a.table db).createRow d).1 := by
    rw [htbl1 a, hinh, hdata, hfk, manage_create _ _ hdne]
  have hrow1 : (a.table db1).getRow ((a.table db).nextPk) = some d := by
    rw [htbl1v]
    exact getRow_createRow_self _ d hwt
  have htbl2v : a.table (save_efforts_for_program linkM2M db1 id (some p)) =
      (a.table db1).saveRow ((a.table db).nextPk)
        (overwriteFields (((a.table db1).getRow ((a.table db).nextPk)).getD []) d) := by
    rw [htbl2 a, hinh, hdata, hfk1v, manage_update]
  constructor
  · rw [htbl2v, length_saveRow, htbl1v, length_createRow]
  · refine ⟨e2, (a.table db).nextPk, ?_, ?_, ?_⟩
    · rw [← hpk1]
      exact hpk2find
    · rw [hfk2 a, hinh, hdata, hfk1v, manage_update]
    · rw [htbl2v, hrow1]
      simp only [Option.getD_some]
      exact getRow_saveRow_of_mem _ _ _ d hrow1

theorem c6_witness :
    (Aspect.sow.table (save_efforts_for_program false
        (save_efforts_for_program false wDbM6 "P1" (some wPay6)) "P1"
        (some wPay6))).rows.length = (Aspect.sow.table wDbM6).rows.length + 1 ∧
    ∃ e2 npk,
      (save_efforts_for_program false (save_efforts_for_program false wDbM6 "P1" (some wPay6))
          "P1" (some wPay6)).efforts.find? (fun e => e.pk == wInst6.pk) = some e2 ∧
      Aspect.sow.localFk e2 = some npk ∧
      (Aspect.sow.table (save_efforts_for_program false
          (save_efforts_for_program false wDbM6 "P1" (some wPay6)) "P1"
          (some wPay6))).getRow npk = some (overwriteFields [("f", "v")] [("f", "v")]) :=
  c6_save_twice_single_profile_row Aspect.sow false wDbM6 "P1" wPay6
    "11111111-1111-1111-1111-111111111111" wProg wInst6 [("f", "v")]
    rfl (by decide) (by decide) (by decide) (by decide) (by decide)
    (by decide) (by decide) (by decide) (by decide)

/-! ### Linked-efforts resolution (C7, C10) -/

theorem resolveLinks_go (db : CatalogDB) (raws : List RawLink) :
    ∀ acc : List EffortRow × List (Option String),
      raws.foldl
        (fun acc raw =>
          match resolve_identifier_to_instance db (extractIdentifier raw) with
          | some t => (acc.1 ++ [t], acc.2 ++ [some t.uuid])
          | none => (acc.1, acc.2 ++ [extractIdentifier raw]))
        acc =
      (acc.1 ++ (resolveLinks db raws).1, acc.2 ++ (resolveLinks db raws).2) := by
  induction raws with
  | nil =>
    intro acc
    simp [resolveLinks]
  | cons raw rest ih =>
    intro acc
    rw [List.foldl_cons]
    rw [ih]
    have hr2 : resolveLinks db (raw :: rest) =
        ((match resolve_identifier_to_instance db (extractIdentifier raw) with
          | some t => (([] : List EffortRow) ++ [t],
              ([] : List (Option String)) ++ [some t.uuid])
          | none => (([] : List EffortRow),
              ([] : List (Option String)) ++ [extractIdentifier raw])).1 ++
            (resolveLinks db rest).1,
         (match resolve_identifier_to_instance db (extractIdentifier raw) with
          | some t => (([] : List EffortRow) ++ [t],
              ([] : List (Option String)) ++ [some t.uuid])
          | none => (([] : List EffortRow),
              ([] : List (Option String)) ++ [extractIdentifier raw])).2 ++
            (resolveLinks db rest).2) := by
      show List.foldl _ _ (raw :: rest) = _
      rw [List.foldl_cons]
      cases hr : resolve_identifier_to_instance db (extractIdentifier raw) with
      | none =>
        simp only [hr]
        rw [ih]
      | some t =>
        simp only [hr]
        rw [ih]
    rw [hr2]
    cases hr : resolve_identifier_to_instance db (extractIdentifier raw) with
    | none => simp [hr]
    | some t => simp [hr]

theorem resolveLinks_cons (db : CatalogDB) (raw : RawLink) (rest : List RawLink) :
    resolveLinks db (raw :: rest) =
      (match resolve_identifier_to_instance db (extractIdentifier raw) with
       | some t => (t :: (resolveLinks db rest).1, some t.uuid :: (resolveLinks db rest).2)
       | none => ((resolveLinks db rest).1, extractIdentifier raw :: (resolveLinks db rest).2)) := by
  show List.foldl _ _ (raw :: rest) = _
  rw [List.foldl_cons]
  rw [resolveLinks_go db rest]
  cases hr : resolve_identifier_to_instance db (extractIdentifier raw) with
  | none => simp [hr]
  | some t => simp [hr]

theorem resolveLinks_fst_eq_filterMap (db : CatalogDB) (raws : List RawLink) :
    (resolveLinks db raws).1 =
      raws.filterMap (fun raw => resolve_identifier_to_instance db (extractIdentifier raw)) := by
  induction raws with
  | nil => rfl
  | cons raw rest ih =>
    rw [resolveLinks_cons, List.filterMap_cons]
    cases hr : resolve_identifier_to_instance db (extractIdentifier raw) <;> simp [hr, ih]

theorem resolveLinks_snd_length (db : CatalogDB) (raws : List RawLink) :
    (resolveLinks db raws).2.length = raws.length := by
  induction raws with
  | nil => rfl
  | cons raw rest ih =>
    rw [resolveLinks_cons]
    cases hr : resolve_identifier_to_instance db (extractIdentifier raw) <;> simp [hr, ih]

theorem resolveLinks_snd_get? (db : CatalogDB) (raws : List RawLink) :
    ∀ i raw, raws.get? i = some raw →
      (resolveLinks db raws).2.get? i = some
        (match resolve_identifier_to_instance db (extractIdentifier raw) with
         | some t => some t.uuid
         | none => extractIdentifier raw) := by
  induction raws with
  | nil =>
    intro i raw h
    simp at h
  | cons r0 rest ih =>
    intro i raw h
    rw [resolveLinks_cons]
    cases i with
    | zero =>
      simp only [List.get?] at h
      injection h with h
      subst h
      cases hr : resolve_identifier_to_instance db (extractIdentifier r0) <;> simp [hr]
    | succ n =>
      simp only [List.get?] at h
      cases hr : resolve_identifier_to_instance db (extractIdentifier r0) <;>
        simpa [hr] using ih n raw h

theorem effortUpsert_snd (linkM2M : Bool) (db : CatalogDB) (prog : PCIRow)
    (pf : Option Nat) (p : SoftwareEffortPayload) :
    (effortUpsert linkM2M db prog pf p).2 = savedEffortPk db p := by
  unfold effortUpsert savedEffortPk
  cases hex : findExistingEffort db p
  · rfl
  · rfl

theorem findExistingEffort_mem (db : CatalogDB) (p : SoftwareEffortPayload)
    (inst : EffortRow) (hex : findExistingEffort db p = some inst) :
    inst ∈ db.efforts := by
  unfold findExistingEffort at hex
  split at hex
  · split at hex
    · exact List.mem_of_find?_eq_some hex
    · cases hex
  · cases hex

theorem save_linked_eq (linkM2M : Bool) (db : CatalogDB) (id : String)
    (p : SoftwareEffortPayload) (prog : PCIRow) (rl : List RawLink)
    (hprog : db.programs.find? (fun r => r.program_id == id) = some prog)
    (hlinked : p.linked_software_efforts = some rl)
    (hpk : (db.efforts.map (fun e => e.pk)).Nodup)
    (hbound : ∀ e ∈ db.efforts, e.pk < db.nextEffortPk) :
    ∃ e', (save_efforts_for_program linkM2M db id (some p)).efforts.find?
            (fun e => e.pk == savedEffortPk db p) = some e' ∧
      e'.linked_software_efforts =
        (if linkM2M then
          LinkedStore.m2m
            ((resolveLinks (preLinkDB linkM2M db prog p) rl).1.map (fun t => t.pk))
        else LinkedStore.flat (resolveLinks (preLinkDB linkM2M db prog p) rl).2) := by
  have hsave : save_efforts_for_program linkM2M db id (some p) =
      applyLinked linkM2M (preLinkDB linkM2M db prog p) (savedEffortPk db p) (some rl) := by
    unfold save_efforts_for_program preLinkDB
    simp only [hprog, hlinked]
    rw [effortUpsert_snd]
  set db1 := preLinkDB linkM2M db prog p with hdb1
  set instPk := savedEffortPk db p with hinstPk
  have hfindMid : ∃ eMid, db1.efforts.find? (fun e => e.pk == instPk) = some eMid := by
    cases hex : findExistingEffort db p with
    | some inst =>
      have hmem : inst ∈ db.efforts := findExistingEffort_mem db p inst hex
      have hdb1v : db1.efforts = db.efforts.map (fun e =>
          if e.pk == inst.pk then
            reconciledEffort db prog (resolveParentFk db p) p inst
          else e) := by
        rw [hdb1]
        unfold preLinkDB effortUpsert
        simp only [hex]
        rfl
      have hiPk : instPk = inst.pk := by
        rw [hinstPk]
        unfold savedEffortPk
        simp only [hex]
      have hgpk : ∀ e ∈ db.efforts,
          ((if e.pk == inst.pk then
              reconciledEffort db prog (resolveParentFk db p) p inst else e).pk
            == inst.pk) = (e.pk == inst.pk) := by
        intro e _
        by_cases h : e.pk = inst.pk
        · simp only [if_pos (by simp [h] : (e.pk == inst.pk) = true)]
          have : (reconciledEffort db prog (resolveParentFk db p) p inst).pk = inst.pk := rfl
          simp [this, h]
        · simp [h]
      rw [hiPk, hdb1v, find?_map_of_pred_inv db.efforts _ _ hgpk,
        find?_pk_of_nodup db.efforts inst hpk hmem]
      exact ⟨_, rfl⟩
    | none =>
      have hdb1v : db1.efforts = db.efforts ++
          [(createNewEffort linkM2M db prog (resolveParentFk db p) p).2] := by
        rw [hdb1]
        unfold preLinkDB effortUpsert
        simp only [hex]
        rfl
      have hiPk : instPk = db.nextEffortPk := by
        rw [hinstPk]
        unfold savedEffortPk
        simp only [hex]
      have heffpk : (createNewEffort linkM2M db prog (resolveParentFk db p) p).2.pk =
          db.nextEffortPk := rfl
      rw [hiPk, hdb1v, List.find?_append]
      have h1 : db.efforts.find? (fun e => e.pk == db.nextEffortPk) = none := by
        rw [List.find?_eq_none]
        intro e he
        have := hbound e he
        simp
        omega
      rw [h1]
      simp [List.find?, heffpk]
  obtain ⟨eMid, hMid⟩ := hfindMid
  have hMidPk : (eMid.pk == instPk) = true := by
    have := List.find?_some hMid
    exact this
  set L := (if linkM2M then
      LinkedStore.m2m ((resolveLinks db1 rl).1.map (fun t => t.pk))
    else LinkedStore.flat (resolveLinks db1 rl).2) with hLdef
  have happ : (applyLinked linkM2M db1 instPk (some rl)).efforts =
      db1.efforts.map (fun e =>
        if e.pk == instPk then { e with linked_software_efforts := L } else e) := by
    unfold applyLinked
    rfl
  refine ⟨{ eMid with linked_software_efforts := L }, ?_, ?_⟩
  · rw [hsave, happ, find?_map_of_pred_inv db1.efforts _ _ (fun e _ => by
      by_cases h : e.pk = instPk
      · simp [h]
      · simp [h]), hMid, Option.map_some']
    rw [if_pos hMidPk]
  · rw [hLdef]

/-- C7: linked-effort identifiers are resolved in two passes — a UUID lookup
against existing efforts first, then a storage-key lookup for purely numeric
identifiers — against the post-upsert state; a many-to-many relation is
replaced wholesale by the resolved efforts (unresolved identifiers dropped),
while a flat identifier list keeps one entry per original position, holding
the resolved effort's canonical UUID where resolution succeeded and the raw
identifier otherwise. -/
theorem c7_linked_efforts_resolution (linkM2M : Bool) (db : CatalogDB) (id : String)
    (p : SoftwareEffortPayload) (prog : PCIRow) (rl : List RawLink)
    (hprog : db.programs.find? (fun r => r.program_id == id) = some prog)
    (hlinked : p.linked_software_efforts = some rl)
    (hpk : (db.efforts.map (fun e => e.pk)).Nodup)
    (hbound : ∀ e ∈ db.efforts, e.pk < db.nextEffortPk) :
    ∃ e', (save_efforts_for_program linkM2M db id (some p)).efforts.find?
            (fun e => e.pk == savedEffortPk db p) = some e' ∧
      (linkM2M = true →
        e'.linked_software_efforts = LinkedStore.m2m
          ((rl.filterMap (fun raw => resolve_identifier_to_instance
              (preLinkDB linkM2M db prog p) (extractIdentifier raw))).map (fun t => t.pk))) ∧
      (linkM2M = false →
        ∃ ids, e'.linked_software_efforts = LinkedStore.flat ids ∧
          ids.length = rl.length ∧
          ∀ i raw, rl.get? i = some raw →
            ids.get? i = some
              (match resolve_identifier_to_instance (preLinkDB linkM2M db prog p)
                  (extractIdentifier raw) with
               | some t => some t.uuid
               | none => extractIdentifier raw)) := by
  obtain ⟨e', hfind, hlinkedv⟩ := save_linked_eq linkM2M db id p prog rl hprog hlinked hpk hbound
  refine ⟨e', hfind, ?_, ?_⟩
  · intro hm
    rw [hlinkedv, if_pos hm, resolveLinks_fst_eq_filterMap]
  · intro hm
    rw [hlinkedv, if_neg (by simp [hm])]
    exact ⟨_, rfl, resolveLinks_snd_length _ _, fun i raw h => resolveLinks_snd_get? _ _ i raw h⟩

/-- C10: on the flat storage shape, a linked-efforts dict entry with no truthy
`uuid`, `id` or `pk` key yields no identifier and is stored as a null entry at
its position; the raw dict itself is never passed through. -/
theorem c10_keyless_dict_stored_null (db : CatalogDB) (id : String)
    (p : SoftwareEffortPayload) (prog : PCIRow) (rl : List RawLink) (i : Nat)
    (f : List (String × String))
    (hprog : db.programs.find? (fun r => r.program_id == id) = some prog)
    (hlinked : p.linked_software_efforts = some rl)
    (hpk : (db.efforts.map (fun e => e.pk)).Nodup)
    (hbound : ∀ e ∈ db.efforts, e.pk < db.nextEffortPk)
    (hraw : rl.get? i = some (RawLink.dict f))
    (hk1 : truthyGet f "uuid" = none) (hk2 : truthyGet f "id" = none)
    (hk3 : truthyGet f "pk" = none) :
    ∃ e' ids, (save_efforts_for_program false db id (some p)).efforts.find?
        (fun e => e.pk == savedEffortPk db p) = some e' ∧
      e'.linked_software_efforts = LinkedStore.flat ids ∧
      ids.length = rl.length ∧ ids.get? i = some none := by
  obtain ⟨e', hfind, hl⟩ := save_linked_eq false db id p prog rl hprog hlinked hpk hbound
  have hflat : e'.linked_software_efforts =
      LinkedStore.flat (resolveLinks (preLinkDB false db prog p) rl).2 := by
    simpa using hl
  have hext : extractIdentifier (RawLink.dict f) = none := by
    simp [extractIdentifier, hk1, hk2, hk3]
  refine ⟨e', _, hfind, hflat, resolveLinks_snd_length _ _, ?_⟩
  have := resolveLinks_snd_get? (preLinkDB false db prog p) rl i (RawLink.dict f) hraw
  rw [hext] at this
  simpa using this

theorem c7_witness :
    ∃ e', (save_efforts_for_program false wDbM6 "P1" (some wPayL)).efforts.find?
            (fun e => e.pk == savedEffortPk wDbM6 wPayL) = some e' ∧
      (false = true →
        e'.linked_software_efforts = LinkedStore.m2m
          (([RawLink.dict [("foo", "bar")], RawLink.str "1", RawLink.str "nope"].filterMap
              (fun raw => resolve_identifier_to_instance
                (preLinkDB false wDbM6 wProg wPayL) (extractIdentifier raw))).map
            (fun t => t.pk))) ∧
      (false = false →
        ∃ ids, e'.linked_software_efforts = LinkedStore.flat ids ∧
          ids.length = [RawLink.dict [("foo", "bar")], RawLink.str "1",
            RawLink.str "nope"].length ∧
          ∀ i raw, [RawLink.dict [("foo", "bar")], RawLink.str "1",
              RawLink.str "nope"].get? i = some raw →
            ids.get? i = some
              (match resolve_identifier_to_instance (preLinkDB false wDbM6 wProg wPayL)
                  (extractIdentifier raw) with
               | some t => some t.uuid
               | none => extractIdentifier raw)) :=
  c7_linked_efforts_resolution false wDbM6 "P1" wPayL wProg
    [RawLink.dict [("foo", "bar")], RawLink.str "1", RawLink.str "nope"]
    (by decide) rfl (by decide) (by decide)

theorem c10_witness :
    ∃ e' ids, (save_efforts_for_program false wDbM6 "P1" (some wPayL)).efforts.find?
        (fun e => e.pk == savedEffortPk wDbM6 wPayL) = some e' ∧
      e'.linked_software_efforts = LinkedStore.flat ids ∧
      ids.length = [RawLink.dict [("foo", "bar")], RawLink.str "1",
        RawLink.str "nope"].length ∧
      ids.get? 0 = some none :=
  c10_keyless_dict_stored_null wDbM6 "P1" wPayL wProg
    [RawLink.dict [("foo", "bar")], RawLink.str "1", RawLink.str "nope"] 0 [("foo", "bar")]
    (by decide) rfl (by decide) (by decide) rfl (by decide) (by decide) (by decide)

theorem c4_witness :
    ((_get_latest_programs wRows4).map Prod.fst).Nodup ∧
    (∀ pid, pid ∈ (_get_latest_programs wRows4).map Prod.fst ↔
      ∃ r ∈ wRows4, r.program_active = true ∧ r.program_id = pid) ∧
    (∀ pid d, (pid, d) ∈ _get_latest_programs wRows4 ↔
      ((∃ r ∈ wRows4, r.program_active = true ∧ r.program_id = pid ∧ r.date = d) ∧
       (∀ r ∈ wRows4, r.program_active = true → r.program_id = pid → r.date ≤ d))) ∧
    ((∀ r ∈ wRows4, r.program_active = false) → _get_latest_programs wRows4 = []) :=
  c4_latest_active_versions wRows4

/-! ### Path primitive lemmas (C1, C2, C3) -/

theorem splitOnChar_ne_nil (sep : Char) (l : List Char) : splitOnChar sep l ≠ [] := by
  cases l with
  | nil => simp [splitOnChar]
  | cons c cs =>
    unfold splitOnChar
    cases h : splitOnChar sep cs with
    | nil => simp
    | cons s ss =>
      by_cases hc : c = sep <;> simp [hc]

theorem length_splitOnChar (sep : Char) (l : List Char) :
    (splitOnChar sep l).length = l.count sep + 1 := by
  induction l with
  | nil => simp [splitOnChar]
  | cons c cs ih =>
    unfold splitOnChar
    cases h : splitOnChar sep cs with
    | nil => exact absurd h (splitOnChar_ne_nil sep cs)
    | cons s ss =>
      rw [h] at ih
      by_cases hc : c = sep
      · simp only [hc, if_pos rfl, List.length_cons]
        simp only [List.length_cons] at ih
        rw [List.count_cons]
        simp [ih]
      · simp only [if_neg hc, List.length_cons]
        simp only [List.length_cons] at ih
        rw [List.count_cons]
        simp [hc, ih]

theorem pathDepth_eq_count (p : String) : pathDepth p = p.toList.count '.' + 1 :=
  length_splitOnChar '.' p.toList

theorem dropWhile_dot_decomp (l : List Char) (h : '.' ∈ l) :
    ∃ pre t, l = pre ++ '.' :: t ∧ pre.count '.' = 0 ∧
      l.dropWhile (fun c => c != '.') = '.' :: t := by
  induction l with
  | nil => cases h
  | cons c cs ih =>
    by_cases hc : c = '.'
    · subst hc
      refine ⟨[], cs, rfl, rfl, ?_⟩
      rw [List.dropWhile_cons]
      simp
    · have h2 : '.' ∈ cs := by
        rcases List.mem_cons.mp h with h3 | h3
        · exact absurd h3.symm hc
        · exact h3
      obtain ⟨pre, t, hdec, hcnt, hdrop⟩ := ih h2
      refine ⟨c :: pre, t, by rw [List.cons_append, ← hdec], ?_, ?_⟩
      · rw [List.count_cons, hcnt]
        simp [hc]
      · rw [List.dropWhile_cons]
        simp only [bne_iff_ne, ne_eq, hc, not_false_eq_true, if_true]
        exact hdrop

theorem count_parentChars (l : List Char) (h : '.' ∈ l) :
    (parentChars l).count '.' + 1 = l.count '.' := by
  have hr : '.' ∈ l.reverse := by simpa using h
  obtain ⟨pre, t, hdec, hcnt, hdrop⟩ := dropWhile_dot_decomp l.reverse hr
  have hpc : parentChars l = t.reverse := by
    unfold parentChars
    rw [hdrop]
    simp
  rw [hpc]
  have h1 : l.count '.' = l.reverse.count '.' := (List.count_reverse _ _).symm
  rw [h1, hdec]
  simp only [List.count_append, List.count_cons, List.count_reverse]
  simp [hcnt]

theorem pathDepth_parent (p : String) (h : '.' ∈ p.toList) :
    pathDepth (getParentIdPath p) + 1 = pathDepth p := by
  unfold getParentIdPath
  rw [if_pos h]
  have htl : (String.mk (parentChars p.toList)).toList = parentChars p.toList := rfl
  rw [pathDepth_eq_count, pathDepth_eq_count, htl]
  have := count_parentChars p.toList h
  omega

theorem pathDepth_pos (p : String) : 1 ≤ pathDepth p := by
  rw [pathDepth_eq_count]
  omega

theorem two_le_pathDepth_iff (p : String) : 2 ≤ pathDepth p ↔ '.' ∈ p.toList := by
  rw [pathDepth_eq_count]
  constructor
  · intro h
    have : 1 ≤ p.toList.count '.' := by omega
    exact List.count_pos_iff_mem.mp this
  · intro h
    have : 1 ≤ p.toList.count '.' := List.count_pos_iff_mem.mpr h
    omega

theorem pathDepth_empty : pathDepth "" = 1 := rfl

theorem getParentIdPath_no_dot (p : String) (h : '.' ∉ p.toList) :
    getParentIdPath p = "" := by
  unfold getParentIdPath
  rw [if_neg h]

theorem foldl_min_le_init (rs : List ProgRec) :
    ∀ a, rs.foldl (fun m x => Nat.min m (pathDepth x.program_path)) a ≤ a := by
  induction rs with
  | nil => intro a; simp
  | cons x xs ih =>
    intro a
    calc xs.foldl (fun m x => Nat.min m (pathDepth x.program_path))
          (Nat.min a (pathDepth x.program_path)) ≤ Nat.min a (pathDepth x.program_path) := ih _
      _ ≤ a := Nat.min_le_left _ _

theorem foldl_min_le_mem (rs : List ProgRec) :
    ∀ a, ∀ x ∈ rs, rs.foldl (fun m y => Nat.min m (pathDepth y.program_path)) a ≤
      pathDepth x.program_path := by
  induction rs with
  | nil => intro a x hx; cases hx
  | cons y ys ih =>
    intro a x hx
    rcases List.mem_cons.mp hx with h | h
    · subst h
      calc ys.foldl _ (Nat.min a (pathDepth x.program_path))
          ≤ Nat.min a (pathDepth x.program_path) := foldl_min_le_init ys _
        _ ≤ pathDepth x.program_path := Nat.min_le_right _ _
    · exact ih _ x h

theorem foldl_min_attained (rs : List ProgRec) :
    ∀ a, rs.foldl (fun m y => Nat.min m (pathDepth y.program_path)) a = a ∨
      ∃ x ∈ rs, rs.foldl (fun m y => Nat.min m (pathDepth y.program_path)) a =
        pathDepth x.program_path := by
  induction rs with
  | nil => intro a; exact Or.inl rfl
  | cons y ys ih =>
    intro a
    rcases ih (Nat.min a (pathDepth y.program_path)) with h | ⟨x, hx, hfx⟩
    · rw [List.foldl_cons, h]
      rcases Nat.le_total a (pathDepth y.program_path) with hc | hc
      · exact Or.inl (Nat.min_eq_left hc)
      · exact Or.inr ⟨y, List.mem_cons_self y ys, Nat.min_eq_right hc⟩
    · exact Or.inr ⟨x, List.mem_cons_of_mem y hx, by rw [List.foldl_cons, hfx]⟩

theorem minDepth_le (records : List ProgRec) (r : ProgRec) (hr : r ∈ records) :
    minDepth records ≤ pathDepth r.program_path := by
  cases records with
  | nil => cases hr
  | cons x xs =>
    unfold minDepth
    rcases List.mem_cons.mp hr with h | h
    · subst h
      exact foldl_min_le_init xs _
    · exact foldl_min_le_mem xs _ r h

theorem minDepth_attained (records : List ProgRec) (hne : records ≠ []) :
    ∃ r ∈ records, pathDepth r.program_path = minDepth records := by
  cases records with
  | nil => exact absurd rfl hne
  | cons x xs =>
    unfold minDepth
    rcases foldl_min_attained xs (pathDepth x.program_path) with h | ⟨r, hr, hfr⟩
    · exact ⟨x, List.mem_cons_self x xs, h.symm⟩
    · exact ⟨r, List.mem_cons_of_mem x hr, hfr.symm⟩

theorem sortProgramData_perm (l : List ProgRec) : List.Perm (sortProgramData l) l :=
  List.perm_insertionSort depthLE l

theorem sortProgramData_sorted (l : List ProgRec) : List.Sorted depthLE (sortProgramData l) :=
  List.sorted_insertionSort depthLE l

theorem sorted_head_min (records : List ProgRec) (first : ProgRec) (rest : List ProgRec)
    (hsor : sortProgramData records = first :: rest) :
    pathDepth first.program_path = minDepth records := by
  have hmemf : first ∈ records :=
    (sortProgramData_perm records).mem_iff.mp (hsor ▸ List.mem_cons_self first rest)
  have h1 : minDepth records ≤ pathDepth first.program_path := minDepth_le records first hmemf
  obtain ⟨m, hm, hmd⟩ := minDepth_attained records (by
    intro hc
    rw [hc] at hsor
    simp [sortProgramData, List.insertionSort] at hsor)
  have hmem2 : m ∈ first :: rest := hsor ▸ (sortProgramData_perm records).mem_iff.mpr hm
  have hsorted := sortProgramData_sorted records
  rw [hsor] at hsorted
  rcases List.mem_cons.mp hmem2 with h | h
  · rw [← h]
    exact hmd
  · have h2 := (List.sorted_cons.mp hsorted).1 m h
    unfold depthLE at h2
    omega

theorem takeWhile_count_min (s : List ProgRec) (d0 : Nat)
    (hs : List.Sorted depthLE s) (hge : ∀ r ∈ s, d0 ≤ pathDepth r.program_path) :
    (s.takeWhile (fun p => pathDepth p.program_path == d0)).length =
      s.countP (fun p => pathDepth p.program_path == d0) := by
  induction s with
  | nil => rfl
  | cons x xs ih =>
    have hx := (List.sorted_cons.mp hs).1
    have hxs := (List.sorted_cons.mp hs).2
    have ihx := ih hxs (fun r hr => hge r (List.mem_cons_of_mem x hr))
    by_cases hd : pathDepth x.program_path = d0
    · rw [List.takeWhile_cons, if_pos (by simp [hd]), List.countP_cons, if_pos (by simp [hd])]
      simp only [List.length_cons]
      omega
    · rw [List.takeWhile_cons, if_neg (by simp [hd]), List.countP_cons, if_neg (by simp [hd])]
      have hcz : xs.countP (fun p => pathDepth p.program_path == d0) = 0 := by
        rw [List.countP_eq_zero]
        intro r hr
        have h1 := hx r hr
        unfold depthLE at h1
        have h2 := hge x (List.mem_cons_self x xs)
        simp only [beq_iff_eq]
        omega
      simp only [List.length_nil]
      omega

theorem rootCandidates_eq_countP (records : List ProgRec) (first : ProgRec)
    (rest : List ProgRec) (hsor : sortProgramData records = first :: rest) :
    rootCandidatesCount (sortProgramData records) (pathDepth first.program_path) =
      records.countP (fun r => pathDepth r.program_path == minDepth records) := by
  have hd0 := sorted_head_min records first rest hsor
  unfold rootCandidatesCount
  rw [takeWhile_count_min _ _ (sortProgramData_sorted records) (fun r hr => by
    have hmem : r ∈ records := (sortProgramData_perm records).mem_iff.mp hr
    rw [hd0]
    exact minDepth_le records r hmem)]
  rw [hd0]
  exact (sortProgramData_perm records).countP_eq _

theorem rest_depth_gt (records : List ProgRec) (first : ProgRec) (rest : List ProgRec)
    (hsor : sortProgramData records = first :: rest)
    (hone : records.countP (fun r => pathDepth r.program_path == minDepth records) = 1) :
    ∀ r ∈ rest, pathDepth first.program_path + 1 ≤ pathDepth r.program_path := by
  have hd0 := sorted_head_min records first rest hsor
  have hcs : (first :: rest).countP
      (fun r => pathDepth r.program_path == minDepth records) = 1 := by
    rw [← hsor, (sortProgramData_perm records).countP_eq]
    exact hone
  rw [List.countP_cons, if_pos (by simp [hd0])] at hcs
  have hz : rest.countP (fun r => pathDepth r.program_path == minDepth records) = 0 := by
    omega
  have hzz := List.countP_eq_zero.mp hz
  intro r hr
  have h1 : pathDepth r.program_path ≠ minDepth records := by
    have := hzz r hr
    simpa using this
  have hsorted := sortProgramData_sorted records
  rw [hsor] at hsorted
  have h2 := (List.sorted_cons.mp hsorted).1 r hr
  unfold depthLE at h2
  omega

/-- C1: when two or more current records share the minimum path depth,
`get_all_programs_as_tree` raises the integrity error, whose logged candidate
list covers exactly the minimum-depth records' names and paths, and no tree
(not even a partial one) is produced. -/
theorem c1_multiple_min_depth_roots_error (records : List ProgRec)
    (hne : records ≠ [])
    (hmulti : 2 ≤ records.countP (fun r => pathDepth r.program_path == minDepth records)) :
    ∃ err, get_all_programs_as_tree records = Except.error err ∧
      err.root_count =
        records.countP (fun r => pathDepth r.program_path == minDepth records) ∧
      (∀ r ∈ records, pathDepth r.program_path = minDepth records →
        (r.name, r.program_path) ∈ err.candidates) ∧
      (∀ x ∈ err.candidates, ∃ r ∈ records,
        pathDepth r.program_path = minDepth records ∧ x = (r.name, r.program_path)) ∧
      err.candidates.length =
        records.countP (fun r => pathDepth r.program_path == minDepth records) := by
  obtain ⟨first, rest, hsor⟩ : ∃ first rest, sortProgramData records = first :: rest := by
    cases hs : sortProgramData records with
    | nil =>
      have := (sortProgramData_perm records).length_eq
      rw [hs] at this
      cases records with
      | nil => exact absurd rfl hne
      | cons a l => simp at this
    | cons a l => exact ⟨a, l, rfl⟩
  have hd0 := sorted_head_min records first rest hsor
  have hcnt := rootCandidates_eq_countP records first rest hsor
  set cntP := records.countP (fun r => pathDepth r.program_path == minDepth records) with hcntP
  have hres : get_all_programs_as_tree records = Except.error
      { root_count := rootCandidatesCount (sortProgramData records)
          (pathDepth first.program_path)
        candidates := ((sortProgramData records).take
          (rootCandidatesCount (sortProgramData records)
            (pathDepth first.program_path))).map (fun p => (p.name, p.program_path)) } := by
    unfold get_all_programs_as_tree
    rw [if_neg (by simpa [List.isEmpty_iff] using hne)]
    simp only [hsor]
    rw [if_pos (by rw [hsor] at hcnt; omega)]
  have htake : (sortProgramData records).take
      (rootCandidatesCount (sortProgramData records) (pathDepth first.program_path)) =
      (sortProgramData records).takeWhile
        (fun p => pathDepth p.program_path == pathDepth first.program_path) := by
    unfold rootCandidatesCount
    exact (List.prefix_iff_eq_take.mp (List.takeWhile_prefix _)).symm
  have htw_forall : ∀ r ∈ records, pathDepth r.program_path = minDepth records →
      r ∈ (sortProgramData records).takeWhile
        (fun p => pathDepth p.program_path == pathDepth first.program_path) := by
    intro r hr hrd
    have hmem : r ∈ sortProgramData records := (sortProgramData_perm records).mem_iff.mpr hr
    rw [← List.takeWhile_append_dropWhile
      (p := fun p => pathDepth p.program_path == pathDepth first.program_path)
      (l := sortProgramData records)] at hmem
    rcases List.mem_append.mp hmem with h | h
    · exact h
    · exfalso
      have hcnt2 : ((sortProgramData records).takeWhile
          (fun p => pathDepth p.program_path == pathDepth first.program_path)).countP
            (fun p => pathDepth p.program_path == pathDepth first.program_path) +
          ((sortProgramData records).dropWhile
            (fun p => pathDepth p.program_path == pathDepth first.program_path)).countP
            (fun p => pathDepth p.program_path == pathDepth first.program_path) =
          cntP := by
        rw [← List.countP_append, List.takeWhile_append_dropWhile,
          (sortProgramData_perm records).countP_eq, hd0]
      have htwc : ((sortProgramData records).takeWhile
          (fun p => pathDepth p.program_path == pathDepth first.program_path)).countP
            (fun p => pathDepth p.program_path == pathDepth first.program_path) =
          ((sortProgramData records).takeWhile
            (fun p => pathDepth p.program_path == pathDepth first.program_path)).length := by
        rw [List.countP_eq_length]
        intro a ha
        simpa using List.mem_takeWhile_imp ha
      have hlen : ((sortProgramData records).takeWhile
          (fun p => pathDepth p.program_path == pathDepth first.program_path)).length =
          cntP := by
        rw [← hcnt]
        rfl
      have hdz : ((sortProgramData records).dropWhile
          (fun p => pathDepth p.program_path == pathDepth first.program_path)).countP
            (fun p => pathDepth p.program_path == pathDepth first.program_path) = 0 := by
        omega
      have := List.countP_eq_zero.mp hdz r h
      simp only [beq_iff_eq] at this
      rw [hrd, ← hd0] at this
      exact this rfl
  refine ⟨_, hres, ?_, ?_, ?_, ?_⟩
  · exact hcnt
  · intro r hr hrd
    simp only [htake]
    exact List.mem_map.mpr ⟨r, htw_forall r hr hrd, rfl⟩
  · intro x hx
    simp only [htake] at hx
    obtain ⟨r, hrtw, hrx⟩ := List.mem_map.mp hx
    have hrmem : r ∈ sortProgramData records :=
      (List.takeWhile_prefix _).sublist.subset hrtw
    exact ⟨r, (sortProgramData_perm records).mem_iff.mp hrmem, by
      have := List.mem_takeWhile_imp hrtw
      simp only [beq_iff_eq] at this
      rw [this, hd0], hrx.symm⟩
  · simp only [htake, List.length_map]
    rw [← hcnt]
    rfl

theorem c1_witness :
    ∃ err, get_all_programs_as_tree wRecsC1 = Except.error err ∧
      err.root_count =
        wRecsC1.countP (fun r => pathDepth r.program_path == minDepth wRecsC1) ∧
      (∀ r ∈ wRecsC1, pathDepth r.program_path = minDepth wRecsC1 →
        (r.name, r.program_path) ∈ err.candidates) ∧
      (∀ x ∈ err.candidates, ∃ r ∈ wRecsC1,
        pathDepth r.program_path = minDepth wRecsC1 ∧ x = (r.name, r.program_path)) ∧
      err.candidates.length =
        wRecsC1.countP (fun r => pathDepth r.program_path == minDepth wRecsC1) :=
  c1_multiple_min_depth_roots_error wRecsC1 (by decide) (by decide)

/-! ### Population loop invariant (C2, C3) -/

theorem length_modifyIdx (l : List α) (i : Nat) (f : α → α) :
    (modifyIdx l i f).length = l.length := by
  induction l generalizing i with
  | nil => rfl
  | cons a as ih =>
    cases i with
    | zero => rfl
    | succ n => simp [modifyIdx, ih]

theorem get?_modifyIdx_ne (l : List α) (i j : Nat) (f : α → α) (h : j ≠ i) :
    (modifyIdx l i f).get? j = l.get? j := by
  induction l generalizing i j with
  | nil => rfl
  | cons a as ih =>
    cases i with
    | zero =>
      cases j with
      | zero => exact absurd rfl h
      | succ m => rfl
    | succ n =>
      cases j with
      | zero => rfl
      | succ m =>
        simp only [modifyIdx, List.get?]
        exact ih n m (fun hc => h (by rw [hc]))

theorem get?_modifyIdx_eq (l : List α) (i : Nat) (f : α → α) :
    (modifyIdx l i f).get? i = (l.get? i).map f := by
  induction l generalizing i with
  | nil => rfl
  | cons a as ih =>
    cases i with
    | zero => rfl
    | succ n => simpa [modifyIdx] using ih n

theorem get?_some_lt {α : Type} {l : List α} {k : Nat} {e : α} (h : l.get? k = some e) :
    k < l.length := by
  by_contra hc
  rw [List.get?_eq_none.mpr (by omega)] at h
  cases h

theorem insertStep_orphan (st : BuildState) (r : ProgRec)
    (hlook : lookupPath st.pathToIdx (getParentIdPath r.program_path) = none) :
    insertStep st r = { st with orphans := st.orphans ++ [r] } := by
  unfold insertStep
  rw [hlook]

theorem insertStep_insert (st : BuildState) (r : ProgRec) (i0 : Nat)
    (hlook : lookupPath st.pathToIdx (getParentIdPath r.program_path) = some i0) :
    insertStep st r =
      { entries := (modifyIdx st.entries i0
          (fun e => { e with childrenIdxs := e.childrenIdxs ++ [st.entries.length] }))
          ++ [mapToDto r]
        pathToIdx := (r.program_path, st.entries.length) :: st.pathToIdx
        orphans := st.orphans } := by
  unfold insertStep
  rw [hlook]


theorem mapToDto_path (p : ProgRec) : (mapToDto p).program_path = p.program_path := rfl

theorem mapToDto_children (p : ProgRec) : (mapToDto p).childrenIdxs = [] := rfl

theorem popInv_insertStep (d0 : Nat) (st : BuildState) (r : ProgRec)
    (inv : PopInv d0 st)
    (hrd : d0 + 1 ≤ pathDepth r.program_path)
    (hE : ∀ k e, st.entries.get? k = some e →
      pathDepth e.program_path ≤ pathDepth r.program_path)
    (hO : ∀ r' ∈ st.orphans, pathDepth r'.program_path ≤ pathDepth r.program_path) :
    PopInv d0 (insertStep st r) := by
  have hd0pos : 1 ≤ d0 := by
    obtain ⟨e0, he0⟩ : ∃ e0, st.entries.get? 0 = some e0 := by
      cases h : st.entries.get? 0 with
      | none =>
        rw [List.get?_eq_none] at h
        exact absurd inv.n_pos (by omega)
      | some e0 => exact ⟨e0, rfl⟩
    have := inv.path0 e0 he0
    have := pathDepth_pos e0.program_path
    omega
  have hrdot : '.' ∈ r.program_path.toList := by
    rw [← two_le_pathDepth_iff]
    omega
  have hqdepth : pathDepth (getParentIdPath r.program_path) + 1 = pathDepth r.program_path :=
    pathDepth_parent r.program_path hrdot
  have hqner : getParentIdPath r.program_path ≠ r.program_path := by
    intro hc
    rw [hc] at hqdepth
    omega
  cases hlook : lookupPath st.pathToIdx (getParentIdPath r.program_path) with
  | none =>
    rw [insertStep_orphan st r hlook]
    refine ⟨inv.n_pos, inv.path0, inv.depth_tail, inv.depth_mono, inv.map_sound,
      inv.map_complete, inv.child_bound, inv.parent_exists, inv.parent_unique,
      inv.children_nodup, inv.parent_lookup, inv.hasDesc_false, ?_, ?_⟩
    · intro r' hr' i e hie
      rcases List.mem_append.mp hr' with h | h
      · exact inv.orphan_parent r' h i e hie
      · rw [List.mem_singleton.mp h]
        intro hc
        exact inv.map_complete i e hie (by rw [hc]; exact hlook)
    · intro r' hr'
      rcases List.mem_append.mp hr' with h | h
      · exact inv.orphan_depth r' h
      · rw [List.mem_singleton.mp h]
        exact hrd
  | some i0 =>
    obtain ⟨ep, hep, heppath⟩ := inv.map_sound _ i0 hlook
    have hi0lt : i0 < st.entries.length := get?_some_lt hep
    set n := st.entries.length with hn
    set f : NodeEntry → NodeEntry :=
      (fun e => { e with childrenIdxs := e.childrenIdxs ++ [n] }) with hf
    set E' : List NodeEntry := modifyIdx st.entries i0 f ++ [mapToDto r] with hEp
    have hlen' : E'.length = n + 1 := by
      rw [hEp, List.length_append, length_modifyIdx]
      rfl
    have hget_lt : ∀ k, k < n → E'.get? k = (modifyIdx st.entries i0 f).get? k := by
      intro k hk
      rw [hEp]
      exact List.get?_append (by rw [length_modifyIdx]; omega)
    have hget_n : E'.get? n = some (mapToDto r) := by
      rw [hEp, List.get?_append_right (by rw [length_modifyIdx])]
      rw [length_modifyIdx]
      simp
    have hget_rel : ∀ k e', E'.get? k = some e' → k < n →
        ∃ e, st.entries.get? k = some e ∧ e'.program_path = e.program_path ∧
          e'.has_descendant_expecting_software_effort =
            e.has_descendant_expecting_software_effort ∧
          (e'.childrenIdxs = e.childrenIdxs ∨
            (k = i0 ∧ e'.childrenIdxs = e.childrenIdxs ++ [n])) := by
      intro k e' hke' hk
      rw [hget_lt k hk] at hke'
      by_cases hki : k = i0
      · subst hki
        rw [get?_modifyIdx_eq] at hke'
        cases hke2 : st.entries.get? k with
        | none => rw [hke2] at hke'; cases hke'
        | some e =>
          rw [hke2] at hke'
          simp only [Option.map_some'] at hke'
          have he' : e' = f e := (Option.some_inj.mp hke').symm
          subst he'
          exact ⟨e, rfl, rfl, rfl, Or.inr ⟨rfl, rfl⟩⟩
      · rw [get?_modifyIdx_ne _ _ _ _ hki] at hke'
        exact ⟨e', hke', rfl, rfl, Or.inl rfl⟩
    have hget_rel2 : ∀ k e, st.entries.get? k = some e →
        ∃ e', E'.get? k = some e' ∧ e'.program_path = e.program_path ∧
          e'.has_descendant_expecting_software_effort =
            e.has_descendant_expecting_software_effort ∧
          (e'.childrenIdxs = e.childrenIdxs ∨
            (k = i0 ∧ e'.childrenIdxs = e.childrenIdxs ++ [n])) := by
      intro k e hke
      have hk : k < n := get?_some_lt hke
      by_cases hki : k = i0
      · subst hki
        refine ⟨f e, ?_, rfl, rfl, Or.inr ⟨rfl, rfl⟩⟩
        rw [hget_lt k hk, get?_modifyIdx_eq, hke]
        rfl
      · refine ⟨e, ?_, rfl, rfl, Or.inl rfl⟩
        rw [hget_lt k hk, get?_modifyIdx_ne _ _ _ _ hki]
        exact hke
    have hchild_char : ∀ i j, IsChild E' i j ↔ (IsChild st.entries i j ∨ (i = i0 ∧ j = n)) := by
      intro i j
      constructor
      · rintro ⟨e', hie', hje'⟩
        by_cases hin : i = n
        · subst hin
          rw [hget_n] at hie'
          have he' : e' = mapToDto r := (Option.some_inj.mp hie').symm
          rw [he', mapToDto_children] at hje'
          exact absurd hje' (List.not_mem_nil j)
        · have hilt : i < n := by
            have := get?_some_lt hie'
            rw [hlen'] at this
            omega
          obtain ⟨e, hie, _, _, hch⟩ := hget_rel i e' hie' hilt
          rcases hch with hch | ⟨hii0, hch⟩
          · exact Or.inl ⟨e, hie, hch ▸ hje'⟩
          · rw [hch] at hje'
            rcases List.mem_append.mp hje' with h | h
            · exact Or.inl ⟨e, hie, h⟩
            · exact Or.inr ⟨hii0, List.mem_singleton.mp h⟩
      · rintro (⟨e, hie, hje⟩ | ⟨hii0, hjn⟩)
        · obtain ⟨e', hie', _, _, hch⟩ := hget_rel2 i e hie
          rcases hch with hch | ⟨_, hch⟩
          · exact ⟨e', hie', hch ▸ hje⟩
          · exact ⟨e', hie', by rw [hch]; exact List.mem_append.mpr (Or.inl hje)⟩
        · rw [hii0, hjn]
          refine ⟨f ep, ?_, ?_⟩
          · rw [hget_lt i0 hi0lt, get?_modifyIdx_eq, hep]
            rfl
          · exact List.mem_append.mpr (Or.inr (List.mem_singleton.mpr rfl))
    have h01 : 1 ≤ E'.length := by rw [hlen']; omega
    have h02 : ∀ e, E'.get? 0 = some e → pathDepth e.program_path = d0 := by
      intro e he
      obtain ⟨e0, he0, hpe, _, _⟩ := hget_rel 0 e he inv.n_pos
      rw [hpe]
      exact inv.path0 e0 he0
    have h03 : ∀ k e, E'.get? k = some e → 1 ≤ k → d0 + 1 ≤ pathDepth e.program_path := by
      intro k e hk h1k
      by_cases hkn : k = n
      · subst hkn
        rw [hget_n] at hk
        rw [← Option.some_inj.mp hk, mapToDto_path]
        exact hrd
      · have hklt : k < n := by
          have := get?_some_lt hk
          rw [hlen'] at this
          omega
        obtain ⟨e0, he0, hpe, _, _⟩ := hget_rel k e hk hklt
        rw [hpe]
        exact inv.depth_tail k e0 he0 h1k
    have h04 : ∀ k1 k2 e1 e2, k1 ≤ k2 → E'.get? k1 = some e1 → E'.get? k2 = some e2 →
        pathDepth e1.program_path ≤ pathDepth e2.program_path := by
      intro k1 k2 e1 e2 hk12 h1 h2
      by_cases h2n : k2 = n
      · subst h2n
        rw [hget_n] at h2
        rw [← Option.some_inj.mp h2, mapToDto_path]
        by_cases h1n : k1 = n
        · subst h1n
          rw [hget_n] at h1
          rw [← Option.some_inj.mp h1, mapToDto_path]
        · have hk1 : k1 < n := by
            have := get?_some_lt h1
            rw [hlen'] at this
            omega
          obtain ⟨e0, he0, hpe, _, _⟩ := hget_rel k1 e1 h1 hk1
          rw [hpe]
          exact hE k1 e0 he0
      · have hk2 : k2 < n := by
          have := get?_some_lt h2
          rw [hlen'] at this
          omega
        have hk1 : k1 < n := by omega
        obtain ⟨e10, he10, hp1, _, _⟩ := hget_rel k1 e1 h1 hk1
        obtain ⟨e20, he20, hp2, _, _⟩ := hget_rel k2 e2 h2 hk2
        rw [hp1, hp2]
        exact inv.depth_mono k1 k2 e10 e20 hk12 he10 he20
    have h05 : ∀ q i, lookupPath ((r.program_path, n) :: st.pathToIdx) q = some i →
        ∃ e, E'.get? i = some e ∧ e.program_path = q := by
      intro q i h
      by_cases hq : r.program_path = q
      · simp only [lookupPath, if_pos hq] at h
        rw [← Option.some_inj.mp h]
        exact ⟨mapToDto r, hget_n, hq⟩
      · simp only [lookupPath, if_neg hq] at h
        obtain ⟨e, he, hpe⟩ := inv.map_sound q i h
        obtain ⟨e', he', hpe', _, _⟩ := hget_rel2 i e he
        exact ⟨e', he', by rw [hpe', hpe]⟩
    have h06 : ∀ i e, E'.get? i = some e →
        lookupPath ((r.program_path, n) :: st.pathToIdx) e.program_path ≠ none := by
      intro i e he
      by_cases hq : r.program_path = e.program_path
      · simp only [lookupPath, if_pos hq]
        exact Option.some_ne_none n
      · simp only [lookupPath, if_neg hq]
        by_cases hin : i = n
        · subst hin
          rw [hget_n] at he
          rw [← Option.some_inj.mp he, mapToDto_path] at hq
          exact absurd rfl hq
        · have hilt : i < n := by
            have := get?_some_lt he
            rw [hlen'] at this
            omega
          obtain ⟨e0, he0, hpe, _, _⟩ := hget_rel i e he hilt
          rw [hpe]
          exact inv.map_complete i e0 he0
    have h07 : ∀ i j, IsChild E' i j → i < j ∧ j < E'.length := by
      intro i j hij
      rcases (hchild_char i j).mp hij with hold | ⟨hii0, hjn⟩
      · have := inv.child_bound i j hold
        rw [hlen']
        omega
      · subst hii0; subst hjn
        rw [hlen']
        omega
    have h08 : ∀ j, 1 ≤ j → j < E'.length → ∃ i, IsChild E' i j := by
      intro j h1j hjlt
      rw [hlen'] at hjlt
      by_cases hjn : j = n
      · subst hjn
        exact ⟨i0, (hchild_char i0 n).mpr (Or.inr ⟨rfl, rfl⟩)⟩
      · have : j < n := by omega
        obtain ⟨i, hi⟩ := inv.parent_exists j h1j this
        exact ⟨i, (hchild_char i j).mpr (Or.inl hi)⟩
    have h09 : ∀ i i' j, IsChild E' i j → IsChild E' i' j → i = i' := by
      intro i i' j hij hij'
      rcases (hchild_char i j).mp hij with h1 | ⟨hi1, hj1⟩
      · rcases (hchild_char i' j).mp hij' with h2 | ⟨hi2, hj2⟩
        · exact inv.parent_unique i i' j h1 h2
        · subst hj2
          exact absurd (inv.child_bound i n h1).2 (lt_irrefl n)
      · rcases (hchild_char i' j).mp hij' with h2 | ⟨hi2, hj2⟩
        · subst hj1
          exact absurd (inv.child_bound i' n h2).2 (lt_irrefl n)
        · rw [hi1, hi2]
    have h10 : ∀ i e, E'.get? i = some e → e.childrenIdxs.Nodup := by
      intro i e he
      by_cases hin : i = n
      · subst hin
        rw [hget_n] at he
        rw [← Option.some_inj.mp he, mapToDto_children]
        exact List.nodup_nil
      · have hilt : i < n := by
          have := get?_some_lt he
          rw [hlen'] at this
          omega
        obtain ⟨e0, he0, _, _, hch⟩ := hget_rel i e he hilt
        rcases hch with hch | ⟨hii0, hch⟩
        · rw [hch]
          exact inv.children_nodup i e0 he0
        · subst hii0
          rw [hch, List.nodup_append]
          refine ⟨inv.children_nodup i e0 he0, List.nodup_singleton n, ?_⟩
          intro a ha hn'
          have han : a = n := List.mem_singleton.mp hn'
          have hc : IsChild st.entries i a := ⟨e0, he0, ha⟩
          have := (inv.child_bound i a hc).2
          omega
    have h11 : ∀ i j, IsChild E' i j → ∀ ej, E'.get? j = some ej →
        lookupPath ((r.program_path, n) :: st.pathToIdx)
          (getParentIdPath ej.program_path) = some i := by
      intro i j hij ej hej
      rcases (hchild_char i j).mp hij with hold | ⟨hii0, hjn⟩
      · have hjlt : j < n := (inv.child_bound i j hold).2
        have hj1 : 1 ≤ j := by
          have := (inv.child_bound i j hold).1
          omega
        obtain ⟨ej0, hej0, hpej, _, _⟩ := hget_rel j ej hej hjlt
        have hdj : d0 + 1 ≤ pathDepth ej0.program_path := inv.depth_tail j ej0 hej0 hj1
        have hdotj : '.' ∈ ej0.program_path.toList := by
          rw [← two_le_pathDepth_iff]
          omega
        have hpar := pathDepth_parent ej0.program_path hdotj
        have hle : pathDepth ej0.program_path ≤ pathDepth r.program_path := hE j ej0 hej0
        have hner : r.program_path ≠ getParentIdPath ej0.program_path := by
          intro hc
          have : pathDepth r.program_path = pathDepth (getParentIdPath ej0.program_path) := by
            rw [hc]
          omega
        rw [hpej]
        simp only [lookupPath, if_neg hner]
        exact inv.parent_lookup i j hold ej0 hej0
      · subst hii0; subst hjn
        rw [hget_n] at hej
        rw [← Option.some_inj.mp hej, mapToDto_path]
        have hne : r.program_path ≠ getParentIdPath r.program_path := fun hc => hqner hc.symm
        simp only [lookupPath, if_neg hne]
        exact hlook
    have h12 : ∀ e ∈ E', e.has_descendant_expecting_software_effort = false := by
      intro e he
      obtain ⟨k, hk⟩ := List.mem_iff_get?.mp he
      by_cases hkn : k = n
      · subst hkn
        rw [hget_n] at hk
        rw [← Option.some_inj.mp hk]
        rfl
      · have hklt : k < n := by
          have := get?_some_lt hk
          rw [hlen'] at this
          omega
        obtain ⟨e0, he0, _, hhd, _⟩ := hget_rel k e hk hklt
        rw [hhd]
        exact inv.hasDesc_false e0 (List.get?_mem he0)
    have h13 : ∀ r' ∈ st.orphans, ∀ i e, E'.get? i = some e →
        e.program_path ≠ getParentIdPath r'.program_path := by
      intro r' hr' i e he
      by_cases hin : i = n
      · subst hin
        rw [hget_n] at he
        rw [← Option.some_inj.mp he, mapToDto_path]
        intro hc
        have hdr' : d0 + 1 ≤ pathDepth r'.program_path := inv.orphan_depth r' hr'
        have hdot' : '.' ∈ r'.program_path.toList := by
          rw [← two_le_pathDepth_iff]
          omega
        have hpar := pathDepth_parent r'.program_path hdot'
        have hler' := hO r' hr'
        have : pathDepth r.program_path = pathDepth (getParentIdPath r'.program_path) := by
          rw [hc]
        omega
      · have hilt : i < n := by
          have := get?_some_lt he
          rw [hlen'] at this
          omega
        obtain ⟨e0, he0, hpe, _, _⟩ := hget_rel i e he hilt
        rw [hpe]
        exact inv.orphan_parent r' hr' i e0 he0
    rw [insertStep_insert st r i0 hlook]
    exact ⟨h01, h02, h03, h04, h05, h06, h07, h08, h09, h10, h11, h12, h13,
      inv.orphan_depth⟩

theorem get?_modify_append {α : Type} (l : List α) (i : Nat) (f : α → α) (x : α)
    (k : Nat) (e' : α) (h : (modifyIdx l i f ++ [x]).get? k = some e') :
    (∃ e, l.get? k = some e ∧ (e' = e ∨ e' = f e)) ∨ (e' = x ∧ k = l.length) := by
  by_cases hk : k < l.length
  · rw [List.get?_append (by rw [length_modifyIdx]; exact hk)] at h
    by_cases hki : k = i
    · subst hki
      rw [get?_modifyIdx_eq] at h
      cases hle : l.get? k with
      | none => rw [hle] at h; cases h
      | some e =>
        rw [hle] at h
        simp only [Option.map_some'] at h
        exact Or.inl ⟨e, rfl, Or.inr (Option.some_inj.mp h).symm⟩
    · rw [get?_modifyIdx_ne _ _ _ _ hki] at h
      exact Or.inl ⟨e', h, Or.inl rfl⟩
  · have hk' := get?_some_lt h
    rw [List.length_append, length_modifyIdx, List.length_singleton] at hk'
    have hkl : k = l.length := by omega
    subst hkl
    rw [List.get?_append_right (by rw [length_modifyIdx])] at h
    rw [length_modifyIdx, Nat.sub_self] at h
    exact Or.inr ⟨(Option.some_inj.mp h).symm, rfl⟩

theorem insertStep_entry_path (st : BuildState) (r : ProgRec) (k : Nat) (e' : NodeEntry)
    (h : (insertStep st r).entries.get? k = some e') :
    (∃ e, st.entries.get? k = some e ∧ e'.program_path = e.program_path) ∨
      e'.program_path = r.program_path := by
  cases hlook : lookupPath st.pathToIdx (getParentIdPath r.program_path) with
  | none =>
    rw [insertStep_orphan st r hlook] at h
    exact Or.inl ⟨e', h, rfl⟩
  | some i0 =>
    rw [insertStep_insert st r i0 hlook] at h
    rcases get?_modify_append st.entries i0 _ (mapToDto r) k e' h with ⟨e, he, hee⟩ | ⟨hx, _⟩
    · refine Or.inl ⟨e, he, ?_⟩
      rcases hee with hee | hee <;> rw [hee]
    · rw [hx]
      exact Or.inr rfl

theorem insertStep_orphans_mem (st : BuildState) (r r2 : ProgRec)
    (h : r2 ∈ (insertStep st r).orphans) : r2 ∈ st.orphans ∨ r2 = r := by
  cases hlook : lookupPath st.pathToIdx (getParentIdPath r.program_path) with
  | none =>
    rw [insertStep_orphan st r hlook] at h
    rcases List.mem_append.mp h with h | h
    · exact Or.inl h
    · exact Or.inr (List.mem_singleton.mp h)
  | some i0 =>
    rw [insertStep_insert st r i0 hlook] at h
    exact Or.inl h

theorem initState_get (root : ProgRec) (k : Nat) (e : NodeEntry)
    (h : (initState root).entries.get? k = some e) : k = 0 ∧ e = mapToDto root := by
  have hk := get?_some_lt h
  have hk0 : k = 0 := by
    have : k < 1 := hk
    omega
  subst hk0
  have h' : some (mapToDto root) = some e := h
  exact ⟨rfl, (Option.some_inj.mp h').symm⟩

theorem popInv_init (root : ProgRec) :
    PopInv (pathDepth root.program_path) (initState root) := by
  have hnochild : ∀ i j, ¬ IsChild (initState root).entries i j := by
    rintro i j ⟨e, hie, hje⟩
    obtain ⟨_, he⟩ := initState_get root i e hie
    rw [he, mapToDto_children] at hje
    exact absurd hje (List.not_mem_nil j)
  refine ⟨Nat.le_refl 1, ?_, ?_, ?_, ?_, ?_, ?_, ?_, ?_, ?_, ?_, ?_, ?_, ?_⟩
  · intro e he
    rw [(initState_get root 0 e he).2, mapToDto_path]
  · intro k e hk h1k
    have := (initState_get root k e hk).1
    omega
  · intro k1 k2 e1 e2 _ h1 h2
    rw [(initState_get root k1 e1 h1).2, (initState_get root k2 e2 h2).2]
  · intro q i h
    by_cases hq : root.program_path = q
    · simp only [lookupPath, if_pos hq] at h
      rw [← Option.some_inj.mp h]
      exact ⟨mapToDto root, rfl, hq⟩
    · simp only [lookupPath, if_neg hq] at h
      cases h
  · intro i e he
    rw [(initState_get root i e he).2, mapToDto_path]
    simp [lookupPath]
  · intro i j hij
    exact absurd hij (hnochild i j)
  · intro j h1j hjlt
    have : j < 1 := hjlt
    omega
  · intro i i' j hij _
    exact absurd hij (hnochild i j)
  · intro i e he
    rw [(initState_get root i e he).2, mapToDto_children]
    exact List.nodup_nil
  · intro i j hij
    exact absurd hij (hnochild i j)
  · intro e he
    rw [List.mem_singleton.mp he]
    rfl
  · intro r' hr'
    exact absurd hr' (List.not_mem_nil r')
  · intro r' hr'
    exact absurd hr' (List.not_mem_nil r')

theorem popInv_populate (d0 : Nat) (todo : List ProgRec) : ∀ (st : BuildState),
    PopInv d0 st →
    List.Sorted depthLE todo →
    (∀ r ∈ todo, d0 + 1 ≤ pathDepth r.program_path) →
    (∀ r ∈ todo, ∀ k e, st.entries.get? k = some e →
        pathDepth e.program_path ≤ pathDepth r.program_path) →
    (∀ r ∈ todo, ∀ r2 ∈ st.orphans,
        pathDepth r2.program_path ≤ pathDepth r.program_path) →
    PopInv d0 (populate st todo) := by
  induction todo with
  | nil =>
    intro st hinv _ _ _ _
    exact hinv
  | cons r todo ih =>
    intro st hinv hsort hdep hE hO
    have hrmem : r ∈ r :: todo := List.mem_cons_self r todo
    have hinv' := popInv_insertStep d0 st r hinv (hdep r hrmem) (hE r hrmem) (hO r hrmem)
    have hrle : ∀ r' ∈ todo, depthLE r r' := List.rel_of_sorted_cons hsort
    show PopInv d0 (populate (insertStep st r) todo)
    apply ih (insertStep st r) hinv' hsort.of_cons
    · intro r' hr'
      exact hdep r' (List.mem_cons_of_mem r hr')
    · intro r' hr' k e hke
      rcases insertStep_entry_path st r k e hke with ⟨e0, he0, hpe⟩ | hpe
      · rw [hpe]
        exact hE r' (List.mem_cons_of_mem r hr') k e0 he0
      · rw [hpe]
        exact hrle r' hr'
    · intro r' hr' r2 hr2
      rcases insertStep_orphans_mem st r r2 hr2 with h | h
      · exact hO r' (List.mem_cons_of_mem r hr') r2 h
      · rw [h]
        exact hrle r' hr'

theorem popInv_treeState (records : List ProgRec) (root : ProgRec) (rest : List ProgRec)
    (hsor : sortProgramData records = root :: rest)
    (hone : records.countP (fun r => pathDepth r.program_path == minDepth records) = 1) :
    PopInv (pathDepth root.program_path) (treeState records) := by
  have hgt := rest_depth_gt records root rest hsor hone
  have hsorted : List.Sorted depthLE rest := by
    have := sortProgramData_sorted records
    rw [hsor] at this
    exact this.of_cons
  have hstate : treeState records = populate (initState root) rest := by
    unfold treeState
    rw [hsor]
  rw [hstate]
  apply popInv_populate (pathDepth root.program_path) rest (initState root)
      (popInv_init root) hsorted hgt
  · intro r' hr' k e hke
    obtain ⟨_, he⟩ := initState_get root k e hke
    rw [he, mapToDto_path]
    have := hgt r' hr'
    omega
  · intro r' _ r2 hr2
    exact absurd hr2 (List.not_mem_nil r2)

theorem splitOnChar_cons_eq (sep c : Char) (cs s : List Char) (ss : List (List Char))
    (h : splitOnChar sep cs = s :: ss) :
    splitOnChar sep (c :: cs) = if c = sep then [] :: s :: ss else (c :: s) :: ss := by
  unfold splitOnChar
  rw [h]

theorem splitOnChar_append_sep (sep : Char) (x y : List Char) :
    splitOnChar sep (x ++ sep :: y) = splitOnChar sep x ++ splitOnChar sep y := by
  induction x with
  | nil =>
    show splitOnChar sep (sep :: y) = splitOnChar sep [] ++ splitOnChar sep y
    cases h : splitOnChar sep y with
    | nil => exact absurd h (splitOnChar_ne_nil sep y)
    | cons s ss =>
      rw [splitOnChar_cons_eq sep sep y s ss h, if_pos rfl]
      rfl
  | cons c x ih =>
    show splitOnChar sep (c :: (x ++ sep :: y)) = splitOnChar sep (c :: x) ++ splitOnChar sep y
    cases hx : splitOnChar sep x with
    | nil => exact absurd hx (splitOnChar_ne_nil sep x)
    | cons s ss =>
      cases hy : splitOnChar sep y with
      | nil => exact absurd hy (splitOnChar_ne_nil sep y)
      | cons sy ssy =>
        have hl : splitOnChar sep (x ++ sep :: y) = s :: (ss ++ sy :: ssy) := by
          rw [ih, hx, hy]
          rfl
        rw [splitOnChar_cons_eq sep c (x ++ sep :: y) s (ss ++ sy :: ssy) hl,
            splitOnChar_cons_eq sep c x s ss hx]
        by_cases hc : c = sep
        · rw [if_pos hc, if_pos hc]
          simp
        · rw [if_neg hc, if_neg hc]
          simp

theorem splitOnChar_no_sep (sep : Char) (l : List Char) (h : sep ∉ l) :
    splitOnChar sep l = [l] := by
  induction l with
  | nil => rfl
  | cons c cs ih =>
    have hc : c ≠ sep := fun hc => h (hc ▸ List.mem_cons_self c cs)
    have hcs : sep ∉ cs := fun hm => h (List.mem_cons_of_mem c hm)
    rw [splitOnChar_cons_eq sep c cs cs [] (ih hcs), if_neg hc]

theorem joinDots_splitOnChar (l : List Char) : joinDots (splitOnChar '.' l) = l := by
  induction l with
  | nil => rfl
  | cons c cs ih =>
    cases hcs : splitOnChar '.' cs with
    | nil => exact absurd hcs (splitOnChar_ne_nil '.' cs)
    | cons s ss =>
      rw [hcs] at ih
      rw [splitOnChar_cons_eq '.' c cs s ss hcs]
      by_cases hc : c = '.'
      · rw [if_pos hc]
        subst hc
        show [] ++ '.' :: joinDots (s :: ss) = '.' :: cs
        rw [ih]
        rfl
      · rw [if_neg hc]
        cases ss with
        | nil =>
          show c :: s = c :: cs
          have hs : joinDots [s] = cs := ih
          have : s = cs := hs
          rw [this]
        | cons s2 ss2 =>
          show (c :: s) ++ '.' :: joinDots (s2 :: ss2) = c :: cs
          have : s ++ '.' :: joinDots (s2 :: ss2) = cs := ih
          rw [List.cons_append, this]

theorem segsOf_inj (p q : String) (h : segsOf p = segsOf q) : p = q := by
  have hp := joinDots_splitOnChar p.toList
  have hq := joinDots_splitOnChar q.toList
  unfold segsOf at h
  rw [h, hq] at hp
  cases p with
  | mk dp =>
    cases q with
    | mk dq =>
      have hdq : dq = dp := hp
      rw [hdq]

theorem parent_decomp (l : List Char) (h : '.' ∈ l) :
    ∃ s, l = parentChars l ++ '.' :: s ∧ '.' ∉ s := by
  have hr : '.' ∈ l.reverse := by simpa using h
  obtain ⟨pre, t, hdec, hcnt, hdrop⟩ := dropWhile_dot_decomp l.reverse hr
  have hpc : parentChars l = t.reverse := by
    unfold parentChars
    rw [hdrop]
    simp
  refine ⟨pre.reverse, ?_, ?_⟩
  · rw [hpc]
    have h2 : l = (pre ++ '.' :: t).reverse := by rw [← hdec, List.reverse_reverse]
    rw [h2]
    simp
  · intro hm
    have h3 : '.' ∈ pre := by simpa using hm
    rw [← List.count_pos_iff] at h3
    omega

theorem segsOf_parent (p : String) (h : '.' ∈ p.toList) :
    segsOf (getParentIdPath p) = (segsOf p).dropLast := by
  obtain ⟨s, hdec, hns⟩ := parent_decomp p.toList h
  unfold getParentIdPath
  rw [if_pos h]
  unfold segsOf
  have h1 : (String.mk (parentChars p.toList)).toList = parentChars p.toList := rfl
  rw [h1]
  conv_rhs => rw [hdec]
  rw [splitOnChar_append_sep, splitOnChar_no_sep '.' s hns, List.dropLast_concat]

theorem bubbleStep_oob (map : List (String × Nat)) (acc : List NodeEntry) (k : Nat)
    (h : acc.get? k = none) : bubbleStep map acc k = acc := by
  unfold bubbleStep
  rw [h]

theorem bubbleStep_skip (map : List (String × Nat)) (acc : List NodeEntry) (k : Nat)
    (e : NodeEntry) (h : acc.get? k = some e)
    (hc : (e.expecting_software_efforts ||
      e.has_descendant_expecting_software_effort) = false) :
    bubbleStep map acc k = acc := by
  unfold bubbleStep
  rw [h]
  simp [hc]

theorem bubbleStep_rootpp (map : List (String × Nat)) (acc : List NodeEntry) (k : Nat)
    (e : NodeEntry) (h : acc.get? k = some e)
    (hpp : getParentIdPath e.program_path = "") :
    bubbleStep map acc k = acc := by
  unfold bubbleStep
  rw [h]
  simp [hpp]

theorem bubbleStep_nolookup (map : List (String × Nat)) (acc : List NodeEntry) (k : Nat)
    (e : NodeEntry) (h : acc.get? k = some e)
    (hl : lookupPath map (getParentIdPath e.program_path) = none) :
    bubbleStep map acc k = acc := by
  unfold bubbleStep
  rw [h]
  simp [hl]

theorem bubbleStep_hit (map : List (String × Nat)) (acc : List NodeEntry) (k : Nat)
    (e : NodeEntry) (i : Nat) (h : acc.get? k = some e)
    (hc : (e.expecting_software_efforts ||
      e.has_descendant_expecting_software_effort) = true)
    (hpp : getParentIdPath e.program_path ≠ "")
    (hl : lookupPath map (getParentIdPath e.program_path) = some i) :
    bubbleStep map acc k = modifyIdx acc i setDescFlag := by
  unfold bubbleStep
  rw [h]
  simp [hc, hpp, hl]
  rfl

theorem needsFlag_children_iff (E : List NodeEntry) (i : Nat) :
    (∃ j, IsChild E i j ∧ needsFlag E j) ↔ DescExpecting E i := by
  constructor
  · rintro ⟨j, hij, hD | hD⟩
    · exact ⟨j, Relation.TransGen.single hij, hD⟩
    · obtain ⟨l, ht, hexp⟩ := hD
      exact ⟨l, ht.head hij, hexp⟩
  · rintro ⟨l, ht, hexp⟩
    obtain ⟨b, hib, hbl⟩ := Relation.TransGen.head'_iff.mp ht
    refine ⟨b, hib, ?_⟩
    rcases Relation.reflTransGen_iff_eq_or_transGen.mp hbl with rfl | htr
    · exact Or.inl hexp
    · exact Or.inr ⟨l, htr, hexp⟩

theorem bubbleStep_bubbleInv (d0 : Nat) (st : BuildState) (inv : PopInv d0 st)
    (hroot : ∀ e0, st.entries.get? 0 = some e0 → e0.program_path ≠ "")
    (k : Nat) (acc : List NodeEntry) (hk : k < st.entries.length)
    (h : BubbleInv st (k+1) acc) :
    BubbleInv st k (bubbleStep st.pathToIdx acc k) := by
  have hd0pos : 1 ≤ d0 := by
    obtain ⟨e0, he0⟩ : ∃ e0, st.entries.get? 0 = some e0 := by
      cases h0 : st.entries.get? 0 with
      | none =>
        rw [List.get?_eq_none] at h0
        exact absurd inv.n_pos (by omega)
      | some e0 => exact ⟨e0, rfl⟩
    have := inv.path0 e0 he0
    have := pathDepth_pos e0.program_path
    omega
  have hklen : k < acc.length := by rw [h.len]; exact hk
  have hak : acc.get? k = some (acc.get ⟨k, hklen⟩) := List.get?_eq_get hklen
  set a := acc.get ⟨k, hklen⟩ with hadef
  obtain ⟨ek, hek, hae⟩ := h.pres k a hak
  have hexp : a.expecting_software_efforts = ek.expecting_software_efforts := by rw [hae]
  have hpath : a.program_path = ek.program_path := by rw [hae]
  have hcEquiv : (a.expecting_software_efforts ||
      a.has_descendant_expecting_software_effort) = true ↔ needsFlag st.entries k := by
    rw [Bool.or_eq_true, hexp]
    constructor
    · rintro (h1 | h1)
      · exact Or.inl ⟨ek, hek, h1⟩
      · obtain ⟨j, hkj, _, hD⟩ := (h.flag k a hak).mp h1
        exact Or.inr ((needsFlag_children_iff st.entries k).mp ⟨j, hkj, hD⟩)
    · rintro (h1 | h1)
      · obtain ⟨e2, he2, hx⟩ := h1
        rw [hek] at he2
        rw [← Option.some_inj.mp he2] at hx
        exact Or.inl hx
      · obtain ⟨j, hkj, hD⟩ := (needsFlag_children_iff st.entries k).mpr h1
        refine Or.inr ((h.flag k a hak).mpr ⟨j, hkj, ?_, hD⟩)
        exact (inv.child_bound k j hkj).1
  cases hcb : (a.expecting_software_efforts ||
      a.has_descendant_expecting_software_effort) with
  | false =>
    rw [bubbleStep_skip st.pathToIdx acc k a hak hcb]
    have hnf : ¬ needsFlag st.entries k := by
      intro hn
      rw [hcEquiv.mpr hn] at hcb
      cases hcb
    refine ⟨h.len, h.pres, ?_⟩
    intro i e' he'
    rw [h.flag i e' he']
    constructor
    · rintro ⟨j, hij, hk1j, hD⟩
      exact ⟨j, hij, by omega, hD⟩
    · rintro ⟨j, hij, hkj, hD⟩
      by_cases hjk : j = k
      · rw [hjk] at hD
        exact absurd hD hnf
      · exact ⟨j, hij, by omega, hD⟩
  | true =>
    have hnfk : needsFlag st.entries k := hcEquiv.mp hcb
    by_cases hk0 : k = 0
    · subst hk0
      have hstep : bubbleStep st.pathToIdx acc 0 = acc := by
        by_cases hdot : '.' ∈ ek.program_path.toList
        · cases hl : lookupPath st.pathToIdx (getParentIdPath ek.program_path) with
          | none =>
            exact bubbleStep_nolookup st.pathToIdx acc 0 a hak (by rw [hpath]; exact hl)
          | some ip =>
            exfalso
            obtain ⟨e_p, hep, hppath⟩ := inv.map_sound _ ip hl
            have hd0 : pathDepth ek.program_path = d0 := inv.path0 ek hek
            have hpd := pathDepth_parent ek.program_path hdot
            by_cases hip0 : ip = 0
            · rw [hip0] at hep
              have : pathDepth e_p.program_path = d0 := inv.path0 e_p hep
              rw [hppath] at this
              omega
            · have : d0 + 1 ≤ pathDepth e_p.program_path :=
                inv.depth_tail ip e_p hep (by omega)
              rw [hppath] at this
              omega
        · exact bubbleStep_rootpp st.pathToIdx acc 0 a hak
            (by rw [hpath]; exact getParentIdPath_no_dot _ hdot)
      rw [hstep]
      refine ⟨h.len, h.pres, ?_⟩
      intro i e' he'
      rw [h.flag i e' he']
      constructor
      · rintro ⟨j, hij, hk1j, hD⟩
        exact ⟨j, hij, by omega, hD⟩
      · rintro ⟨j, hij, hkj, hD⟩
        have hj1 : 1 ≤ j := by
          by_contra hj0
          have hj0' : j = 0 := by omega
          rw [hj0'] at hij
          have := (inv.child_bound i 0 hij).1
          omega
        exact ⟨j, hij, hj1, hD⟩
    · obtain ⟨ip, hip⟩ := inv.parent_exists k (by omega) hk
      have hlk : lookupPath st.pathToIdx (getParentIdPath ek.program_path) = some ip :=
        inv.parent_lookup ip k hip ek hek
      have hpp : getParentIdPath ek.program_path ≠ "" := by
        intro hc
        rw [hc] at hlk
        obtain ⟨e_p, hep, hppath⟩ := inv.map_sound _ ip hlk
        by_cases hip0 : ip = 0
        · rw [hip0] at hep
          exact hroot e_p hep hppath
        · have := inv.depth_tail ip e_p hep (by omega)
          rw [hppath, pathDepth_empty] at this
          omega
      rw [bubbleStep_hit st.pathToIdx acc k a ip hak hcb
        (by rw [hpath]; exact hpp) (by rw [hpath]; exact hlk)]
      have hiplt : ip < acc.length := by
        rw [h.len]
        have := (inv.child_bound ip k hip).1
        omega
      have hipacc : acc.get? ip = some (acc.get ⟨ip, hiplt⟩) := List.get?_eq_get hiplt
      set x := acc.get ⟨ip, hiplt⟩ with hxdef
      refine ⟨?_, ?_, ?_⟩
      · rw [length_modifyIdx]
        exact h.len
      · intro i e' he'
        by_cases hiip : i = ip
        · subst hiip
          rw [get?_modifyIdx_eq, hipacc] at he'
          simp only [Option.map_some'] at he'
          have he'2 : e' = setDescFlag x := (Option.some_inj.mp he').symm
          obtain ⟨ex, hex, hxe⟩ := h.pres i x hipacc
          refine ⟨ex, hex, ?_⟩
          rw [he'2, hxe]
          rfl
        · rw [get?_modifyIdx_ne _ _ _ _ hiip] at he'
          exact h.pres i e' he'
      · intro i e' he'
        by_cases hiip : i = ip
        · subst hiip
          rw [get?_modifyIdx_eq, hipacc] at he'
          simp only [Option.map_some'] at he'
          have he'2 : e' = setDescFlag x := (Option.some_inj.mp he').symm
          constructor
          · intro _
            exact ⟨k, hip, le_rfl, hnfk⟩
          · intro _
            rw [he'2]
            rfl
        · rw [get?_modifyIdx_ne _ _ _ _ hiip] at he'
          rw [h.flag i e' he']
          constructor
          · rintro ⟨j, hij, hk1j, hD⟩
            exact ⟨j, hij, by omega, hD⟩
          · rintro ⟨j, hij, hkj, hD⟩
            by_cases hjk : j = k
            · rw [hjk] at hij
              exact absurd (inv.parent_unique i ip k hij hip) hiip
            · exact ⟨j, hij, by omega, hD⟩

theorem toTree_oob (B : List NodeEntry) (i : Nat) (hi : B.length ≤ i) :
    ∀ fuel, toTree B fuel i = default := by
  intro fuel
  cases fuel with
  | zero => rfl
  | succ g =>
    unfold toTree
    rw [List.get?_eq_none.mpr hi]

theorem toTree_some (B : List NodeEntry) (g i : Nat) (e : NodeEntry)
    (he : B.get? i = some e) :
    toTree B (g+1) i =
      { program_name := e.program_name
        program_id := e.program_id
        program_path := e.program_path
        description := e.description
        primary_location := e.primary_location
        status := e.status
        organization_leader_name := e.organization_leader_name
        chief_engineer_name := e.chief_engineer_name
        program_type := e.program_type
        program_value := e.program_value
        expecting_software_efforts := e.expecting_software_efforts
        has_descendant_expecting_software_effort :=
          e.has_descendant_expecting_software_effort
        children := e.childrenIdxs.map (toTree B g) } := by
  unfold toTree
  rw [he]

theorem subIdxs_oob (B : List NodeEntry) (i : Nat) (hi : B.length ≤ i) :
    ∀ fuel, subIdxs B fuel i = [] := by
  intro fuel
  cases fuel with
  | zero => rfl
  | succ g =>
    unfold subIdxs
    rw [List.get?_eq_none.mpr hi]

theorem subIdxs_some (B : List NodeEntry) (g i : Nat) (e : NodeEntry)
    (he : B.get? i = some e) :
    subIdxs B (g+1) i = i :: (e.childrenIdxs.map (subIdxs B g)).flatten := by
  unfold subIdxs
  rw [he]

theorem allNodes_eq (t : ProgramTreeNode) :
    allNodes t = t :: (t.children.map allNodes).flatten := by
  rw [allNodes]
  congr 1
  congr 1
  simp

theorem toTree_fuel_congr (B : List NodeEntry)
    (Hcb : ∀ i j, IsChild B i j → i < j ∧ j < B.length) :
    ∀ K f1 f2 i, B.length - i ≤ K → B.length - i ≤ f1 → B.length - i ≤ f2 →
      toTree B f1 i = toTree B f2 i := by
  intro K
  induction K with
  | zero =>
    intro f1 f2 i hK h1 h2
    have hi : B.length ≤ i := by omega
    rw [toTree_oob B i hi, toTree_oob B i hi]
  | succ K ih =>
    intro f1 f2 i hK h1 h2
    by_cases hi : i < B.length
    · obtain ⟨g1, rfl⟩ : ∃ g, f1 = g + 1 := ⟨f1 - 1, by omega⟩
      obtain ⟨g2, rfl⟩ : ∃ g, f2 = g + 1 := ⟨f2 - 1, by omega⟩
      have he : B.get? i = some (B.get ⟨i, hi⟩) := List.get?_eq_get hi
      rw [toTree_some B g1 i _ he, toTree_some B g2 i _ he]
      have hch : (B.get ⟨i, hi⟩).childrenIdxs.map (toTree B g1) =
          (B.get ⟨i, hi⟩).childrenIdxs.map (toTree B g2) := by
        apply List.map_congr_left
        intro j hj
        have hcb := Hcb i j ⟨B.get ⟨i, hi⟩, he, hj⟩
        exact ih g1 g2 j (by omega) (by omega) (by omega)
      rw [hch]
    · have hi' : B.length ≤ i := by omega
      rw [toTree_oob B i hi', toTree_oob B i hi']

theorem subIdxs_fuel_congr (B : List NodeEntry)
    (Hcb : ∀ i j, IsChild B i j → i < j ∧ j < B.length) :
    ∀ K f1 f2 i, B.length - i ≤ K → B.length - i ≤ f1 → B.length - i ≤ f2 →
      subIdxs B f1 i = subIdxs B f2 i := by
  intro K
  induction K with
  | zero =>
    intro f1 f2 i hK h1 h2
    have hi : B.length ≤ i := by omega
    rw [subIdxs_oob B i hi, subIdxs_oob B i hi]
  | succ K ih =>
    intro f1 f2 i hK h1 h2
    by_cases hi : i < B.length
    · obtain ⟨g1, rfl⟩ : ∃ g, f1 = g + 1 := ⟨f1 - 1, by omega⟩
      obtain ⟨g2, rfl⟩ : ∃ g, f2 = g + 1 := ⟨f2 - 1, by omega⟩
      have he : B.get? i = some (B.get ⟨i, hi⟩) := List.get?_eq_get hi
      rw [subIdxs_some B g1 i _ he, subIdxs_some B g2 i _ he]
      have hch : (B.get ⟨i, hi⟩).childrenIdxs.map (subIdxs B g1) =
          (B.get ⟨i, hi⟩).childrenIdxs.map (subIdxs B g2) := by
        apply List.map_congr_left
        intro j hj
        have hcb := Hcb i j ⟨B.get ⟨i, hi⟩, he, hj⟩
        exact ih g1 g2 j (by omega) (by omega) (by omega)
      rw [hch]
    · have hi' : B.length ≤ i := by omega
      rw [subIdxs_oob B i hi', subIdxs_oob B i hi']

theorem allNodes_toTree (B : List NodeEntry)
    (Hcb : ∀ i j, IsChild B i j → i < j ∧ j < B.length) :
    ∀ K fuel i, B.length - i ≤ K → B.length - i ≤ fuel → i < B.length →
      allNodes (toTree B fuel i) =
        (subIdxs B fuel i).map (fun j => toTree B (B.length - j) j) := by
  intro K
  induction K with
  | zero =>
    intro fuel i hK _ hi
    omega
  | succ K ih =>
    intro fuel i hK hf hi
    obtain ⟨g, rfl⟩ : ∃ g, fuel = g + 1 := ⟨fuel - 1, by omega⟩
    have he : B.get? i = some (B.get ⟨i, hi⟩) := List.get?_eq_get hi
    rw [toTree_some B g i _ he, subIdxs_some B g i _ he, allNodes_eq]
    simp only [List.map_cons]
    congr 1
    · rw [← toTree_some B g i _ he]
      exact toTree_fuel_congr B Hcb (K+1) (g+1) (B.length - i) i hK hf le_rfl
    · rw [List.map_map, List.map_flatten, List.map_map]
      apply congrArg List.flatten
      apply List.map_congr_left
      intro j hj
      have hcb := Hcb i j ⟨B.get ⟨i, hi⟩, he, hj⟩
      show allNodes (toTree B g j) =
        (subIdxs B g j).map (fun j => toTree B (B.length - j) j)
      exact ih g j (by omega) (by omega) hcb.2

theorem le_of_mem_subIdxs (B : List NodeEntry)
    (Hcb : ∀ i j, IsChild B i j → i < j ∧ j < B.length) :
    ∀ fuel i j, j ∈ subIdxs B fuel i → i ≤ j := by
  intro fuel
  induction fuel with
  | zero =>
    intro i j hj
    cases hj
  | succ g ih =>
    intro i j hj
    cases he : B.get? i with
    | none =>
      rw [subIdxs_oob B i (List.get?_eq_none.mp he) (g+1)] at hj
      cases hj
    | some e =>
      rw [subIdxs_some B g i e he] at hj
      rcases List.mem_cons.mp hj with rfl | hj
      · exact le_rfl
      · obtain ⟨l, hl, hjl⟩ := List.mem_flatten.mp hj
        obtain ⟨b, hb, rfl⟩ := List.mem_map.mp hl
        have hib : i < b := (Hcb i b ⟨e, he, hb⟩).1
        have := ih b j hjl
        omega

theorem mem_subIdxs_iff (B : List NodeEntry)
    (Hcb : ∀ i j, IsChild B i j → i < j ∧ j < B.length) :
    ∀ K fuel i j, B.length - i ≤ K → B.length - i ≤ fuel → i < B.length →
      (j ∈ subIdxs B fuel i ↔ Relation.ReflTransGen (IsChild B) i j) := by
  intro K
  induction K with
  | zero =>
    intro fuel i j hK _ hi
    omega
  | succ K ih =>
    intro fuel i j hK hf hi
    obtain ⟨g, rfl⟩ : ∃ g, fuel = g + 1 := ⟨fuel - 1, by omega⟩
    have he : B.get? i = some (B.get ⟨i, hi⟩) := List.get?_eq_get hi
    rw [subIdxs_some B g i _ he]
    constructor
    · intro hj
      rcases List.mem_cons.mp hj with rfl | hj
      · exact Relation.ReflTransGen.refl
      · obtain ⟨l, hl, hjl⟩ := List.mem_flatten.mp hj
        obtain ⟨b, hb, rfl⟩ := List.mem_map.mp hl
        have hib : IsChild B i b := ⟨B.get ⟨i, hi⟩, he, hb⟩
        have hcb := Hcb i b hib
        have hbj : Relation.ReflTransGen (IsChild B) b j :=
          (ih g b j (by omega) (by omega) hcb.2).mp hjl
        exact Relation.ReflTransGen.head hib hbj
    · intro hj
      rcases Relation.ReflTransGen.cases_head hj with rfl | ⟨b, hib, hbj⟩
      · exact List.mem_cons_self i _
      · obtain ⟨e2, he2, hb⟩ := hib
        rw [he] at he2
        rw [← Option.some_inj.mp he2] at hb
        have hcb := Hcb i b ⟨B.get ⟨i, hi⟩, he, hb⟩
        refine List.mem_cons_of_mem i (List.mem_flatten.mpr ⟨subIdxs B g b, ?_, ?_⟩)
        · exact List.mem_map_of_mem _ hb
        · exact (ih g b j (by omega) (by omega) hcb.2).mpr hbj

theorem reach_le (B : List NodeEntry)
    (Hcb : ∀ i j, IsChild B i j → i < j ∧ j < B.length)
    (a b : Nat) (h : Relation.ReflTransGen (IsChild B) a b) : a ≤ b := by
  induction h with
  | refl => exact le_rfl
  | tail h1 h2 ih =>
    have := (Hcb _ _ h2).1
    omega

theorem reach_comparable (B : List NodeEntry)
    (Hcb : ∀ i j, IsChild B i j → i < j ∧ j < B.length)
    (Hpu : ∀ i i' j, IsChild B i j → IsChild B i' j → i = i') :
    ∀ k a c, Relation.ReflTransGen (IsChild B) a k →
      Relation.ReflTransGen (IsChild B) c k →
      Relation.ReflTransGen (IsChild B) a c ∨ Relation.ReflTransGen (IsChild B) c a := by
  intro k
  induction k using Nat.strong_induction_on with
  | _ k ihk =>
    intro a c hak hck
    rcases Relation.ReflTransGen.cases_tail hak with rfl | ⟨p1, hap1, hp1k⟩
    · exact Or.inr hck
    · rcases Relation.ReflTransGen.cases_tail hck with rfl | ⟨p2, hcp2, hp2k⟩
      · exact Or.inl hak
      · have hpp : p1 = p2 := Hpu p1 p2 k hp1k hp2k
        rw [hpp] at hap1
        have hplt : p2 < k := (Hcb p2 k hp2k).1
        exact ihk p2 hplt a c hap1 hcp2

theorem subtree_disjoint (B : List NodeEntry)
    (Hcb : ∀ i j, IsChild B i j → i < j ∧ j < B.length)
    (Hpu : ∀ i i' j, IsChild B i j → IsChild B i' j → i = i')
    (i b1 b2 : Nat) (h1 : IsChild B i b1) (h2 : IsChild B i b2) (hne : b1 ≠ b2)
    (j : Nat) (hj1 : Relation.ReflTransGen (IsChild B) b1 j)
    (hj2 : Relation.ReflTransGen (IsChild B) b2 j) : False := by
  have hcomp := reach_comparable B Hcb Hpu j b1 b2 hj1 hj2
  have key : ∀ x y, IsChild B i x → IsChild B i y → x ≠ y →
      Relation.ReflTransGen (IsChild B) x y → False := by
    intro x y hx hy hxy hr
    rcases Relation.reflTransGen_iff_eq_or_transGen.mp hr with rfl | htr
    · exact hxy rfl
    · obtain ⟨c, hxc, hcy⟩ := Relation.TransGen.tail'_iff.mp htr
      have hci : c = i := Hpu c i y hcy hy
      rw [hci] at hxc
      have := reach_le B Hcb x i hxc
      have := (Hcb i x hx).1
      omega
  rcases hcomp with h | h
  · exact key b1 b2 h1 h2 hne h
  · exact key b2 b1 h2 h1 (Ne.symm hne) h

theorem subIdxs_nodup (B : List NodeEntry)
    (Hcb : ∀ i j, IsChild B i j → i < j ∧ j < B.length)
    (Hpu : ∀ i i' j, IsChild B i j → IsChild B i' j → i = i')
    (Hnd : ∀ i e, B.get? i = some e → e.childrenIdxs.Nodup) :
    ∀ K fuel i, B.length - i ≤ K → B.length - i ≤ fuel →
      (subIdxs B fuel i).Nodup := by
  intro K
  induction K with
  | zero =>
    intro fuel i hK hf
    have hi : B.length ≤ i := by omega
    rw [subIdxs_oob B i hi]
    exact List.nodup_nil
  | succ K ih =>
    intro fuel i hK hf
    by_cases hi : i < B.length
    · obtain ⟨g, rfl⟩ : ∃ g, fuel = g + 1 := ⟨fuel - 1, by omega⟩
      have he : B.get? i = some (B.get ⟨i, hi⟩) := List.get?_eq_get hi
      rw [subIdxs_some B g i _ he]
      rw [List.nodup_cons]
      constructor
      · intro hmem
        obtain ⟨l, hl, hjl⟩ := List.mem_flatten.mp hmem
        obtain ⟨b, hb, rfl⟩ := List.mem_map.mp hl
        have hib : i < b := (Hcb i b ⟨B.get ⟨i, hi⟩, he, hb⟩).1
        have := le_of_mem_subIdxs B Hcb g b i hjl
        omega
      · rw [List.nodup_flatten]
        constructor
        · intro l hl
          obtain ⟨b, hb, rfl⟩ := List.mem_map.mp hl
          have hcb := Hcb i b ⟨B.get ⟨i, hi⟩, he, hb⟩
          exact ih g b (by omega) (by omega)
        · have hndch : (B.get ⟨i, hi⟩).childrenIdxs.Nodup := Hnd i _ he
          rw [List.pairwise_map]
          refine List.Pairwise.imp_of_mem ?_ hndch
          intro b1 b2 hb1 hb2 hne
          intro j hjb1 hjb2
          have h1 : IsChild B i b1 := ⟨B.get ⟨i, hi⟩, he, hb1⟩
          have h2 : IsChild B i b2 := ⟨B.get ⟨i, hi⟩, he, hb2⟩
          have hcb1 := Hcb i b1 h1
          have hcb2 := Hcb i b2 h2
          have hr1 := (mem_subIdxs_iff B Hcb (K) g b1 j (by omega) (by omega) hcb1.2).mp hjb1
          have hr2 := (mem_subIdxs_iff B Hcb (K) g b2 j (by omega) (by omega) hcb2.2).mp hjb2
          exact subtree_disjoint B Hcb Hpu i b1 b2 h1 h2 hne j hr1 hr2
    · have hi' : B.length ≤ i := by omega
      rw [subIdxs_oob B i hi']
      exact List.nodup_nil

theorem reach_all (B : List NodeEntry)
    (Hcb : ∀ i j, IsChild B i j → i < j ∧ j < B.length)
    (Hpe : ∀ j, 1 ≤ j → j < B.length → ∃ i, IsChild B i j) :
    ∀ j, j < B.length → Relation.ReflTransGen (IsChild B) 0 j := by
  intro j
  induction j using Nat.strong_induction_on with
  | _ j ihj =>
    intro hj
    by_cases hj0 : j = 0
    · rw [hj0]
    · obtain ⟨i, hij⟩ := Hpe j (by omega) hj
      have hilt := (Hcb i j hij).1
      exact (ihj i hilt (by omega)).tail hij

theorem subIdxs_perm_range (B : List NodeEntry)
    (Hcb : ∀ i j, IsChild B i j → i < j ∧ j < B.length)
    (Hpu : ∀ i i' j, IsChild B i j → IsChild B i' j → i = i')
    (Hnd : ∀ i e, B.get? i = some e → e.childrenIdxs.Nodup)
    (Hpe : ∀ j, 1 ≤ j → j < B.length → ∃ i, IsChild B i j)
    (hn : 0 < B.length) :
    (subIdxs B B.length 0).Perm (List.range B.length) := by
  rw [List.perm_ext_iff_of_nodup
    (subIdxs_nodup B Hcb Hpu Hnd B.length B.length 0 (by omega) (by omega))
    (List.nodup_range _)]
  intro j
  rw [List.mem_range,
    mem_subIdxs_iff B Hcb B.length B.length 0 j (by omega) (by omega) hn]
  constructor
  · intro h
    rcases Relation.ReflTransGen.cases_tail h with h0 | ⟨c, _, hcj⟩
    · omega
    · exact (Hcb c j hcj).2
  · intro h
    exact reach_all B Hcb Hpe j h

theorem rootCandidatesCount_pos (root : ProgRec) (rest : List ProgRec) :
    1 ≤ rootCandidatesCount (root :: rest) (pathDepth root.program_path) := by
  unfold rootCandidatesCount
  rw [List.takeWhile_cons_of_pos (by simp)]
  simp

theorem tree_ok_elim (records : List ProgRec) (root : ProgRec) (rest : List ProgRec)
    (hsor : sortProgramData records = root :: rest)
    (t : ProgramTreeNode)
    (ht : get_all_programs_as_tree records = .ok (some t)) :
    t = toTree (bubbleRec (treeState records).pathToIdx (treeState records).entries
          (treeState records).entries.length)
        (bubbleRec (treeState records).pathToIdx (treeState records).entries
          (treeState records).entries.length).length 0 ∧
      records.countP (fun r => pathDepth r.program_path == minDepth records) = 1 := by
  unfold get_all_programs_as_tree at ht
  by_cases hemp : records.isEmpty
  · rw [if_pos hemp] at ht
    simp at ht
  · rw [if_neg hemp] at ht
    simp only [hsor] at ht
    by_cases hcnt : 1 < rootCandidatesCount (root :: rest) (pathDepth root.program_path)
    · rw [if_pos hcnt] at ht
      cases ht
    · rw [if_neg hcnt] at ht
      have hcnt1 : rootCandidatesCount (root :: rest) (pathDepth root.program_path) = 1 := by
        have := rootCandidatesCount_pos root rest
        omega
      constructor
      · simp only [Except.ok.injEq, Option.some.injEq] at ht
        exact ht.symm
      · rw [← rootCandidates_eq_countP records root rest hsor, hsor]
        exact hcnt1

theorem bubbleInv_start (d0 : Nat) (st : BuildState) (inv : PopInv d0 st) :
    BubbleInv st st.entries.length st.entries := by
  refine ⟨rfl, ?_, ?_⟩
  · intro i e' he'
    exact ⟨e', he', rfl⟩
  · intro i e' he'
    rw [inv.hasDesc_false e' (List.get?_mem he')]
    constructor
    · intro hc
      exact absurd hc Bool.false_ne_true
    · rintro ⟨j, hij, hnj, _⟩
      have := (inv.child_bound i j hij).2
      omega

theorem bubble_child_iff (st : BuildState) (B : List NodeEntry)
    (hlen : B.length = st.entries.length)
    (hpres : ∀ i e', B.get? i = some e' → ∃ e, st.entries.get? i = some e ∧
      e' = { e with
        has_descendant_expecting_software_effort :=
          e'.has_descendant_expecting_software_effort }) :
    ∀ i j, IsChild B i j ↔ IsChild st.entries i j := by
  intro i j
  constructor
  · rintro ⟨e', hie', hj⟩
    obtain ⟨e, he, heq⟩ := hpres i e' hie'
    have hch : e'.childrenIdxs = e.childrenIdxs := by rw [heq]
    exact ⟨e, he, hch ▸ hj⟩
  · rintro ⟨e, he, hj⟩
    have hi : i < B.length := by
      rw [hlen]
      exact get?_some_lt he
    have hie' : B.get? i = some (B.get ⟨i, hi⟩) := List.get?_eq_get hi
    obtain ⟨e2, he2, heq⟩ := hpres i _ hie'
    rw [he] at he2
    have he2' : e2 = e := Option.some_inj.mp he2.symm
    refine ⟨B.get ⟨i, hi⟩, hie', ?_⟩
    have hch : (B.get ⟨i, hi⟩).childrenIdxs = e.childrenIdxs := by rw [heq, he2']
    rw [hch]
    exact hj

theorem bubble_cb (d0 : Nat) (st : BuildState) (inv : PopInv d0 st)
    (B : List NodeEntry) (hlen : B.length = st.entries.length)
    (hpres : ∀ i e', B.get? i = some e' → ∃ e, st.entries.get? i = some e ∧
      e' = { e with
        has_descendant_expecting_software_effort :=
          e'.has_descendant_expecting_software_effort }) :
    ∀ i j, IsChild B i j → i < j ∧ j < B.length := by
  intro i j hij
  have := inv.child_bound i j ((bubble_child_iff st B hlen hpres i j).mp hij)
  rw [hlen]
  exact this

theorem bubble_pu (d0 : Nat) (st : BuildState) (inv : PopInv d0 st)
    (B : List NodeEntry) (hlen : B.length = st.entries.length)
    (hpres : ∀ i e', B.get? i = some e' → ∃ e, st.entries.get? i = some e ∧
      e' = { e with
        has_descendant_expecting_software_effort :=
          e'.has_descendant_expecting_software_effort }) :
    ∀ i i' j, IsChild B i j → IsChild B i' j → i = i' := by
  intro i i' j h1 h2
  exact inv.parent_unique i i' j ((bubble_child_iff st B hlen hpres i j).mp h1)
    ((bubble_child_iff st B hlen hpres i' j).mp h2)

theorem bubble_pe (d0 : Nat) (st : BuildState) (inv : PopInv d0 st)
    (B : List NodeEntry) (hlen : B.length = st.entries.length)
    (hpres : ∀ i e', B.get? i = some e' → ∃ e, st.entries.get? i = some e ∧
      e' = { e with
        has_descendant_expecting_software_effort :=
          e'.has_descendant_expecting_software_effort }) :
    ∀ j, 1 ≤ j → j < B.length → ∃ i, IsChild B i j := by
  intro j h1 h2
  rw [hlen] at h2
  obtain ⟨i, hi⟩ := inv.parent_exists j h1 h2
  exact ⟨i, (bubble_child_iff st B hlen hpres i j).mpr hi⟩

theorem bubble_nd (d0 : Nat) (st : BuildState) (inv : PopInv d0 st)
    (B : List NodeEntry)
    (hpres : ∀ i e', B.get? i = some e' → ∃ e, st.entries.get? i = some e ∧
      e' = { e with
        has_descendant_expecting_software_effort :=
          e'.has_descendant_expecting_software_effort }) :
    ∀ i e, B.get? i = some e → e.childrenIdxs.Nodup := by
  intro i e' he'
  obtain ⟨e, he, heq⟩ := hpres i e' he'
  have hch : e'.childrenIdxs = e.childrenIdxs := by rw [heq]
  rw [hch]
  exact inv.children_nodup i e he

theorem needsFlag_iff_reach (E : List NodeEntry) (b : Nat) :
    needsFlag E b ↔
      ∃ l, Relation.ReflTransGen (IsChild E) b l ∧ expectingAt E l := by
  constructor
  · rintro (h | ⟨l, ht, hexp⟩)
    · exact ⟨b, Relation.ReflTransGen.refl, h⟩
    · exact ⟨l, ht.to_reflTransGen, hexp⟩
  · rintro ⟨l, hr, hexp⟩
    rcases Relation.reflTransGen_iff_eq_or_transGen.mp hr with rfl | htr
    · exact Or.inl hexp
    · exact Or.inr ⟨l, htr, hexp⟩

theorem bubble_flag_iff (d0 : Nat) (st : BuildState) (inv : PopInv d0 st)
    (B : List NodeEntry) (hB : BubbleInv st 0 B) :
    ∀ i e', B.get? i = some e' →
      (e'.has_descendant_expecting_software_effort = true ↔
        DescExpecting st.entries i) := by
  intro i e' he'
  rw [hB.flag i e' he']
  rw [← needsFlag_children_iff st.entries i]
  constructor
  · rintro ⟨j, hij, _, hD⟩
    exact ⟨j, hij, hD⟩
  · rintro ⟨j, hij, hD⟩
    exact ⟨j, hij, Nat.zero_le j, hD⟩

theorem insertStep_entries_le (st : BuildState) (r : ProgRec) :
    st.entries.length ≤ (insertStep st r).entries.length := by
  cases hlook : lookupPath st.pathToIdx (getParentIdPath r.program_path) with
  | none => rw [insertStep_orphan st r hlook]
  | some i0 =>
    rw [insertStep_insert st r i0 hlook]
    simp only [List.length_append, length_modifyIdx]
    omega

theorem insertStep_entry_eq (st : BuildState) (r : ProgRec) (k : Nat) (e' : NodeEntry)
    (h : (insertStep st r).entries.get? k = some e') (hk : k < st.entries.length) :
    ∃ e, st.entries.get? k = some e ∧ e' = { e with childrenIdxs := e'.childrenIdxs } := by
  cases hlook : lookupPath st.pathToIdx (getParentIdPath r.program_path) with
  | none =>
    rw [insertStep_orphan st r hlook] at h
    exact ⟨e', h, rfl⟩
  | some i0 =>
    rw [insertStep_insert st r i0 hlook] at h
    rcases get?_modify_append st.entries i0 _ (mapToDto r) k e' h with ⟨e, he, hee⟩ | ⟨_, hkl⟩
    · refine ⟨e, he, ?_⟩
      rcases hee with hee | hee <;> rw [hee] <;> rfl
    · omega

theorem populate_entry_eq : ∀ (l : List ProgRec) (st : BuildState) (k : Nat) (e' : NodeEntry),
    (populate st l).entries.get? k = some e' → k < st.entries.length →
    ∃ e, st.entries.get? k = some e ∧ e' = { e with childrenIdxs := e'.childrenIdxs } := by
  intro l
  induction l with
  | nil =>
    intro st k e' h hk
    exact ⟨e', h, rfl⟩
  | cons r l ih =>
    intro st k e' h hk
    have hk' : k < (insertStep st r).entries.length :=
      lt_of_lt_of_le hk (insertStep_entries_le st r)
    obtain ⟨e1, he1, heq1⟩ := ih (insertStep st r) k e' h hk'
    obtain ⟨e0, he0, heq0⟩ := insertStep_entry_eq st r k e1 he1 hk
    refine ⟨e0, he0, ?_⟩
    calc e' = { e1 with childrenIdxs := e'.childrenIdxs } := heq1
      _ = { e0 with childrenIdxs := e'.childrenIdxs } := by rw [heq0]

theorem treeState_entry0 (records : List ProgRec) (root : ProgRec) (rest : List ProgRec)
    (hsor : sortProgramData records = root :: rest) :
    ∀ e0', (treeState records).entries.get? 0 = some e0' →
      e0' = { mapToDto root with childrenIdxs := e0'.childrenIdxs } := by
  intro e0' h
  have hts : treeState records = populate (initState root) rest := by
    unfold treeState
    rw [hsor]
  rw [hts] at h
  obtain ⟨e0, he0, heq⟩ := populate_entry_eq rest (initState root) 0 e0' h (by
    show 0 < 1
    omega)
  have he0' : e0 = mapToDto root := (initState_get root 0 e0 he0).2
  rw [he0'] at heq
  exact heq

theorem insertStep_count (st : BuildState) (r : ProgRec) :
    (insertStep st r).entries.length + (insertStep st r).orphans.length =
      st.entries.length + st.orphans.length + 1 := by
  cases hlook : lookupPath st.pathToIdx (getParentIdPath r.program_path) with
  | none =>
    rw [insertStep_orphan st r hlook]
    simp only [List.length_append, List.length_singleton]
    omega
  | some i0 =>
    rw [insertStep_insert st r i0 hlook]
    simp only [List.length_append, length_modifyIdx, List.length_singleton]
    omega

theorem populate_count : ∀ (l : List ProgRec) (st : BuildState),
    (populate st l).entries.length + (populate st l).orphans.length =
      st.entries.length + st.orphans.length + l.length := by
  intro l
  induction l with
  | nil =>
    intro st
    rfl
  | cons r l ih =>
    intro st
    show (populate (insertStep st r) l).entries.length +
        (populate (insertStep st r) l).orphans.length = _
    rw [ih (insertStep st r), insertStep_count st r]
    simp only [List.length_cons]
    omega

theorem bubbleStep_cases (map : List (String × Nat)) (acc : List NodeEntry) (k : Nat) :
    bubbleStep map acc k = acc ∨
      ∃ i, bubbleStep map acc k = modifyIdx acc i setDescFlag := by
  cases he : acc.get? k with
  | none => exact Or.inl (bubbleStep_oob map acc k he)
  | some e =>
    cases hc : (e.expecting_software_efforts ||
        e.has_descendant_expecting_software_effort) with
    | false => exact Or.inl (bubbleStep_skip map acc k e he hc)
    | true =>
      by_cases hpp : getParentIdPath e.program_path = ""
      · exact Or.inl (bubbleStep_rootpp map acc k e he hpp)
      · cases hl : lookupPath map (getParentIdPath e.program_path) with
        | none => exact Or.inl (bubbleStep_nolookup map acc k e he hl)
        | some i => exact Or.inr ⟨i, bubbleStep_hit map acc k e i he hc hpp hl⟩

theorem modifyIdx_setDescFlag_pres (acc : List NodeEntry) (ip : Nat) :
    ∀ i e', (modifyIdx acc ip setDescFlag).get? i = some e' →
      ∃ e, acc.get? i = some e ∧
        e' = { e with
          has_descendant_expecting_software_effort :=
            e'.has_descendant_expecting_software_effort } := by
  intro i e' he'
  by_cases hiip : i = ip
  · subst hiip
    rw [get?_modifyIdx_eq] at he'
    cases hx : acc.get? i with
    | none => rw [hx] at he'; cases he'
    | some x =>
      rw [hx] at he'
      simp only [Option.map_some'] at he'
      have he'2 : e' = setDescFlag x := (Option.some_inj.mp he').symm
      refine ⟨x, rfl, ?_⟩
      rw [he'2]
      rfl
  · rw [get?_modifyIdx_ne _ _ _ _ hiip] at he'
    exact ⟨e', he', rfl⟩

theorem bubbleRec_struct (map : List (String × Nat)) :
    ∀ (k : Nat) (acc : List NodeEntry),
      (bubbleRec map acc k).length = acc.length ∧
      (∀ i e', (bubbleRec map acc k).get? i = some e' →
        ∃ e, acc.get? i = some e ∧
          e' = { e with
            has_descendant_expecting_software_effort :=
              e'.has_descendant_expecting_software_effort }) := by
  intro k
  induction k with
  | zero =>
    intro acc
    exact ⟨rfl, fun i e' h => ⟨e', h, rfl⟩⟩
  | succ k ih =>
    intro acc
    show (bubbleRec map (bubbleStep map acc k) k).length = acc.length ∧ _
    obtain ⟨ihlen, ihpres⟩ := ih (bubbleStep map acc k)
    have hstep : (bubbleStep map acc k).length = acc.length ∧
        (∀ i e', (bubbleStep map acc k).get? i = some e' →
          ∃ e, acc.get? i = some e ∧
            e' = { e with
              has_descendant_expecting_software_effort :=
                e'.has_descendant_expecting_software_effort }) := by
      rcases bubbleStep_cases map acc k with h | ⟨ip, h⟩ <;> rw [h]
      · exact ⟨rfl, fun i e' h' => ⟨e', h', rfl⟩⟩
      · exact ⟨length_modifyIdx acc ip setDescFlag, modifyIdx_setDescFlag_pres acc ip⟩
    refine ⟨by rw [ihlen, hstep.1], ?_⟩
    intro i e' he'
    obtain ⟨e1, he1, heq1⟩ := ihpres i e' he'
    obtain ⟨e0, he0, heq0⟩ := hstep.2 i e1 he1
    refine ⟨e0, he0, ?_⟩
    calc e' = { e1 with
        has_descendant_expecting_software_effort :=
          e'.has_descendant_expecting_software_effort } := heq1
      _ = { e0 with
        has_descendant_expecting_software_effort :=
          e'.has_descendant_expecting_software_effort } := by rw [heq0]

theorem bubbleRec_bubbleInv (d0 : Nat) (st : BuildState) (inv : PopInv d0 st)
    (hroot : ∀ e0, st.entries.get? 0 = some e0 → e0.program_path ≠ "") :
    ∀ (k : Nat) (acc : List NodeEntry), k ≤ st.entries.length →
      BubbleInv st k acc → BubbleInv st 0 (bubbleRec st.pathToIdx acc k) := by
  intro k
  induction k with
  | zero =>
    intro acc _ h
    exact h
  | succ k ih =>
    intro acc hk h
    show BubbleInv st 0 (bubbleRec st.pathToIdx (bubbleStep st.pathToIdx acc k) k)
    exact ih (bubbleStep st.pathToIdx acc k) (by omega)
      (bubbleStep_bubbleInv d0 st inv hroot k acc (by omega) h)

theorem finalEntries_bubbleInv (records : List ProgRec) (root : ProgRec)
    (rest : List ProgRec) (hsor : sortProgramData records = root :: rest)
    (hone : records.countP (fun r => pathDepth r.program_path == minDepth records) = 1)
    (hroot : root.program_path ≠ "") :
    BubbleInv (treeState records) 0 (finalEntries records) := by
  have inv := popInv_treeState records root rest hsor hone
  have hroot0 : ∀ e0, (treeState records).entries.get? 0 = some e0 →
      e0.program_path ≠ "" := by
    intro e0 he0 hc
    have heq := treeState_entry0 records root rest hsor e0 he0
    rw [heq] at hc
    exact hroot hc
  exact bubbleRec_bubbleInv _ _ inv hroot0 _ _ le_rfl (bubbleInv_start _ _ inv)

theorem toTree_expecting (B : List NodeEntry) (l : Nat) (hl : l < B.length) :
    (toTree B (B.length - l) l).expecting_software_efforts =
      (B.get ⟨l, hl⟩).expecting_software_efforts := by
  obtain ⟨g, hg⟩ : ∃ g, B.length - l = g + 1 := ⟨B.length - l - 1, by omega⟩
  rw [hg, toTree_some B g l _ (List.get?_eq_get hl)]

theorem bubble_expecting_iff (st : BuildState) (B : List NodeEntry)
    (hpres : ∀ i e', B.get? i = some e' → ∃ e, st.entries.get? i = some e ∧
      e' = { e with
        has_descendant_expecting_software_effort :=
          e'.has_descendant_expecting_software_effort })
    (l : Nat) (hl : l < B.length) :
    ((B.get ⟨l, hl⟩).expecting_software_efforts = true ↔ expectingAt st.entries l) := by
  have hbl : B.get? l = some (B.get ⟨l, hl⟩) := List.get?_eq_get hl
  obtain ⟨e, he, heq⟩ := hpres l _ hbl
  have hxp : (B.get ⟨l, hl⟩).expecting_software_efforts =
      e.expecting_software_efforts := by rw [heq]
  rw [hxp]
  constructor
  · intro h
    exact ⟨e, he, h⟩
  · rintro ⟨e2, he2, h2⟩
    rw [he] at he2
    rw [← Option.some_inj.mp he2] at h2
    exact h2

theorem reach_lt_of_reach (B : List NodeEntry)
    (Hcb : ∀ i j, IsChild B i j → i < j ∧ j < B.length)
    (b l : Nat) (hb : b < B.length)
    (h : Relation.ReflTransGen (IsChild B) b l) : l < B.length := by
  rcases Relation.ReflTransGen.cases_tail h with h0 | ⟨c, _, hcl⟩
  · omega
  · exact (Hcb c l hcl).2

/-- C2 (amended): in every tree returned by `get_all_programs_as_tree` whose
root record's path is non-empty, a node's
`has_descendant_expecting_software_effort` is true exactly when some proper
descendant of that node has `expecting_software_efforts` true. (Without the
non-empty-root-path proviso the aggregation loop's truthiness guard on the
parent path skips the root's children, see `c2_counterexample`.) -/
theorem c2_has_descendant_iff_amended (records : List ProgRec) (root : ProgRec)
    (rest : List ProgRec) (hsor : sortProgramData records = root :: rest)
    (hroot : root.program_path ≠ "") (t : ProgramTreeNode)
    (ht : get_all_programs_as_tree records = Except.ok (some t)) :
    ∀ m ∈ allNodes t,
      (m.has_descendant_expecting_software_effort = true ↔ treeDescExpecting m) := by
  obtain ⟨htt, hone⟩ := tree_ok_elim records root rest hsor t ht
  have inv := popInv_treeState records root rest hsor hone
  have hB : BubbleInv (treeState records) 0 (finalEntries records) :=
    finalEntries_bubbleInv records root rest hsor hone hroot
  have htt' : t = toTree (finalEntries records) (finalEntries records).length 0 := htt
  have hlen := hB.len
  have hpres := hB.pres
  have Hcb := bubble_cb _ (treeState records) inv (finalEntries records) hlen hpres
  have hchiff := bubble_child_iff (treeState records) (finalEntries records) hlen hpres
  have hn0 : 0 < (finalEntries records).length := by
    rw [hlen]
    exact inv.n_pos
  have hall : allNodes t = (subIdxs (finalEntries records) (finalEntries records).length 0).map
      (fun j => toTree (finalEntries records) ((finalEntries records).length - j) j) := by
    rw [htt']
    exact allNodes_toTree (finalEntries records) Hcb (finalEntries records).length
      (finalEntries records).length 0 (by omega) (by omega) hn0
  intro m hm
  rw [hall] at hm
  obtain ⟨j, hjmem, rfl⟩ := List.mem_map.mp hm
  have hreach : Relation.ReflTransGen (IsChild (finalEntries records)) 0 j :=
    (mem_subIdxs_iff (finalEntries records) Hcb (finalEntries records).length
      (finalEntries records).length 0 j (by omega) (by omega) hn0).mp hjmem
  have hjlt : j < (finalEntries records).length :=
    reach_lt_of_reach (finalEntries records) Hcb 0 j hn0 hreach
  obtain ⟨g, hg⟩ : ∃ g, (finalEntries records).length - j = g + 1 :=
    ⟨(finalEntries records).length - j - 1, by omega⟩
  have hbj : (finalEntries records).get? j =
      some ((finalEntries records).get ⟨j, hjlt⟩) := List.get?_eq_get hjlt
  have hflag := bubble_flag_iff _ (treeState records) inv (finalEntries records) hB
    j _ hbj
  have hLHS : (toTree (finalEntries records) ((finalEntries records).length - j) j).has_descendant_expecting_software_effort =
      ((finalEntries records).get ⟨j, hjlt⟩).has_descendant_expecting_software_effort := by
    rw [hg, toTree_some (finalEntries records) g j _ hbj]
  rw [hLHS, hflag]
  have hchildren : (toTree (finalEntries records) ((finalEntries records).length - j) j).children =
      ((finalEntries records).get ⟨j, hjlt⟩).childrenIdxs.map
        (toTree (finalEntries records) g) := by
    rw [hg, toTree_some (finalEntries records) g j _ hbj]
  rw [← needsFlag_children_iff (treeState records).entries j]
  unfold treeDescExpecting
  rw [hchildren]
  constructor
  · rintro ⟨b, hjbE, hnfb⟩
    have hjbB : IsChild (finalEntries records) j b := (hchiff j b).mpr hjbE
    obtain ⟨e', hje', hbmem⟩ := hjbB
    rw [hbj] at hje'
    rw [← Option.some_inj.mp hje'] at hbmem
    have hbbound := Hcb j b ((hchiff j b).mpr hjbE)
    obtain ⟨l, hReachE, hexpl⟩ := (needsFlag_iff_reach (treeState records).entries b).mp hnfb
    have hReachB : Relation.ReflTransGen (IsChild (finalEntries records)) b l :=
      Relation.ReflTransGen.mono (fun i j h => (hchiff i j).mpr h) hReachE
    have hllt : l < (finalEntries records).length :=
      reach_lt_of_reach (finalEntries records) Hcb b l hbbound.2 hReachB
    refine ⟨toTree (finalEntries records) g b, List.mem_map_of_mem _ hbmem,
      toTree (finalEntries records) ((finalEntries records).length - l) l, ?_, ?_⟩
    · rw [allNodes_toTree (finalEntries records) Hcb (finalEntries records).length g b
        (by omega) (by omega) hbbound.2]
      refine List.mem_map_of_mem _ ?_
      exact (mem_subIdxs_iff (finalEntries records) Hcb (finalEntries records).length g b l
        (by omega) (by omega) hbbound.2).mpr hReachB
    · rw [toTree_expecting (finalEntries records) l hllt]
      exact (bubble_expecting_iff (treeState records) (finalEntries records) hpres l
        hllt).mpr hexpl
  · rintro ⟨c, hc, m2, hm2, hexp⟩
    obtain ⟨b, hbmem, rfl⟩ := List.mem_map.mp hc
    have hjbB : IsChild (finalEntries records) j b :=
      ⟨(finalEntries records).get ⟨j, hjlt⟩, hbj, hbmem⟩
    have hbbound := Hcb j b hjbB
    rw [allNodes_toTree (finalEntries records) Hcb (finalEntries records).length g b
      (by omega) (by omega) hbbound.2] at hm2
    obtain ⟨l, hlmem, rfl⟩ := List.mem_map.mp hm2
    have hReachB : Relation.ReflTransGen (IsChild (finalEntries records)) b l :=
      (mem_subIdxs_iff (finalEntries records) Hcb (finalEntries records).length g b l
        (by omega) (by omega) hbbound.2).mp hlmem
    have hllt : l < (finalEntries records).length :=
      reach_lt_of_reach (finalEntries records) Hcb b l hbbound.2 hReachB
    rw [toTree_expecting (finalEntries records) l hllt] at hexp
    have hexpE : expectingAt (treeState records).entries l :=
      (bubble_expecting_iff (treeState records) (finalEntries records) hpres l hllt).mp hexp
    have hReachE : Relation.ReflTransGen (IsChild (treeState records).entries) b l :=
      Relation.ReflTransGen.mono (fun i j h => (hchiff i j).mp h) hReachB
    exact ⟨b, (hchiff j b).mp hjbB,
      (needsFlag_iff_reach (treeState records).entries b).mpr ⟨l, hReachE, hexpE⟩⟩

theorem popInv_d0_pos (d0 : Nat) (st : BuildState) (inv : PopInv d0 st) : 1 ≤ d0 := by
  obtain ⟨e0, he0⟩ : ∃ e0, st.entries.get? 0 = some e0 := by
    cases h0 : st.entries.get? 0 with
    | none =>
      rw [List.get?_eq_none] at h0
      exact absurd inv.n_pos (by omega)
    | some e0 => exact ⟨e0, rfl⟩
  have := inv.path0 e0 he0
  have := pathDepth_pos e0.program_path
  omega

theorem prefix_dropLast {α : Type} (l1 l2 : List α) (h : l1 <+: l2)
    (hlt : l1.length + 1 ≤ l2.length) : l1 <+: l2.dropLast := by
  rw [List.prefix_iff_eq_take] at h
  rw [List.prefix_iff_eq_take, List.dropLast_eq_take, List.take_take,
    min_eq_left (by omega)]
  exact h

theorem no_entry_extends_orphan (d0 : Nat) (st : BuildState) (inv : PopInv d0 st) :
    ∀ d i e o, o ∈ st.orphans → st.entries.get? i = some e →
      pathDepth e.program_path ≤ d →
      segsOf o.program_path <+: segsOf e.program_path → False := by
  intro d
  induction d with
  | zero =>
    intro i e o ho he hd hpre
    have := pathDepth_pos e.program_path
    omega
  | succ d ih =>
    intro i e o ho he hd hpre
    have hd0pos : 1 ≤ d0 := popInv_d0_pos d0 st inv
    have hdo : d0 + 1 ≤ pathDepth o.program_path := inv.orphan_depth o ho
    have hlen_le : pathDepth o.program_path ≤ pathDepth e.program_path := hpre.length_le
    by_cases hi0 : i = 0
    · rw [hi0] at he
      have := inv.path0 e he
      omega
    · have hdt : d0 + 1 ≤ pathDepth e.program_path := inv.depth_tail i e he (by omega)
      have hdote : '.' ∈ e.program_path.toList := by
        rw [← two_le_pathDepth_iff]
        omega
      obtain ⟨ip, hchild⟩ := inv.parent_exists i (by omega) (get?_some_lt he)
      have hlk := inv.parent_lookup ip i hchild e he
      obtain ⟨ep, hepi, heppath⟩ := inv.map_sound _ ip hlk
      by_cases heq : (segsOf o.program_path).length = (segsOf e.program_path).length
      · have hsegeq := hpre.eq_of_length heq
        have hpatheq := segsOf_inj _ _ hsegeq
        apply inv.orphan_parent o ho ip ep hepi
        rw [heppath, hpatheq]
      · have hlt : (segsOf o.program_path).length + 1 ≤ (segsOf e.program_path).length := by
          have h2 : (segsOf o.program_path).length ≤ (segsOf e.program_path).length :=
            hpre.length_le
          omega
        have hprefix' : segsOf o.program_path <+: (segsOf e.program_path).dropLast :=
          prefix_dropLast _ _ hpre hlt
        rw [← segsOf_parent e.program_path hdote, ← heppath] at hprefix'
        refine ih ip ep o ho hepi ?_ hprefix'
        have hpd := pathDepth_parent e.program_path hdote
        have hpep : pathDepth ep.program_path =
            pathDepth (getParentIdPath e.program_path) := by rw [heppath]
        omega

theorem toTree_path (B : List NodeEntry) (l : Nat) (hl : l < B.length) :
    (toTree B (B.length - l) l).program_path = (B.get ⟨l, hl⟩).program_path := by
  obtain ⟨g, hg⟩ : ∃ g, B.length - l = g + 1 := ⟨B.length - l - 1, by omega⟩
  rw [hg, toTree_some B g l _ (List.get?_eq_get hl)]

/-- C3: with a unique minimum-depth record, the returned tree's root carries
exactly that record's data; every logged orphan is excluded from the tree
together with all its path descendants (no tree node's path has an orphan's
path as a dot-segment prefix); and the tree's node count is the number of
records minus the number of orphans. -/
theorem c3_root_orphans_count (records : List ProgRec) (root : ProgRec)
    (rest : List ProgRec) (hsor : sortProgramData records = root :: rest)
    (hone : records.countP (fun r => pathDepth r.program_path == minDepth records) = 1)
    (t : ProgramTreeNode)
    (ht : get_all_programs_as_tree records = Except.ok (some t)) :
    (t.program_name = root.name ∧ t.program_id = root.program_id ∧
      t.program_path = root.program_path ∧
      t.expecting_software_efforts = root.expect_software_effort) ∧
    (root ∈ records ∧
      ∀ r ∈ records, pathDepth root.program_path ≤ pathDepth r.program_path) ∧
    (∀ o ∈ treeOrphans records, ∀ m ∈ allNodes t,
      ¬ (segsOf o.program_path <+: segsOf m.program_path)) ∧
    (allNodes t).length + (treeOrphans records).length = records.length := by
  obtain ⟨htt, _⟩ := tree_ok_elim records root rest hsor t ht
  have inv := popInv_treeState records root rest hsor hone
  have hstruct := bubbleRec_struct (treeState records).pathToIdx
    (treeState records).entries.length (treeState records).entries
  have hlen : (finalEntries records).length = (treeState records).entries.length :=
    hstruct.1
  have hpres : ∀ i e', (finalEntries records).get? i = some e' →
      ∃ e, (treeState records).entries.get? i = some e ∧
        e' = { e with
          has_descendant_expecting_software_effort :=
            e'.has_descendant_expecting_software_effort } := hstruct.2
  have Hcb := bubble_cb _ (treeState records) inv (finalEntries records) hlen hpres
  have Hpu := bubble_pu _ (treeState records) inv (finalEntries records) hlen hpres
  have Hpe := bubble_pe _ (treeState records) inv (finalEntries records) hlen hpres
  have Hnd := bubble_nd _ (treeState records) inv (finalEntries records) hpres
  have hn0 : 0 < (finalEntries records).length := by
    rw [hlen]
    exact inv.n_pos
  have htt' : t = toTree (finalEntries records) (finalEntries records).length 0 := htt
  have hall : allNodes t =
      (subIdxs (finalEntries records) (finalEntries records).length 0).map
        (fun j => toTree (finalEntries records) ((finalEntries records).length - j) j) := by
    rw [htt']
    exact allNodes_toTree (finalEntries records) Hcb (finalEntries records).length
      (finalEntries records).length 0 (by omega) (by omega) hn0
  refine ⟨?_, ?_, ?_, ?_⟩
  · have hb0 : (finalEntries records).get? 0 =
        some ((finalEntries records).get ⟨0, hn0⟩) := List.get?_eq_get hn0
    obtain ⟨e0, he0, heq0⟩ := hpres 0 _ hb0
    have hroot0 := treeState_entry0 records root rest hsor e0 he0
    obtain ⟨g, hg⟩ : ∃ g, (finalEntries records).length = g + 1 :=
      ⟨(finalEntries records).length - 1, by omega⟩
    rw [htt', hg, toTree_some (finalEntries records) g 0 _ hb0]
    refine ⟨?_, ?_, ?_, ?_⟩ <;>
      · show _ = _
        rw [heq0, hroot0]
        rfl
  · constructor
    · have : root ∈ sortProgramData records := by
        rw [hsor]
        exact List.mem_cons_self root rest
      exact (sortProgramData_perm records).mem_iff.mp this
    · intro r hr
      rw [sorted_head_min records root rest hsor]
      exact minDepth_le records r hr
  · intro o ho m hm
    rw [hall] at hm
    obtain ⟨j, hjmem, rfl⟩ := List.mem_map.mp hm
    have hreach := (mem_subIdxs_iff (finalEntries records) Hcb
      (finalEntries records).length (finalEntries records).length 0 j
      (by omega) (by omega) hn0).mp hjmem
    have hjlt : j < (finalEntries records).length :=
      reach_lt_of_reach (finalEntries records) Hcb 0 j hn0 hreach
    have hbj : (finalEntries records).get? j =
        some ((finalEntries records).get ⟨j, hjlt⟩) := List.get?_eq_get hjlt
    rw [toTree_path (finalEntries records) j hjlt]
    obtain ⟨ej, hej, heqj⟩ := hpres j _ hbj
    have hpj : ((finalEntries records).get ⟨j, hjlt⟩).program_path =
        ej.program_path := by rw [heqj]
    rw [hpj]
    intro hpre
    exact no_entry_extends_orphan _ (treeState records) inv
      (pathDepth ej.program_path) j ej o ho hej le_rfl hpre
  · rw [hall, List.length_map,
      (subIdxs_perm_range (finalEntries records) Hcb Hpu Hnd Hpe hn0).length_eq,
      List.length_range]
    have hts : treeState records = populate (initState root) rest := by
      unfold treeState
      rw [hsor]
    have hcnt := populate_count rest (initState root)
    have h1 : (initState root).entries.length = 1 := rfl
    have h2 : (initState root).orphans.length = 0 := rfl
    rw [h1, h2] at hcnt
    have hreclen : records.length = rest.length + 1 := by
      have hpl := (sortProgramData_perm records).length_eq
      rw [hsor] at hpl
      simp only [List.length_cons] at hpl
      omega
    show (finalEntries records).length + (treeState records).orphans.length = _
    rw [hlen, hts]
    omega

/-- C2 counterexample: with a root whose path is the empty string, the child
`".x"` expects software efforts yet the returned root's
`has_descendant_expecting_software_effort` is false — the loop's truthiness
guard `if parent_path and parent_path in id_path_to_node` drops the empty
parent path, so the claimed "if and only if" fails on the root. -/
theorem c2_counterexample :
    get_all_programs_as_tree c2recs = Except.ok (some c2tree) ∧
    (∃ c ∈ c2tree.children, c.expecting_software_efforts = true) ∧
    c2tree.has_descendant_expecting_software_effort = false :=
  ⟨rfl, by decide, rfl⟩

theorem c2_witness :
    (sortProgramData w2recs = w2root :: [w2child] ∧ w2root.program_path ≠ "" ∧
      get_all_programs_as_tree w2recs = Except.ok (some w2tree)) ∧
    ∀ m ∈ allNodes w2tree,
      (m.has_descendant_expecting_software_effort = true ↔ treeDescExpecting m) :=
  ⟨⟨rfl, by decide, rfl⟩,
    c2_has_descendant_iff_amended w2recs w2root [w2child] rfl (by decide) w2tree rfl⟩

theorem c3_witness :
    (sortProgramData w3recs = w3root :: w3rest ∧
      w3recs.countP (fun r => pathDepth r.program_path == minDepth w3recs) = 1 ∧
      get_all_programs_as_tree w3recs = Except.ok (some w3tree)) ∧
    ((w3tree.program_name = w3root.name ∧ w3tree.program_id = w3root.program_id ∧
      w3tree.program_path = w3root.program_path ∧
      w3tree.expecting_software_efforts = w3root.expect_software_effort) ∧
    (w3root ∈ w3recs ∧
      ∀ r ∈ w3recs, pathDepth w3root.program_path ≤ pathDepth r.program_path) ∧
    (∀ o ∈ treeOrphans w3recs, ∀ m ∈ allNodes w3tree,
      ¬ (segsOf o.program_path <+: segsOf m.program_path)) ∧
    (allNodes w3tree).length + (treeOrphans w3recs).length = w3recs.length) :=
  ⟨⟨rfl, by decide, rfl⟩,
    c3_root_orphans_count w3recs w3root w3rest rfl (by decide) w3tree rfl⟩
